import Mathlib

/-!
The bi-tree repository: a binary tree of XOR digests over Lamport-clock ranges.

Shallow embedding of `data.go` and `tree.go`.

* The clock type `LC` is Go's `uint32`. Clock values are written as `Nat`; a value of the
  type is a number below `lcSize`, and every arithmetic operation of the source is reduced
  modulo `2 ^ 32` explicitly.
* A value of type `node D` models a Go pointer `*node`: `node.nil` is the nil pointer.
* Methods that mutate their receiver return the new receiver.
* A result `none` means that the call does not return normally: a nil dereference, or
  (for the functions that take `fuel`) a loop or recursion that has not finished within
  `fuel` steps.
-/

namespace BiTree

/-! ## data.go -/

/-- Modulus of `uint32` arithmetic. -/
def lcSize : Nat := 2 ^ 32

/-- Go `error`: `none` is the nil error. -/
abbrev error := Option String

/-- Go `byte`. -/
abbrev byte := Fin 256

/-- The Go declaration `type TxRef [32]byte`. -/
def TxRef := { l : List byte // l.length = 32 }

instance : DecidableEq TxRef := inferInstanceAs (DecidableEq { l : List byte // l.length = 32 })

/-- The expression `r[i] ^ ref[i]` on bytes. -/
def byteXor (a b : byte) : byte := ⟨(a.val ^^^ b.val) % 256, Nat.mod_lt _ (by decide)⟩

/-- The all-zero array, the value of `new(TxRef)`. -/
def TxRef.zero : TxRef := ⟨List.replicate 32 0, List.length_replicate 32 0⟩

/-- The method `func (r *TxRef) xor(ref TxRef)`: `for i := range r { r[i] ^= ref[i] }`. -/
def TxRef.xor (r ref : TxRef) : TxRef :=
  ⟨List.zipWith byteXor r.1 ref.1, by
    rw [List.length_zipWith, r.2, ref.2]; rfl⟩

/-- The Go interface `Data`. `Insert` and `Subtract` work in place: they return the
receiver after the call together with the error. -/
class Data (D : Type) where
  /-- Insert a transaction reference in place. -/
  Insert : D → TxRef → D × error
  /-- Subtract data in place. -/
  Subtract : D → D → D × error
  /-- Clone returns a copy of the data. -/
  Clone : D → D

/-- The function `NewTxRef`: `return new(TxRef)`. -/
def NewTxRef : Unit → TxRef := fun _ => TxRef.zero

/-- The method `func (r *TxRef) Insert(ref TxRef) error`. -/
def TxRef.Insert (r ref : TxRef) : TxRef × error := (r.xor ref, none)

/-- The method `func (r *TxRef) Clone() Data`. -/
def TxRef.Clone (r : TxRef) : TxRef := r

/-- The method `func (r *TxRef) Subtract(data Data) error`, for an argument whose
dynamic type is `*TxRef` (the type assertion succeeds). -/
def TxRef.Subtract (r data : TxRef) : TxRef × error := (r.xor data, none)

/-- A value of the interface type `Data` as the type assertion `data.(*TxRef)` sees it: the
nil interface value, a `*TxRef` (the nil pointer `none`, or a pointer to an array), or a
value of any other dynamic type. -/
inductive DataValue where
  | nilData : DataValue
  | txRef (p : Option TxRef) : DataValue
  | other (typeName : String) : DataValue

/-- The method `func (r *TxRef) Subtract(data Data) error` for an arbitrary argument. The
result `none` stands for the nil dereference in `r.xor(*ref)`. -/
def TxRef.SubtractData (r : TxRef) : DataValue → Option (TxRef × error)
  | DataValue.txRef (some ref) => some (r.xor ref, none)
  | DataValue.txRef none => none
  | DataValue.nilData => some (r, some "internal data structures do not match")
  | DataValue.other _ => some (r, some "internal data structures do not match")

instance : Data TxRef where
  Insert := TxRef.Insert
  Subtract := TxRef.Subtract
  Clone := TxRef.Clone

/-! ## tree.go -/

/-- A pointer `*node`: `nil`, or a node with `split`, `max`, `data`, `left`, `right`. -/
inductive node (D : Type) where
  | nil : node D
  | mk (split max : Nat) (data : D) (left right : node D) : node D
  deriving DecidableEq

/-- The function `newNode`. -/
def newNode {D : Type} (split max : Nat) (data : D) : node D :=
  node.mk split max data node.nil node.nil

/-- The Go declaration `type tree struct`. -/
structure tree (D : Type) where
  root : node D
  maxLC : Nat
  leafSize : Nat
  dataInitFn : Unit → D

/-- The function `New`. -/
def New {D : Type} (leafSize : Nat) (dataInitFn : Unit → D) : tree D :=
  { root := newNode leafSize leafSize (dataInitFn ())
    maxLC := leafSize
    leafSize := leafSize
    dataInitFn := dataInitFn }

/-- The method `newBranch`; `stop + start` and `stop - start` are `uint32` operations. -/
def tree.newBranch {D : Type} (t : tree D) : Nat → Nat → Nat → Option (node D)
  | 0, _, _ => none
  | fuel + 1, start, stop =>
    let split := ((stop + start) % lcSize) / 2
    if (stop + lcSize - start) % lcSize > t.leafSize then
      match t.newBranch fuel start split with
      | none => none
      | some l => some (node.mk split stop (t.dataInitFn ()) l node.nil)
    else
      some (newNode split stop (t.dataInitFn ()))

/-- The method `reRoot`. -/
def tree.reRoot {D : Type} [Data D] (t : tree D) : Option (tree D) :=
  match t.root with
  | node.nil => none
  | node.mk _ _ data _ _ =>
    some { t with
      root := node.mk t.maxLC ((2 * t.maxLC) % lcSize) (Data.Clone data) t.root node.nil
      maxLC := (t.maxLC * 2) % lcSize }

/-- The loop `for clock >= t.maxLC { t.reRoot() }` of `Insert`. -/
def tree.growLoop {D : Type} [Data D] : Nat → tree D → Nat → Option (tree D)
  | 0, t, clock => if clock ≥ t.maxLC then none else some t
  | fuel + 1, t, clock =>
    if clock ≥ t.maxLC then
      match t.reRoot with
      | none => none
      | some t1 => tree.growLoop fuel t1 clock
    else some t

/-- The loop `for next != nil { ... }` of `Insert`, started at `next`, with the body of
`getNextNode` in place. Returns the subtree at `next` after the loop, and the error. -/
def tree.insertLoop {D : Type} [Data D] (t : tree D) (clock : Nat) (ref : TxRef) :
    Nat → node D → Option (node D × error)
  | _, node.nil => some (node.nil, none)
  | 0, node.mk _ _ _ _ _ => none
  | fuel + 1, node.mk split max data left right =>
    match Data.Insert data ref with
    | (data1, some e) =>
      some (node.mk split max data1 left right,
        some ("insert failed for node with split " ++ toString split ++ ": " ++ e))
    | (data1, none) =>
      match left with
      | node.nil => some (node.mk split max data1 node.nil right, none)
      | node.mk ls lm ld ll lr =>
        if clock < split then
          match t.insertLoop clock ref fuel (node.mk ls lm ld ll lr) with
          | none => none
          | some (l1, e) => some (node.mk split max data1 l1 right, e)
        else
          match right with
          | node.nil =>
            match t.newBranch fuel split max with
            | none => none
            | some b =>
              match t.insertLoop clock ref fuel b with
              | none => none
              | some (r1, e) => some (node.mk split max data1 (node.mk ls lm ld ll lr) r1, e)
          | node.mk rs rm rd rl rr =>
            match t.insertLoop clock ref fuel (node.mk rs rm rd rl rr) with
            | none => none
            | some (r1, e) => some (node.mk split max data1 (node.mk ls lm ld ll lr) r1, e)

/-- The method `Insert`. -/
def tree.Insert {D : Type} [Data D] (t : tree D) (fuel : Nat) (clock : Nat) (ref : TxRef) :
    Option (tree D × error) :=
  match tree.growLoop fuel t clock with
  | none => none
  | some t1 =>
    match t1.insertLoop clock ref fuel t1.root with
    | none => none
    | some (r, e) => some ({ t1 with root := r }, e)

/-- The loop of `GetZeroTo`, started at `next` with accumulator `data`. -/
def getZeroToLoop {D : Type} [Data D] (clock : Nat) : node D → D → D
  | node.nil, data => data
  | node.mk split _ _ left right, data =>
    if clock < split then
      match right with
      | node.nil => getZeroToLoop clock left data
      | node.mk _ _ rd _ _ => getZeroToLoop clock left (Data.Subtract data rd).1
    else
      getZeroToLoop clock right data

/-- The method `GetZeroTo`. -/
def tree.GetZeroTo {D : Type} [Data D] (t : tree D) (clock : Nat) : Option (D × error) :=
  match t.root with
  | node.nil => none
  | node.mk _ _ data _ _ => some (getZeroToLoop clock t.root (Data.Clone data), none)

/-- The method `GetRoot`. -/
def tree.GetRoot {D : Type} [Data D] (t : tree D) : Option D :=
  match t.root with
  | node.nil => none
  | node.mk _ _ data _ _ => some (Data.Clone data)

/-- The method `LeafSize`. -/
def tree.LeafSize {D : Type} (t : tree D) : Nat := t.leafSize

/-- The function `dropLeaves`. -/
def dropLeaves {D : Type} : node D → node D
  | node.nil => node.nil
  | node.mk split max data node.nil right => node.mk split max data node.nil right
  | node.mk split max data (node.mk ls lm ld ll lr) right =>
    match ll with
    | node.nil => node.mk split max data node.nil node.nil
    | node.mk _ _ _ _ _ =>
      node.mk split max data (dropLeaves (node.mk ls lm ld ll lr)) (dropLeaves right)

/-- The method `DropLeaves`. -/
def tree.DropLeaves {D : Type} (t : tree D) : Option (tree D) :=
  match t.root with
  | node.nil => none
  | node.mk _ _ _ node.nil _ => some t
  | node.mk _ _ _ (node.mk _ _ _ _ _) _ =>
    some { t with root := dropLeaves t.root, leafSize := (t.leafSize * 2) % lcSize }


/-! ## Runs without `uint32` wrap-around

The functions below follow the same control flow as `newBranch`, the growth loop and the
walk of `Insert` and report whether every `uint32` operation on the way produced the exact
result. -/

/-- The check `t.newBranchExact fuel start stop`: in the call `newBranch(start, stop)`, followed for
at most `fuel` nested calls, no operation wraps: `stop + start` stays below `2 ^ 32` and
`stop - start` has `start ≤ stop`. -/
def tree.newBranchExact {D : Type} (t : tree D) : Nat → Nat → Nat → Bool
  | 0, _, _ => true
  | fuel + 1, start, stop =>
    decide (stop + start < lcSize) && decide (start ≤ stop) &&
      (if stop - start > t.leafSize then t.newBranchExact fuel start ((stop + start) / 2)
       else true)

/-- The check `tree.growExact fuel t clock`: in the loop `for clock >= t.maxLC { t.reRoot() }`,
followed for at most `fuel` iterations, no doubling `2 * t.maxLC` wraps. -/
def tree.growExact {D : Type} [Data D] : Nat → tree D → Nat → Bool
  | 0, _, _ => true
  | fuel + 1, t, clock =>
    if clock ≥ t.maxLC then
      decide (2 * t.maxLC < lcSize) &&
        (match t.reRoot with
         | none => true
         | some u => tree.growExact fuel u clock)
    else true

/-- The check `t.walkExact clock ref fuel next`: in the loop `for next != nil { ... }` of `Insert`,
followed for at most `fuel` iterations, no operation of a `newBranch` call wraps. -/
def tree.walkExact {D : Type} [Data D] (t : tree D) (clock : Nat) (ref : TxRef) :
    Nat → node D → Bool
  | _, node.nil => true
  | 0, node.mk _ _ _ _ _ => true
  | fuel + 1, node.mk split max data left right =>
    match Data.Insert data ref with
    | (_, some _) => true
    | (_, none) =>
      match left with
      | node.nil => true
      | node.mk ls lm ld ll lr =>
        if clock < split then
          t.walkExact clock ref fuel (node.mk ls lm ld ll lr)
        else
          match right with
          | node.nil =>
            t.newBranchExact fuel split max &&
              (match t.newBranch fuel split max with
               | none => true
               | some b => t.walkExact clock ref fuel b)
          | node.mk rs rm rd rl rr => t.walkExact clock ref fuel (node.mk rs rm rd rl rr)

/-- The check `t.InsertExact fuel clock ref`: no clock arithmetic of the call `Insert(clock, ref)`
wraps. -/
def tree.InsertExact {D : Type} [Data D] (t : tree D) (fuel : Nat) (clock : Nat)
    (ref : TxRef) : Bool :=
  tree.growExact fuel t clock &&
    (match tree.growLoop fuel t clock with
     | none => true
     | some u => u.walkExact clock ref fuel u.root)

/-! ## Specification vocabulary -/

/-- Byte-wise XOR of a list of references, starting from the all-zero value. -/
def xorAll (rs : List TxRef) : TxRef := rs.foldl TxRef.xor TxRef.zero

/-- The aggregate held by the node a pointer refers to, if the pointer is not nil. -/
def node.data? {D : Type} : node D → Option D
  | node.nil => none
  | node.mk _ _ data _ _ => some data

/-- XOR of the references that were inserted at a clock strictly below `b`. -/
def xorBelow (ops : List (Nat × TxRef)) (b : Nat) : TxRef :=
  xorAll ((ops.filter (fun p => decide (p.1 < b))).map Prod.snd)

/-- XOR of the references that were inserted at a clock in the half-open range `[s, e)`. -/
def rangeXor (ops : List (Nat × TxRef)) (s e : Nat) : TxRef :=
  xorAll ((ops.filter (fun p => decide (s ≤ p.1 ∧ p.1 < e))).map Prod.snd)

/-- No reference was inserted at a clock in `[s, e)`. -/
def noClockIn (ops : List (Nat × TxRef)) (s e : Nat) : Prop :=
  ∀ p ∈ ops, ¬ (s ≤ p.1 ∧ p.1 < e)

/-- The height of the tree below a pointer: the number of steps from the node down its
left spine to a node without left child (0 for a leaf and for the nil pointer). -/
def node.height {D : Type} : node D → Nat
  | node.nil => 0
  | node.mk _ _ _ node.nil _ => 0
  | node.mk _ _ _ (node.mk a b c l r) _ => node.height (node.mk a b c l r) + 1

/-- The pointer `n.keep k`: the nodes of depth less than `k` below the pointer `n`, with their split,
max and aggregate; the nodes of depth `k - 1` have no children. -/
def node.keep {D : Type} : Nat → node D → node D
  | 0, _ => node.nil
  | _ + 1, node.nil => node.nil
  | k + 1, node.mk split max data left right =>
    node.mk split max data (node.keep k left) (node.keep k right)

/-- The result of `k` successive calls of `DropLeaves`. -/
def dropLeavesN {D : Type} : Nat → tree D → Option (tree D)
  | 0, t => some t
  | k + 1, t =>
    match t.DropLeaves with
    | none => none
    | some u => dropLeavesN k u

/-- The relation `Built L t ops`: the tree `t` is obtained from `New(L, NewTxRef)` by the `Insert` calls
`ops` (clock and reference, oldest first), each of which returned. -/
inductive Built (L : Nat) : tree TxRef → List (Nat × TxRef) → Prop
  | new : L < lcSize → Built L (New L NewTxRef) []
  | insert {t u : tree TxRef} {ops : List (Nat × TxRef)} {f : Nat} {c : Nat} {r : TxRef}
      {e : error} : Built L t ops → c < lcSize → t.Insert f c r = some (u, e) →
      Built L u (ops ++ [(c, r)])

/-- The relation `BuiltExact L t ops`: as `Built L t ops`, and no clock arithmetic wrapped in any of
the `Insert` calls. -/
inductive BuiltExact (L : Nat) : tree TxRef → List (Nat × TxRef) → Prop
  | new : L < lcSize → BuiltExact L (New L NewTxRef) []
  | insert {t u : tree TxRef} {ops : List (Nat × TxRef)} {f : Nat} {c : Nat} {r : TxRef}
      {e : error} : BuiltExact L t ops → c < lcSize → t.InsertExact f c r = true →
      t.Insert f c r = some (u, e) → BuiltExact L u (ops ++ [(c, r)])

/-- The relation `Reach L t ops`: the tree `t` is obtained from `New(L, NewTxRef)` by calls of `Insert`
(recorded in `ops`, oldest first), `reRoot` and `DropLeaves`, and no clock arithmetic
wrapped in any of the `Insert` and `reRoot` calls. (The doubling of the leaf size in
`DropLeaves` then cannot wrap either.) -/
inductive Reach (L : Nat) : tree TxRef → List (Nat × TxRef) → Prop
  | new : L < lcSize → Reach L (New L NewTxRef) []
  | insert {t u : tree TxRef} {ops : List (Nat × TxRef)} {f : Nat} {c : Nat} {r : TxRef}
      {e : error} : Reach L t ops → c < lcSize → t.InsertExact f c r = true →
      t.Insert f c r = some (u, e) → Reach L u (ops ++ [(c, r)])
  | reRoot {t u : tree TxRef} {ops : List (Nat × TxRef)} :
      Reach L t ops → 2 * t.maxLC < lcSize → t.reRoot = some u → Reach L u ops
  | dropLeaves {t u : tree TxRef} {ops : List (Nat × TxRef)} :
      Reach L t ops → t.DropLeaves = some u → Reach L u ops

/-- The predicate `Good L ops h s n`: the pointer `n` refers to a well-formed subtree of height `h` over
the clock range `[s, s + L * 2 ^ h)` for leaf size `L`: leaves are exactly at depth `h`,
every inner node splits its range in the middle, a missing right child stands for a range
without insertions, and every aggregate is the XOR of the references of `ops` in the
range of its node. -/
def Good (L : Nat) (ops : List (Nat × TxRef)) : Nat → Nat → node TxRef → Prop
  | _, _, node.nil => False
  | 0, s, node.mk _ max data left right =>
    max = s + L ∧ data = rangeXor ops s max ∧ left = node.nil ∧ right = node.nil
  | h + 1, s, node.mk split max data left right =>
    split = s + L * 2 ^ h ∧ max = s + L * 2 ^ (h + 1) ∧ data = rangeXor ops s max ∧
      Good L ops h s left ∧
      ((right = node.nil ∧ noClockIn ops split max) ∨ Good L ops h split right)

/-- The invariant of a tree over the insertions `ops`: the root is a well-formed subtree
over `[0, maxLC)` for the current leaf size, `maxLC` is a `uint32` value equal to the leaf
size times a power of two, and every inserted clock is below `maxLC`. -/
def Inv (t : tree TxRef) (ops : List (Nat × TxRef)) : Prop :=
  1 ≤ t.leafSize ∧ t.dataInitFn = NewTxRef ∧ (∀ p ∈ ops, p.1 < t.maxLC) ∧
    t.maxLC < lcSize ∧ ∃ h, t.maxLC = t.leafSize * 2 ^ h ∧ Good t.leafSize ops h 0 t.root

/-- The aggregate of every node below the pointer equals the XOR of the inserted references
whose clock lies in the range of the node: the node at the pointer covers `[s, m)`, its
left child covers `[s, split)` and its right child `[split, m)`. -/
def aggregatesMatch (ops : List (Nat × TxRef)) : Nat → Nat → node TxRef → Prop
  | _, _, node.nil => True
  | s, m, node.mk split _ data left right =>
    data = rangeXor ops s m ∧ aggregatesMatch ops s split left ∧
      aggregatesMatch ops split m right

/-- The aggregate of the node a pointer refers to, and all-zero for the nil pointer. -/
def node.dataOrZero : node TxRef → TxRef
  | node.nil => TxRef.zero
  | node.mk _ _ data _ _ => data

/-- The aggregate of every node with a left child is the XOR of the aggregates of its left
and right child, an absent right child counting as zero. -/
def sumOfChildren : node TxRef → Prop
  | node.nil => True
  | node.mk _ _ _ node.nil _ => True
  | node.mk _ _ data (node.mk a b c l r) right =>
    data = c.xor right.dataOrZero ∧ sumOfChildren (node.mk a b c l r) ∧ sumOfChildren right

/-- The chain of `k + 1` nodes that the specification describes for a fresh branch over
`[start, start + L * 2 ^ k)`: every node holds the aggregate `init` and has no right child,
the node above a range of width `w` has `max = start + w` and `split = start + w / 2`, and
only the last node, the leaf over `[start, start + L)`, has no left child. -/
def leftSpine {D : Type} (init : D) (L start : Nat) : Nat → node D
  | 0 => node.mk (start + L / 2) (start + L) init node.nil node.nil
  | k + 1 =>
    node.mk (start + L * 2 ^ (k + 1) / 2) (start + L * 2 ^ (k + 1)) init
      (leftSpine init L start k) node.nil

/-- The relation `ReachAny L init t`: the tree `t`, over any implementation of `Data`, is
obtained from `New(L, init)` by calls of `Insert`, `reRoot` and `DropLeaves`, and no clock
arithmetic wrapped in any of the `Insert` and `reRoot` calls. -/
inductive ReachAny {D : Type} [Data D] (L : Nat) (init : Unit → D) : tree D → Prop
  | new : L < lcSize → ReachAny L init (New L init)
  | insert {t u : tree D} {f : Nat} {c : Nat} {r : TxRef} {e : error} :
      ReachAny L init t → c < lcSize → t.InsertExact f c r = true →
      t.Insert f c r = some (u, e) → ReachAny L init u
  | reRoot {t u : tree D} :
      ReachAny L init t → 2 * t.maxLC < lcSize → t.reRoot = some u → ReachAny L init u
  | dropLeaves {t u : tree D} :
      ReachAny L init t → t.DropLeaves = some u → ReachAny L init u

/-- The predicate `Shape L ls first h s n`: the pointer `n` refers to a subtree of height `h`
over `[s, s + L * 2 ^ h)` in which every node has the exact `split` and `max` of its range,
leaves are exactly at depth `h`, and a leaf has its split in the middle of its range, except
that the leaf at the start of the range has split `ls` when `first` is set. -/
def Shape {D : Type} (L ls : Nat) : Bool → Nat → Nat → node D → Prop
  | _, _, _, node.nil => False
  | first, 0, s, node.mk split max _ left right =>
    max = s + L ∧ left = node.nil ∧ right = node.nil ∧
      split = (if first = true then ls else s + L / 2)
  | first, h + 1, s, node.mk split max _ left right =>
    split = s + L * 2 ^ h ∧ max = s + L * 2 ^ (h + 1) ∧ Shape L ls first h s left ∧
      (right = node.nil ∨ Shape L ls false h split right)

/-- The structural invariant of a tree whose leaf at clock 0 has split `ls`: `Shape` for the
root over `[0, maxLC)`, where `ls` is the middle of the range of that leaf or, for the node
created by `New`, the leaf size. -/
def ShapeAt {D : Type} (t : tree D) (ls : Nat) : Prop :=
  1 ≤ t.leafSize ∧ t.maxLC < lcSize ∧ (ls = t.leafSize / 2 ∨ ls = t.leafSize) ∧
    ∃ h, t.maxLC = t.leafSize * 2 ^ h ∧ Shape t.leafSize ls true h 0 t.root

/-- The structural invariant of a tree: `ShapeAt` for some split of the leaf at clock 0. -/
def ShapeInv {D : Type} (t : tree D) : Prop := ∃ ls, ShapeAt t ls

/-- Lazy materialisation below a pointer whose node covers a range that ends at `m`: a right
child exists only where a reference of `ops` was inserted at a clock in the range
`[split, m)` of that child. -/
def Lazy {D : Type} (ops : List (Nat × TxRef)) : Nat → node D → Prop
  | _, node.nil => True
  | m, node.mk split _ _ left right =>
    Lazy ops split left ∧ Lazy ops m right ∧ (right ≠ node.nil → ¬ noClockIn ops split m)

/-- The canonical form of a tree over the insertions `ops` whose leaf at clock 0 has split
`ls`: the invariant `Inv`, the structural invariant `ShapeAt`, and lazy materialisation of
right children. -/
def Canon (t : tree TxRef) (ops : List (Nat × TxRef)) (ls : Nat) : Prop :=
  Inv t ops ∧ ShapeAt t ls ∧ Lazy ops t.maxLC t.root

/-- Every node below the pointer has its split at the midpoint of the range it covers: the
node at the pointer covers `[s, m)`, its left child `[s, split)`, its right child
`[split, m)`. -/
def midpointSplits {D : Type} : Nat → Nat → node D → Prop
  | _, _, node.nil => True
  | s, m, node.mk split _ _ left right =>
    split = (s + m) / 2 ∧ midpointSplits s split left ∧ midpointSplits split m right

/-- As `midpointSplits`, except that the leaf at the start of the range may have its split
at the end of its range when `first` is set. -/
def midpointSplitsExcept {D : Type} : Bool → Nat → Nat → node D → Prop
  | _, _, _, node.nil => True
  | first, s, m, node.mk split _ _ left right =>
    (split = (s + m) / 2 ∨ (first = true ∧ left = node.nil ∧ split = m)) ∧
      midpointSplitsExcept first s split left ∧ midpointSplitsExcept false split m right

/-- The shape the specification states for a subtree over `[s, m)` with leaf size `L`: a node
has a right child only if it has a left child, every leaf covers a range of width `L`, and
all leaves are at depth `h`. -/
def uniformLeaves {D : Type} (L : Nat) : Nat → Nat → Nat → node D → Prop
  | _, _, _, node.nil => False
  | 0, s, m, node.mk _ _ _ left right => left = node.nil ∧ right = node.nil ∧ m = s + L
  | h + 1, s, m, node.mk split _ _ left right =>
    left ≠ node.nil ∧ uniformLeaves L h s split left ∧
      (right = node.nil ∨ uniformLeaves L h split m right)

/-- The shape invariant the specification states for a tree: all leaves are at one depth
`h`, every leaf covers a range of width `LeafSize()`, a node has a right child only if it
has a left child, and the upper bound is `LeafSize() * 2 ^ h`. -/
def uniformTree {D : Type} (t : tree D) : Prop :=
  ∃ h, t.maxLC = t.LeafSize * 2 ^ h ∧ uniformLeaves t.LeafSize h 0 t.maxLC t.root

/-! ## A second implementation of `Data` -/

/-- Data values of two dynamic types, for trees whose factory does not return `*TxRef`
values only: a `*TxRef`, or a value of another implementation whose methods have no
effect. -/
inductive MixedData where
  | tx (r : TxRef) : MixedData
  | plain : MixedData
  deriving DecidableEq

/-- The interface value that holds a `MixedData`. -/
def MixedData.toValue : MixedData → DataValue
  | MixedData.tx r => DataValue.txRef (some r)
  | MixedData.plain => DataValue.other "plain"

/-- The methods of `MixedData`: those of `*TxRef` on a `*TxRef` receiver (`Subtract` is
`TxRef.SubtractData`), and no effect on the other implementation. -/
instance : Data MixedData where
  Insert := fun d ref =>
    match d with
    | MixedData.tx r => (MixedData.tx (TxRef.Insert r ref).1, (TxRef.Insert r ref).2)
    | MixedData.plain => (MixedData.plain, none)
  Subtract := fun d x =>
    match d with
    | MixedData.tx r =>
      match r.SubtractData x.toValue with
      | some (r1, e) => (MixedData.tx r1, e)
      | none => (MixedData.tx r, none)
    | MixedData.plain => (MixedData.plain, none)
  Clone := fun d => d

/-! ## Concrete trees -/

/-- The reference whose 32 bytes all equal `b`. -/
def TxRef.fill (b : byte) : TxRef := ⟨List.replicate 32 b, List.length_replicate 32 b⟩

/-- The tree of `New(4, NewTxRef)` after `Insert(5, TxRef.fill 1)`: one re-rooting, the
reference at the root and at the right-half node, the left-half node still zero. -/
def treeAfterInsert5 : tree TxRef :=
  { root := node.mk 4 8 (TxRef.fill 1)
      (node.mk 4 4 TxRef.zero node.nil node.nil)
      (node.mk 6 8 (TxRef.fill 1) node.nil node.nil)
    maxLC := 8
    leafSize := 4
    dataInitFn := NewTxRef }

/-- The tree of `New(4, NewTxRef)` after `Insert(0, TxRef.fill 1)`. -/
def treeAfterInsert0 : tree TxRef :=
  { root := node.mk 4 4 (TxRef.fill 1) node.nil node.nil
    maxLC := 4
    leafSize := 4
    dataInitFn := NewTxRef }

/-- The tree of `New(4, NewTxRef)` after `Insert(4, TxRef.fill 2)`. -/
def treeAfterInsert4 : tree TxRef :=
  { root := node.mk 4 8 (TxRef.fill 2)
      (node.mk 4 4 TxRef.zero node.nil node.nil)
      (node.mk 6 8 (TxRef.fill 2) node.nil node.nil)
    maxLC := 8
    leafSize := 4
    dataInitFn := NewTxRef }

/-- The tree of `New(4, NewTxRef)` after `Insert(0, fill 1)` and `Insert(4, fill 2)`. -/
def twoLeafTree : tree TxRef :=
  { root := node.mk 4 8 (TxRef.fill 3)
      (node.mk 4 4 (TxRef.fill 1) node.nil node.nil)
      (node.mk 6 8 (TxRef.fill 2) node.nil node.nil)
    maxLC := 8
    leafSize := 4
    dataInitFn := NewTxRef }

/-- The tree `twoLeafTree` after `DropLeaves()`. -/
def twoLeafTreeDropped : tree TxRef :=
  { root := node.mk 4 8 (TxRef.fill 3) node.nil node.nil
    maxLC := 8
    leafSize := 8
    dataInitFn := NewTxRef }

/-- The tree `twoLeafTree` after `Insert(8, fill 4)`. -/
def threeLeafTree : tree TxRef :=
  { root := node.mk 8 16 (TxRef.fill 7)
      (node.mk 4 8 (TxRef.fill 3)
        (node.mk 4 4 (TxRef.fill 1) node.nil node.nil)
        (node.mk 6 8 (TxRef.fill 2) node.nil node.nil))
      (node.mk 12 16 (TxRef.fill 4)
        (node.mk 10 12 (TxRef.fill 4) node.nil node.nil)
        node.nil)
    maxLC := 16
    leafSize := 4
    dataInitFn := NewTxRef }

/-- The insertions of the test helper `filledTree`: references `A = fill 1` at clock 0,
`B = fill 2` at clock 4, `C = fill 4` at clock 8 and `D = fill 8` at clock 5. -/
def filledOps : List (Nat × TxRef) :=
  [(0, TxRef.fill 1), (4, TxRef.fill 2), (8, TxRef.fill 4), (5, TxRef.fill 8)]

/-- The tree of the test helper `filledTree` for leaf size 4 and the insertions
`filledOps`. -/
def filledTree : tree TxRef :=
  { root := node.mk 8 16 (TxRef.fill 15)
      (node.mk 4 8 (TxRef.fill 11)
        (node.mk 4 4 (TxRef.fill 1) node.nil node.nil)
        (node.mk 6 8 (TxRef.fill 10) node.nil node.nil))
      (node.mk 12 16 (TxRef.fill 4)
        (node.mk 10 12 (TxRef.fill 4) node.nil node.nil)
        node.nil)
    maxLC := 16
    leafSize := 4
    dataInitFn := NewTxRef }

/-- The tree of `New(11 * 2 ^ 28, NewTxRef)` after `Insert(11 * 2 ^ 28, fill 1)`: the second
re-rooting computes `2 * maxLC` modulo `2 ^ 32`, and `newBranch` computes `stop + start`
modulo `2 ^ 32`. -/
def wrappedTree : tree TxRef :=
  { root := node.mk 1610612736 3221225472 (TxRef.fill 1)
      (node.mk 2952790016 1610612736 TxRef.zero
        (node.mk 2952790016 2952790016 TxRef.zero node.nil node.nil)
        node.nil)
      (node.mk 268435456 3221225472 (TxRef.fill 1) node.nil node.nil)
    maxLC := 3221225472
    leafSize := 2952790016
    dataInitFn := NewTxRef }

/-- The tree of `New(4, NewTxRef)` after `reRoot()`, `reRoot()` and `DropLeaves()`. -/
def prunedOnceTree : tree TxRef :=
  { root := node.mk 8 16 TxRef.zero (node.mk 4 8 TxRef.zero node.nil node.nil) node.nil
    maxLC := 16
    leafSize := 8
    dataInitFn := NewTxRef }

/-- A tree whose root and left leaf hold a `*TxRef` and whose right leaf holds a value of
the other implementation. -/
def mixedTree : tree MixedData :=
  { root := node.mk 4 8 (MixedData.tx (TxRef.fill 1))
      (node.mk 4 4 (MixedData.tx (TxRef.fill 1)) node.nil node.nil)
      (node.mk 6 8 MixedData.plain node.nil node.nil)
    maxLC := 8
    leafSize := 4
    dataInitFn := fun _ => MixedData.plain }
/-! ## XOR algebra -/

theorem byteXor_val (a b : byte) : (byteXor a b).val = a.val ^^^ b.val := by
  have h : a.val ^^^ b.val < 2 ^ 8 := Nat.xor_lt_two_pow a.isLt b.isLt
  simp only [byteXor]
  exact Nat.mod_eq_of_lt h

theorem byteXor_comm (a b : byte) : byteXor a b = byteXor b a := by
  apply Fin.ext; rw [byteXor_val, byteXor_val, Nat.xor_comm]

theorem byteXor_assoc (a b c : byte) : byteXor (byteXor a b) c = byteXor a (byteXor b c) := by
  apply Fin.ext; simp only [byteXor_val]; exact Nat.xor_assoc _ _ _

theorem byteXor_zero (a : byte) : byteXor a 0 = a := by
  apply Fin.ext; rw [byteXor_val]; simp

theorem byteXor_self (a : byte) : byteXor a a = 0 := by
  apply Fin.ext; rw [byteXor_val]; simp

theorem zipXor_comm (l l2 : List byte) :
    List.zipWith byteXor l l2 = List.zipWith byteXor l2 l := by
  induction l generalizing l2 with
  | nil => cases l2 <;> rfl
  | cons a l ih =>
    cases l2 with
    | nil => rfl
    | cons b l2 => simp only [List.zipWith_cons_cons, ih l2, byteXor_comm a b]

theorem zipXor_assoc (l l2 l3 : List byte) :
    List.zipWith byteXor (List.zipWith byteXor l l2) l3
      = List.zipWith byteXor l (List.zipWith byteXor l2 l3) := by
  induction l generalizing l2 l3 with
  | nil => simp
  | cons a l ih =>
    cases l2 with
    | nil => simp
    | cons b l2 =>
      cases l3 with
      | nil => simp
      | cons c l3 => simp only [List.zipWith_cons_cons, ih l2 l3, byteXor_assoc]

theorem zipXor_zero (n : Nat) (l : List byte) (h : l.length = n) :
    List.zipWith byteXor l (List.replicate n 0) = l := by
  induction l generalizing n with
  | nil => simp
  | cons a l ih =>
    cases n with
    | zero => simp at h
    | succ n =>
      simp only [List.replicate_succ, List.zipWith_cons_cons, byteXor_zero]
      rw [ih n (by simpa using h)]

theorem zipXor_self (l : List byte) :
    List.zipWith byteXor l l = List.replicate l.length 0 := by
  induction l with
  | nil => rfl
  | cons a l ih => simp only [List.zipWith_cons_cons, byteXor_self, ih, List.length_cons,
      List.replicate_succ]

theorem TxRef.xor_comm (a b : TxRef) : a.xor b = b.xor a :=
  Subtype.ext (zipXor_comm a.1 b.1)

theorem TxRef.xor_assoc (a b c : TxRef) : (a.xor b).xor c = a.xor (b.xor c) :=
  Subtype.ext (zipXor_assoc a.1 b.1 c.1)

theorem TxRef.xor_zero (a : TxRef) : a.xor TxRef.zero = a :=
  Subtype.ext (zipXor_zero 32 a.1 a.2)

theorem TxRef.zero_xor (a : TxRef) : TxRef.zero.xor a = a := by
  rw [TxRef.xor_comm, TxRef.xor_zero]

theorem TxRef.xor_self (a : TxRef) : a.xor a = TxRef.zero :=
  Subtype.ext (by
    show List.zipWith byteXor a.1 a.1 = List.replicate 32 0
    rw [zipXor_self, a.2])

theorem TxRef.xor_xor_cancel (a b : TxRef) : (a.xor b).xor b = a := by
  rw [TxRef.xor_assoc, TxRef.xor_self, TxRef.xor_zero]

theorem xorAll_append_singleton (rs : List TxRef) (r : TxRef) :
    xorAll (rs ++ [r]) = (xorAll rs).xor r := by
  simp [xorAll, List.foldl_append]

/-! ## The root aggregate -/

theorem reRoot_data {t t1 : tree TxRef} (h : t.reRoot = some t1) :
    t1.root.data? = t.root.data? := by
  unfold tree.reRoot at h
  cases hr : t.root with
  | nil => rw [hr] at h; simp at h
  | mk s m d l r =>
    rw [hr] at h
    simp only [Option.some.injEq] at h
    subst h
    rfl

theorem growLoop_data (fuel : Nat) (t t1 : tree TxRef) (c : Nat)
    (h : tree.growLoop fuel t c = some t1) : t1.root.data? = t.root.data? := by
  induction fuel generalizing t with
  | zero =>
    unfold tree.growLoop at h
    split at h
    · simp at h
    · simp only [Option.some.injEq] at h; rw [h]
  | succ fuel ih =>
    unfold tree.growLoop at h
    split at h
    · cases hr : t.reRoot with
      | none => rw [hr] at h; simp at h
      | some t2 =>
        rw [hr] at h
        rw [ih t2 h, reRoot_data hr]
    · simp only [Option.some.injEq] at h; rw [h]

theorem insertLoop_data (t : tree TxRef) (c : Nat) (ref : TxRef) (fuel : Nat)
    (s m : Nat) (d : TxRef) (l r : node TxRef) (n1 : node TxRef) (e : error)
    (h : t.insertLoop c ref fuel (node.mk s m d l r) = some (n1, e)) :
    n1.data? = some (d.xor ref) := by
  cases fuel with
  | zero => simp [tree.insertLoop] at h
  | succ fuel =>
    simp only [tree.insertLoop, Data.Insert, TxRef.Insert] at h
    split at h
    · simp only [Option.some.injEq, Prod.mk.injEq] at h; rw [← h.1]; rfl
    · split at h
      · split at h
        · simp at h
        · simp only [Option.some.injEq, Prod.mk.injEq] at h; rw [← h.1]; rfl
      · split at h
        · split at h
          · simp at h
          · split at h
            · simp at h
            · simp only [Option.some.injEq, Prod.mk.injEq] at h; rw [← h.1]; rfl
        · split at h
          · simp at h
          · simp only [Option.some.injEq, Prod.mk.injEq] at h; rw [← h.1]; rfl


theorem Insert_data {t t1 : tree TxRef} {fuel : Nat} {c : Nat} {ref : TxRef} {e : error}
    {d : TxRef} (h : t.Insert fuel c ref = some (t1, e)) (hd : t.root.data? = some d) :
    t1.root.data? = some (d.xor ref) := by
  unfold tree.Insert at h
  cases hg : tree.growLoop fuel t c with
  | none => rw [hg] at h; simp at h
  | some t2 =>
    rw [hg] at h
    simp only at h
    have hd2 : t2.root.data? = some d := by rw [growLoop_data fuel t t2 c hg, hd]
    cases hr : t2.root with
    | nil => rw [hr] at hd2; simp [node.data?] at hd2
    | mk s m d2 l r =>
      rw [hr] at hd2 h
      simp only [node.data?, Option.some.injEq] at hd2
      subst hd2
      cases hw : t2.insertLoop c ref fuel (node.mk s m d2 l r) with
      | none => rw [hw] at h; simp at h
      | some p =>
        obtain ⟨n1, e1⟩ := p
        rw [hw] at h
        simp only [Option.some.injEq, Prod.mk.injEq] at h
        rw [← h.1]
        show n1.data? = _
        exact insertLoop_data t2 c ref fuel s m d2 l r n1 e1 hw

theorem GetRoot_eq_data (t : tree TxRef) : t.GetRoot = t.root.data? := by
  unfold tree.GetRoot
  cases t.root <;> rfl

theorem Built_root_data {L : Nat} {t : tree TxRef} {ops : List (Nat × TxRef)}
    (h : Built L t ops) : t.root.data? = some (xorAll (ops.map Prod.snd)) := by
  induction h with
  | new _ => rfl
  | insert _ _ hins ih =>
    rw [Insert_data hins ih, List.map_append, List.map_singleton, xorAll_append_singleton]

/-! ## XOR over clock ranges -/

theorem foldl_xor_init (a : TxRef) (rs : List TxRef) :
    rs.foldl TxRef.xor a = a.xor (xorAll rs) := by
  induction rs using List.reverseRecOn with
  | nil => simp [xorAll, TxRef.xor_zero]
  | append_singleton rs r ih =>
    rw [List.foldl_append, xorAll_append_singleton, ← TxRef.xor_assoc, ← ih]
    rfl

theorem xorAll_nil : xorAll [] = TxRef.zero := rfl

theorem xorAll_cons (r : TxRef) (rs : List TxRef) : xorAll (r :: rs) = r.xor (xorAll rs) := by
  show rs.foldl TxRef.xor (TxRef.zero.xor r) = _
  rw [TxRef.zero_xor, foldl_xor_init]

theorem rangeXor_nil (s e : Nat) : rangeXor [] s e = TxRef.zero := rfl

theorem rangeXor_cons (p : Nat × TxRef) (ops : List (Nat × TxRef)) (s e : Nat) :
    rangeXor (p :: ops) s e
      = if s ≤ p.1 ∧ p.1 < e then p.2.xor (rangeXor ops s e) else rangeXor ops s e := by
  unfold rangeXor
  by_cases h : s ≤ p.1 ∧ p.1 < e
  · rw [if_pos h, List.filter_cons_of_pos (by simpa using h), List.map_cons, xorAll_cons]
  · rw [if_neg h, List.filter_cons_of_neg (by simpa using h)]

theorem rangeXor_snoc (ops : List (Nat × TxRef)) (c : Nat) (r : TxRef) (s e : Nat) :
    rangeXor (ops ++ [(c, r)]) s e
      = if s ≤ c ∧ c < e then (rangeXor ops s e).xor r else rangeXor ops s e := by
  unfold rangeXor
  by_cases h : s ≤ c ∧ c < e
  · rw [if_pos h, List.filter_append, List.map_append,
      List.filter_cons_of_pos (by simpa using h)]
    simp only [List.filter_nil, List.map_cons, List.map_nil]
    exact xorAll_append_singleton _ _
  · rw [if_neg h, List.filter_append, List.filter_cons_of_neg (by simpa using h)]
    simp

theorem rangeXor_of_noClockIn {ops : List (Nat × TxRef)} {s e : Nat}
    (h : noClockIn ops s e) : rangeXor ops s e = TxRef.zero := by
  induction ops with
  | nil => rfl
  | cons p ops ih =>
    rw [rangeXor_cons, if_neg (h p (List.mem_cons_self _ _))]
    exact ih (fun q hq => h q (List.mem_cons_of_mem _ hq))

theorem rangeXor_empty (ops : List (Nat × TxRef)) (s e : Nat) (h : e ≤ s) :
    rangeXor ops s e = TxRef.zero :=
  rangeXor_of_noClockIn (fun _ _ hp => by omega)

theorem rangeXor_split (ops : List (Nat × TxRef)) (s p e : Nat) (h1 : s ≤ p) (h2 : p ≤ e) :
    rangeXor ops s e = (rangeXor ops s p).xor (rangeXor ops p e) := by
  induction ops with
  | nil => simp [rangeXor_nil, TxRef.xor_zero]
  | cons q ops ih =>
    simp only [rangeXor_cons, ih]
    by_cases ha : s ≤ q.1 ∧ q.1 < p
    · have hb : ¬ (p ≤ q.1 ∧ q.1 < e) := by omega
      have hc : s ≤ q.1 ∧ q.1 < e := by omega
      rw [if_pos ha, if_neg hb, if_pos hc, TxRef.xor_assoc]
    · by_cases hb : p ≤ q.1 ∧ q.1 < e
      · have hc : s ≤ q.1 ∧ q.1 < e := by omega
        rw [if_neg ha, if_pos hb, if_pos hc, ← TxRef.xor_assoc, ← TxRef.xor_assoc,
          TxRef.xor_comm q.2]
      · have hc : ¬ (s ≤ q.1 ∧ q.1 < e) := by omega
        rw [if_neg ha, if_neg hb, if_neg hc]

theorem xorBelow_eq_rangeXor (ops : List (Nat × TxRef)) (b : Nat) :
    xorBelow ops b = rangeXor ops 0 b := by
  unfold xorBelow rangeXor
  congr 2
  apply List.filter_congr
  intro p _
  simp

theorem rangeXor_of_bound {ops : List (Nat × TxRef)} {m : Nat} (h : ∀ p ∈ ops, p.1 < m)
    (b : Nat) (hb : m ≤ b) : rangeXor ops 0 b = rangeXor ops 0 m := by
  rw [rangeXor_split ops 0 m b (Nat.zero_le _) hb,
    rangeXor_of_noClockIn (s := m) (e := b) (fun p hp hin => by have := h p hp; omega),
    TxRef.xor_zero]

theorem noClockIn_snoc {ops : List (Nat × TxRef)} {s e : Nat} (h : noClockIn ops s e)
    (c : Nat) (r : TxRef) (hc : ¬ (s ≤ c ∧ c < e)) : noClockIn (ops ++ [(c, r)]) s e := by
  intro p hp
  rcases List.mem_append.1 hp with hp | hp
  · exact h p hp
  · rw [List.mem_singleton] at hp; subst hp; exact hc

theorem noClockIn_mono {ops : List (Nat × TxRef)} {s e s1 e1 : Nat} (h : noClockIn ops s e)
    (hs : s ≤ s1) (he : e1 ≤ e) : noClockIn ops s1 e1 :=
  fun p hp hin => h p hp (by omega)

/-! ## Fresh branches -/

theorem mul_two_pow_pos {L : Nat} (hL : 1 ≤ L) (h : Nat) : 1 ≤ L * 2 ^ h :=
  Nat.mul_pos hL (Nat.pos_pow_of_pos h (by decide))

theorem mul_two_pow_succ (L h : Nat) : L * 2 ^ (h + 1) = 2 * (L * 2 ^ h) := by
  rw [Nat.pow_succ]; ring

theorem mul_two_pow_ge {L : Nat} (h : Nat) : L ≤ L * 2 ^ h :=
  Nat.le_mul_of_pos_right L (Nat.pos_pow_of_pos h (by decide))

theorem newBranch_good (t : tree TxRef) (ops : List (Nat × TxRef))
    (hinit : t.dataInitFn = NewTxRef) (hL : 1 ≤ t.leafSize) :
    ∀ (h fuel s : Nat), s + (s + t.leafSize * 2 ^ h) < 2 ^ 32 →
      noClockIn ops s (s + t.leafSize * 2 ^ h) →
      (t.newBranch fuel s (s + t.leafSize * 2 ^ h) = none ∧ fuel ≤ h) ∨
        ∃ b, t.newBranch fuel s (s + t.leafSize * 2 ^ h) = some b ∧
          Good t.leafSize ops h s b := by
  intro h
  induction h with
  | zero =>
    intro fuel s hb hno
    cases fuel with
    | zero => exact Or.inl ⟨rfl, Nat.le_refl _⟩
    | succ fuel =>
      right
      have hc : ¬ ((s + t.leafSize * 2 ^ 0 + lcSize - s) % lcSize > t.leafSize) := by
        simp only [lcSize, Nat.pow_zero, Nat.mul_one] at hb ⊢
        omega
      refine ⟨_, by simp only [tree.newBranch, if_neg hc]; rfl, ?_⟩
      simp only [newNode, Good, Nat.pow_zero, Nat.mul_one, hinit, NewTxRef, and_true,
        true_and]
      simp only [Nat.pow_zero, Nat.mul_one] at hno
      exact (rangeXor_of_noClockIn hno).symm
  | succ h ih =>
    intro fuel s hb hno
    cases fuel with
    | zero => exact Or.inl ⟨rfl, Nat.zero_le _⟩
    | succ fuel =>
      have hw := mul_two_pow_succ t.leafSize h
      have hpos := mul_two_pow_pos hL h
      have hge := mul_two_pow_ge (L := t.leafSize) h
      have hc : (s + t.leafSize * 2 ^ (h + 1) + lcSize - s) % lcSize > t.leafSize := by
        simp only [lcSize]
        omega
      have hsplit : ((s + t.leafSize * 2 ^ (h + 1) + s) % lcSize) / 2
          = s + t.leafSize * 2 ^ h := by
        simp only [lcSize]
        omega
      have hno1 : noClockIn ops s (s + t.leafSize * 2 ^ h) :=
        noClockIn_mono hno (Nat.le_refl _) (by omega)
      have hno2 : noClockIn ops (s + t.leafSize * 2 ^ h) (s + t.leafSize * 2 ^ (h + 1)) :=
        noClockIn_mono hno (by omega) (Nat.le_refl _)
      simp only [tree.newBranch, if_pos hc, hsplit]
      rcases ih fuel s (by omega) hno1 with ⟨hn, hf⟩ | ⟨l, hl, hg⟩
      · left
        rw [hn]
        exact ⟨rfl, by omega⟩
      · right
        rw [hl]
        refine ⟨_, rfl, ?_⟩
        simp only [Good, hinit, NewTxRef, true_and]
        exact ⟨(rangeXor_of_noClockIn hno).symm, hg, Or.inl hno2⟩

/-! ## The insertion walk -/

theorem insertLoop_leaf (t : tree TxRef) (c : Nat) (ref : TxRef) (fuel s m : Nat)
    (d : TxRef) (rt : node TxRef) :
    t.insertLoop c ref (fuel + 1) (node.mk s m d node.nil rt)
      = some (node.mk s m (d.xor ref) node.nil rt, none) := rfl

theorem insertLoop_left_none (t : tree TxRef) (c : Nat) (ref : TxRef) (fuel s m : Nat)
    (d : TxRef) (l rt : node TxRef) (hl : l ≠ node.nil) (hc : c < s)
    (h : t.insertLoop c ref fuel l = none) :
    t.insertLoop c ref (fuel + 1) (node.mk s m d l rt) = none := by
  cases l with
  | nil => exact absurd rfl hl
  | mk ls lm ld ll lr => simp only [tree.insertLoop, Data.Insert, TxRef.Insert, if_pos hc, h]

theorem insertLoop_left_some (t : tree TxRef) (c : Nat) (ref : TxRef) (fuel s m : Nat)
    (d : TxRef) (l rt : node TxRef) (hl : l ≠ node.nil) (hc : c < s) (l1 : node TxRef)
    (e : error) (h : t.insertLoop c ref fuel l = some (l1, e)) :
    t.insertLoop c ref (fuel + 1) (node.mk s m d l rt)
      = some (node.mk s m (d.xor ref) l1 rt, e) := by
  cases l with
  | nil => exact absurd rfl hl
  | mk ls lm ld ll lr => simp only [tree.insertLoop, Data.Insert, TxRef.Insert, if_pos hc, h]

theorem insertLoop_right_none (t : tree TxRef) (c : Nat) (ref : TxRef) (fuel s m : Nat)
    (d : TxRef) (l rt : node TxRef) (hl : l ≠ node.nil) (hr : rt ≠ node.nil) (hc : ¬ c < s)
    (h : t.insertLoop c ref fuel rt = none) :
    t.insertLoop c ref (fuel + 1) (node.mk s m d l rt) = none := by
  cases l with
  | nil => exact absurd rfl hl
  | mk ls lm ld ll lr =>
    cases rt with
    | nil => exact absurd rfl hr
    | mk rs rm rd rl rr =>
      simp only [tree.insertLoop, Data.Insert, TxRef.Insert, if_neg hc, h]

theorem insertLoop_right_some (t : tree TxRef) (c : Nat) (ref : TxRef) (fuel s m : Nat)
    (d : TxRef) (l rt : node TxRef) (hl : l ≠ node.nil) (hr : rt ≠ node.nil) (hc : ¬ c < s)
    (r1 : node TxRef) (e : error) (h : t.insertLoop c ref fuel rt = some (r1, e)) :
    t.insertLoop c ref (fuel + 1) (node.mk s m d l rt)
      = some (node.mk s m (d.xor ref) l r1, e) := by
  cases l with
  | nil => exact absurd rfl hl
  | mk ls lm ld ll lr =>
    cases rt with
    | nil => exact absurd rfl hr
    | mk rs rm rd rl rr =>
      simp only [tree.insertLoop, Data.Insert, TxRef.Insert, if_neg hc, h]

theorem insertLoop_fresh_none (t : tree TxRef) (c : Nat) (ref : TxRef) (fuel s m : Nat)
    (d : TxRef) (l : node TxRef) (hl : l ≠ node.nil) (hc : ¬ c < s)
    (h : t.newBranch fuel s m = none) :
    t.insertLoop c ref (fuel + 1) (node.mk s m d l node.nil) = none := by
  cases l with
  | nil => exact absurd rfl hl
  | mk ls lm ld ll lr => simp only [tree.insertLoop, Data.Insert, TxRef.Insert, if_neg hc, h]

theorem insertLoop_fresh_walk_none (t : tree TxRef) (c : Nat) (ref : TxRef) (fuel s m : Nat)
    (d : TxRef) (l : node TxRef) (hl : l ≠ node.nil) (hc : ¬ c < s) (b : node TxRef)
    (hb : t.newBranch fuel s m = some b) (h : t.insertLoop c ref fuel b = none) :
    t.insertLoop c ref (fuel + 1) (node.mk s m d l node.nil) = none := by
  cases l with
  | nil => exact absurd rfl hl
  | mk ls lm ld ll lr =>
    simp only [tree.insertLoop, Data.Insert, TxRef.Insert, if_neg hc, hb, h]

theorem insertLoop_fresh_some (t : tree TxRef) (c : Nat) (ref : TxRef) (fuel s m : Nat)
    (d : TxRef) (l : node TxRef) (hl : l ≠ node.nil) (hc : ¬ c < s) (b r1 : node TxRef)
    (e : error) (hb : t.newBranch fuel s m = some b)
    (h : t.insertLoop c ref fuel b = some (r1, e)) :
    t.insertLoop c ref (fuel + 1) (node.mk s m d l node.nil)
      = some (node.mk s m (d.xor ref) l r1, e) := by
  cases l with
  | nil => exact absurd rfl hl
  | mk ls lm ld ll lr =>
    simp only [tree.insertLoop, Data.Insert, TxRef.Insert, if_neg hc, hb, h]

theorem Good_ne_nil {L : Nat} {ops : List (Nat × TxRef)} {h s : Nat} {n : node TxRef}
    (hg : Good L ops h s n) : n ≠ node.nil := by
  intro hn
  subst hn
  cases h <;> exact hg

theorem Good_snoc_off {L : Nat} {ops : List (Nat × TxRef)} (c : Nat) (r : TxRef) :
    ∀ (h s : Nat) (n : node TxRef), Good L ops h s n → ¬ (s ≤ c ∧ c < s + L * 2 ^ h) →
      Good L (ops ++ [(c, r)]) h s n := by
  intro h
  induction h with
  | zero =>
    intro s n hg hc
    cases n with
    | nil => exact hg
    | mk sp mx d l rt =>
      obtain ⟨hm, hd, hl, hr⟩ := hg
      simp only [Nat.pow_zero, Nat.mul_one] at hc
      refine ⟨hm, ?_, hl, hr⟩
      rw [rangeXor_snoc, if_neg (by omega)]
      exact hd
  | succ h ih =>
    intro s n hg hc
    cases n with
    | nil => exact hg
    | mk sp mx d l rt =>
      obtain ⟨hsp, hm, hd, hl, hr⟩ := hg
      have hw := mul_two_pow_succ L h
      refine ⟨hsp, hm, ?_, ih s l hl (by omega), ?_⟩
      · rw [rangeXor_snoc, if_neg (by omega)]
        exact hd
      · rcases hr with ⟨hn, hno⟩ | hr
        · exact Or.inl ⟨hn, noClockIn_snoc hno c r (by omega)⟩
        · exact Or.inr (ih sp rt hr (by omega))

theorem walkExact_left (t : tree TxRef) (c : Nat) (ref : TxRef) (fuel s m : Nat)
    (d : TxRef) (l rt : node TxRef) (hl : l ≠ node.nil) (hc : c < s) :
    t.walkExact c ref (fuel + 1) (node.mk s m d l rt) = t.walkExact c ref fuel l := by
  cases l with
  | nil => exact absurd rfl hl
  | mk ls lm ld ll lr => simp only [tree.walkExact, Data.Insert, TxRef.Insert, if_pos hc]

theorem walkExact_right (t : tree TxRef) (c : Nat) (ref : TxRef) (fuel s m : Nat)
    (d : TxRef) (l rt : node TxRef) (hl : l ≠ node.nil) (hr : rt ≠ node.nil) (hc : ¬ c < s) :
    t.walkExact c ref (fuel + 1) (node.mk s m d l rt) = t.walkExact c ref fuel rt := by
  cases l with
  | nil => exact absurd rfl hl
  | mk ls lm ld ll lr =>
    cases rt with
    | nil => exact absurd rfl hr
    | mk rs rm rd rl rr => simp only [tree.walkExact, Data.Insert, TxRef.Insert, if_neg hc]

theorem walkExact_fresh (t : tree TxRef) (c : Nat) (ref : TxRef) (fuel s m : Nat)
    (d : TxRef) (l : node TxRef) (hl : l ≠ node.nil) (hc : ¬ c < s)
    (h : t.walkExact c ref (fuel + 1) (node.mk s m d l node.nil) = true) :
    t.newBranchExact fuel s m = true ∧
      ∀ b, t.newBranch fuel s m = some b → t.walkExact c ref fuel b = true := by
  cases l with
  | nil => exact absurd rfl hl
  | mk ls lm ld ll lr =>
    simp only [tree.walkExact, Data.Insert, TxRef.Insert, if_neg hc, Bool.and_eq_true] at h
    refine ⟨h.1, fun b hb => ?_⟩
    have h2 := h.2
    rw [hb] at h2
    exact h2

theorem newBranchExact_sum (t : tree TxRef) (fuel s m : Nat)
    (h : t.newBranchExact (fuel + 1) s m = true) : m + s < lcSize := by
  simp only [tree.newBranchExact, Bool.and_eq_true, decide_eq_true_eq] at h
  exact h.1.1

theorem insertLoop_good (t : tree TxRef) (ops : List (Nat × TxRef)) (c : Nat) (ref : TxRef)
    (hinit : t.dataInitFn = NewTxRef) (hL : 1 ≤ t.leafSize) :
    ∀ (h fuel s : Nat) (n : node TxRef), Good t.leafSize ops h s n → s ≤ c →
      c < s + t.leafSize * 2 ^ h →
      (s + t.leafSize * 2 ^ h ≤ 2 ^ 31 ∨ t.walkExact c ref fuel n = true) →
      (t.insertLoop c ref fuel n = none ∧ fuel ≤ h) ∨
        ∃ n1, t.insertLoop c ref fuel n = some (n1, none) ∧
          Good t.leafSize (ops ++ [(c, ref)]) h s n1 := by
  intro h
  induction h with
  | zero =>
    intro fuel s n hg hs hc _
    cases n with
    | nil => exact absurd hg id
    | mk sp mx d l rt =>
      obtain ⟨hm, hd, hl, hr⟩ := hg
      subst hl hr
      cases fuel with
      | zero => exact Or.inl ⟨rfl, Nat.le_refl _⟩
      | succ fuel =>
        right
        refine ⟨_, insertLoop_leaf t c ref fuel sp mx d node.nil, hm, ?_, rfl, rfl⟩
        simp only [Nat.pow_zero, Nat.mul_one] at hc
        rw [rangeXor_snoc, if_pos (by omega), hd]
  | succ h ih =>
    intro fuel s n hg hs hc hb
    cases n with
    | nil => exact absurd hg id
    | mk sp mx d l rt =>
      obtain ⟨hsp, hm, hd, hl, hr⟩ := hg
      have hw := mul_two_pow_succ t.leafSize h
      have hpos := mul_two_pow_pos hL h
      have hdata : d.xor ref = rangeXor (ops ++ [(c, ref)]) s mx := by
        rw [rangeXor_snoc, if_pos (by omega), hd]
      cases fuel with
      | zero => exact Or.inl ⟨rfl, Nat.zero_le _⟩
      | succ fuel =>
        by_cases hlt : c < sp
        · have hb1 : s + t.leafSize * 2 ^ h ≤ 2 ^ 31 ∨ t.walkExact c ref fuel l = true :=
            hb.imp (fun hb => by omega)
              (fun hb => by
                rw [walkExact_left t c ref fuel sp mx d l rt (Good_ne_nil hl) hlt] at hb
                exact hb)
          rcases ih fuel s l hl hs (by omega) hb1 with
            ⟨hn, hf⟩ | ⟨l1, hl1, hg1⟩
          · exact Or.inl
              ⟨insertLoop_left_none t c ref fuel sp mx d l rt (Good_ne_nil hl) hlt hn, by omega⟩
          · right
            refine ⟨_, insertLoop_left_some t c ref fuel sp mx d l rt (Good_ne_nil hl) hlt
              l1 none hl1, hsp, hm, hdata, hg1, ?_⟩
            rcases hr with ⟨hn, hno⟩ | hr
            · exact Or.inl ⟨hn, noClockIn_snoc hno c ref (by omega)⟩
            · exact Or.inr (Good_snoc_off c ref h sp rt hr (by omega))
        · have hl2 : Good t.leafSize (ops ++ [(c, ref)]) h s l :=
            Good_snoc_off c ref h s l hl (by omega)
          rcases hr with ⟨hn, hno⟩ | hr
          · subst hn
            have hmx : mx = sp + t.leafSize * 2 ^ h := by omega
            subst hmx
            cases fuel with
            | zero =>
              exact Or.inl ⟨insertLoop_fresh_none t c ref 0 sp _ d l (Good_ne_nil hl) hlt rfl,
                by omega⟩
            | succ fuel =>
              have hsum : sp + (sp + t.leafSize * 2 ^ h) < 2 ^ 32 := by
                rcases hb with hb | hb
                · omega
                · have := newBranchExact_sum t fuel sp _
                    (walkExact_fresh t c ref (fuel + 1) sp _ d l (Good_ne_nil hl) hlt hb).1
                  simp only [lcSize] at this
                  omega
              rcases newBranch_good t ops hinit hL h (fuel + 1) sp hsum hno with
                ⟨hn, hf⟩ | ⟨b, hb1, hgb⟩
              · exact Or.inl ⟨insertLoop_fresh_none t c ref (fuel + 1) sp _ d l
                  (Good_ne_nil hl) hlt hn, by omega⟩
              · have hb2 : sp + t.leafSize * 2 ^ h ≤ 2 ^ 31 ∨
                    t.walkExact c ref (fuel + 1) b = true :=
                  hb.imp (fun hb => by omega)
                    (fun hb => (walkExact_fresh t c ref (fuel + 1) sp _ d l (Good_ne_nil hl)
                      hlt hb).2 b hb1)
                rcases ih (fuel + 1) sp b hgb (by omega) (by omega) hb2 with
                  ⟨hn, hf⟩ | ⟨r1, hr1, hg1⟩
                · exact Or.inl ⟨insertLoop_fresh_walk_none t c ref (fuel + 1) sp _ d l
                    (Good_ne_nil hl) hlt b hb1 hn, by omega⟩
                · right
                  exact ⟨_, insertLoop_fresh_some t c ref (fuel + 1) sp _ d l (Good_ne_nil hl)
                    hlt b r1 none hb1 hr1, hsp, hm, hdata, hl2, Or.inr hg1⟩
          · have hb1 : sp + t.leafSize * 2 ^ h ≤ 2 ^ 31 ∨ t.walkExact c ref fuel rt = true :=
              hb.imp (fun hb => by omega)
                (fun hb => by
                  rw [walkExact_right t c ref fuel sp mx d l rt (Good_ne_nil hl)
                    (Good_ne_nil hr) hlt] at hb
                  exact hb)
            rcases ih fuel sp rt hr (by omega) (by omega) hb1 with
              ⟨hn, hf⟩ | ⟨r1, hr1, hg1⟩
            · exact Or.inl ⟨insertLoop_right_none t c ref fuel sp mx d l rt (Good_ne_nil hl)
                (Good_ne_nil hr) hlt hn, by omega⟩
            · right
              exact ⟨_, insertLoop_right_some t c ref fuel sp mx d l rt (Good_ne_nil hl)
                (Good_ne_nil hr) hlt r1 none hr1, hsp, hm, hdata, hl2, Or.inr hg1⟩

/-! ## Growth, insertion and pruning preserve the invariant -/

theorem Good_data {L : Nat} {ops : List (Nat × TxRef)} {h s sp mx : Nat} {d : TxRef}
    {l rt : node TxRef} (hg : Good L ops h s (node.mk sp mx d l rt)) :
    mx = s + L * 2 ^ h ∧ d = rangeXor ops s mx := by
  cases h with
  | zero => exact ⟨by simpa using hg.1, hg.2.1⟩
  | succ h => exact ⟨hg.2.1, hg.2.2.1⟩

theorem growLoop_lt {D : Type} [Data D] (fuel : Nat) (t t1 : tree D) (c : Nat)
    (h : tree.growLoop fuel t c = some t1) : c < t1.maxLC ∧ (t1 = t ∨ t.maxLC ≤ c) := by
  induction fuel generalizing t with
  | zero =>
    unfold tree.growLoop at h
    split at h
    · simp at h
    · simp only [Option.some.injEq] at h; subst h; exact ⟨by omega, Or.inl rfl⟩
  | succ fuel ih =>
    unfold tree.growLoop at h
    split at h
    · rename_i hge
      cases hr : t.reRoot with
      | none => rw [hr] at h; simp at h
      | some t2 =>
        rw [hr] at h
        exact ⟨(ih t2 h).1, Or.inr hge⟩
    · simp only [Option.some.injEq] at h; subst h; exact ⟨by omega, Or.inl rfl⟩

theorem Insert_eq_some {D : Type} [Data D] {t t1 : tree D} {fuel c : Nat} {ref : TxRef}
    {e : error} (h : t.Insert fuel c ref = some (t1, e)) :
    ∃ t2 n1, tree.growLoop fuel t c = some t2 ∧
      t2.insertLoop c ref fuel t2.root = some (n1, e) ∧ t1 = { t2 with root := n1 } := by
  unfold tree.Insert at h
  cases hg : tree.growLoop fuel t c with
  | none => rw [hg] at h; simp at h
  | some t2 =>
    rw [hg] at h
    simp only at h
    cases hw : t2.insertLoop c ref fuel t2.root with
    | none => rw [hw] at h; simp at h
    | some p =>
      obtain ⟨n1, e1⟩ := p
      rw [hw] at h
      simp only [Option.some.injEq, Prod.mk.injEq] at h
      obtain ⟨h1, h2⟩ := h
      subst h2
      exact ⟨t2, n1, rfl, hw, h1.symm⟩

theorem reRoot_leafSize {D : Type} [Data D] {t t1 : tree D} (h : t.reRoot = some t1) :
    t1.leafSize = t.leafSize ∧ t1.maxLC = (t.maxLC * 2) % lcSize := by
  unfold tree.reRoot at h
  split at h
  · simp at h
  · simp only [Option.some.injEq] at h; rw [← h]; exact ⟨rfl, rfl⟩

theorem growLoop_leafSize {D : Type} [Data D] (fuel : Nat) (t t1 : tree D) (c : Nat)
    (h : tree.growLoop fuel t c = some t1) : t1.leafSize = t.leafSize := by
  induction fuel generalizing t with
  | zero =>
    unfold tree.growLoop at h
    split at h
    · simp at h
    · simp only [Option.some.injEq] at h; rw [h]
  | succ fuel ih =>
    unfold tree.growLoop at h
    split at h
    · cases hr : t.reRoot with
      | none => rw [hr] at h; simp at h
      | some t2 =>
        rw [hr] at h
        rw [ih t2 h, (reRoot_leafSize hr).1]
    · simp only [Option.some.injEq] at h; rw [h]

theorem Insert_maxLC_le {D : Type} [Data D] {t t1 : tree D} {fuel c : Nat} {ref : TxRef}
    {e : error} (h : t.Insert fuel c ref = some (t1, e)) :
    t.maxLC ≤ t1.maxLC ∧ c < t1.maxLC := by
  obtain ⟨t2, n1, hg, _, ht1⟩ := Insert_eq_some h
  subst ht1
  obtain ⟨hlt, heq | hle⟩ := growLoop_lt fuel t t2 c hg
  · subst heq; exact ⟨Nat.le_refl _, hlt⟩
  · exact ⟨by show t.maxLC ≤ t2.maxLC; omega, hlt⟩

theorem reRoot_inv {t : tree TxRef} {ops : List (Nat × TxRef)} (hinv : Inv t ops)
    (hb : 2 * t.maxLC < 2 ^ 32) :
    ∃ t1, t.reRoot = some t1 ∧ Inv t1 ops ∧ t1.maxLC = 2 * t.maxLC ∧
      t1.leafSize = t.leafSize := by
  obtain ⟨hL, hinit, hclk, _, h, hM, hg⟩ := hinv
  cases hr : t.root with
  | nil => rw [hr] at hg; exact absurd hg (Good_ne_nil hg rfl).elim
  | mk sp mx d l rt =>
    have hm1 : (2 * t.maxLC) % lcSize = 2 * t.maxLC := Nat.mod_eq_of_lt hb
    have hm2 : (t.maxLC * 2) % lcSize = 2 * t.maxLC := by
      rw [Nat.mul_comm]; exact hm1
    refine ⟨{ t with root := node.mk t.maxLC (2 * t.maxLC) d t.root node.nil,
                     maxLC := 2 * t.maxLC },
      by simp only [tree.reRoot, hr, hm1, hm2]; rfl, ?_, rfl, rfl⟩
    refine ⟨hL, hinit, fun p hp => ?_, hb, h + 1, ?_, ?_⟩
    · have := hclk p hp
      show p.1 < 2 * t.maxLC
      omega
    · show 2 * t.maxLC = t.leafSize * 2 ^ (h + 1)
      rw [mul_two_pow_succ, hM]
    · rw [hr] at hg
      obtain ⟨hmx, hd⟩ := Good_data hg
      have hw := mul_two_pow_succ t.leafSize h
      show Good t.leafSize ops (h + 1) 0 (node.mk t.maxLC (2 * t.maxLC) d t.root node.nil)
      rw [hr]
      refine ⟨by omega, by omega, ?_, hg, Or.inl ⟨rfl, fun p hp => ?_⟩⟩
      · rw [hd, rangeXor_of_bound hclk (2 * t.maxLC) (by omega),
          rangeXor_of_bound hclk mx (by omega)]
      · have := hclk p hp
        omega

theorem growExact_step {D : Type} [Data D] (fuel : Nat) (t u : tree D) (c : Nat)
    (hge : c ≥ t.maxLC) (hr : t.reRoot = some u)
    (h : tree.growExact (fuel + 1) t c = true) :
    2 * t.maxLC < lcSize ∧ tree.growExact fuel u c = true := by
  simp only [tree.growExact, if_pos hge, hr, Bool.and_eq_true, decide_eq_true_eq] at h
  exact h

theorem growLoop_inv (fuel : Nat) (t t1 : tree TxRef) (ops : List (Nat × TxRef)) (c : Nat)
    (hinv : Inv t ops) (h : tree.growLoop fuel t c = some t1)
    (hb : t1.maxLC ≤ 2 ^ 31 ∨ tree.growExact fuel t c = true) :
    Inv t1 ops ∧ c < t1.maxLC := by
  induction fuel generalizing t with
  | zero =>
    obtain ⟨hlt, heq | hle⟩ := growLoop_lt 0 t t1 c h
    · subst heq; exact ⟨hinv, hlt⟩
    · unfold tree.growLoop at h
      rw [if_pos hle] at h
      simp at h
  | succ fuel ih =>
    have hlt := (growLoop_lt (fuel + 1) t t1 c h).1
    unfold tree.growLoop at h
    split at h
    · rename_i hge
      cases hr : t.reRoot with
      | none => rw [hr] at h; simp at h
      | some t2 =>
        have h2 : 2 * t.maxLC < 2 ^ 32 := by
          rcases hb with hb | hb
          · omega
          · have := (growExact_step fuel t t2 c hge hr hb).1
            simp only [lcSize] at this
            exact this
        obtain ⟨t3, hr3, hinv2, _, _⟩ := reRoot_inv hinv h2
        rw [hr] at hr3 h
        simp only [Option.some.injEq] at hr3
        subst hr3
        exact ih t2 hinv2 h (hb.imp id (fun hb => (growExact_step fuel t t2 c hge hr hb).2))
    · simp only [Option.some.injEq] at h; subst h; exact ⟨hinv, hlt⟩

theorem Insert_inv {t t1 : tree TxRef} {ops : List (Nat × TxRef)} {fuel c : Nat}
    {ref : TxRef} {e : error} (hinv : Inv t ops) (h : t.Insert fuel c ref = some (t1, e))
    (hb : t1.maxLC ≤ 2 ^ 31 ∨ t.InsertExact fuel c ref = true) :
    e = none ∧ Inv t1 (ops ++ [(c, ref)]) ∧ t1.leafSize = t.leafSize := by
  obtain ⟨t2, n1, hg, hw, ht1⟩ := Insert_eq_some h
  subst ht1
  have hbg : t2.maxLC ≤ 2 ^ 31 ∨ tree.growExact fuel t c = true :=
    hb.imp id (fun hb => by
      simp only [tree.InsertExact, Bool.and_eq_true] at hb
      exact hb.1)
  obtain ⟨⟨hL, hinit, hclk, h32, ht, hM, hgood⟩, hc⟩ := growLoop_inv fuel t t2 ops c hinv hg hbg
  have hbw : 0 + t2.leafSize * 2 ^ ht ≤ 2 ^ 31 ∨ t2.walkExact c ref fuel t2.root = true :=
    hb.imp (fun hb => by
        have : t2.maxLC ≤ 2 ^ 31 := hb
        omega)
      (fun hb => by
        simp only [tree.InsertExact, Bool.and_eq_true, hg] at hb
        exact hb.2)
  rcases insertLoop_good t2 ops c ref hinit hL ht fuel 0 t2.root hgood (Nat.zero_le _)
    (by omega) hbw with ⟨hn, _⟩ | ⟨n2, hn2, hg2⟩
  · rw [hn] at hw; simp at hw
  · rw [hn2] at hw
    simp only [Option.some.injEq, Prod.mk.injEq] at hw
    obtain ⟨hn, he⟩ := hw
    subst hn
    refine ⟨he.symm, ⟨hL, hinit, fun p hp => ?_, h32, ht, hM, hg2⟩, ?_⟩
    · rcases List.mem_append.1 hp with hp | hp
      · exact hclk p hp
      · rw [List.mem_singleton] at hp; subst hp; exact hc
    · exact growLoop_leafSize fuel t t2 c hg

theorem dropLeaves_good {L : Nat} {ops : List (Nat × TxRef)} :
    ∀ (h s : Nat) (n : node TxRef), Good L ops (h + 1) s n →
      Good (L * 2) ops h s (dropLeaves n) := by
  intro h
  induction h with
  | zero =>
    intro s n hg
    cases n with
    | nil => exact hg
    | mk sp mx d l rt =>
      obtain ⟨_, hm, hd, hl, _⟩ := hg
      cases l with
      | nil => exact absurd hl id
      | mk ls lm ld ll lr =>
        obtain ⟨_, _, hll, _⟩ := hl
        subst hll
        simp only [dropLeaves, Good]
        exact ⟨by simpa using hm, hd, trivial, trivial⟩
  | succ h ih =>
    intro s n hg
    cases n with
    | nil => exact hg
    | mk sp mx d l rt =>
      obtain ⟨hsp, hm, hd, hl, hr⟩ := hg
      cases l with
      | nil => exact absurd hl id
      | mk ls lm ld ll lr =>
        cases ll with
        | nil => exact (Good_ne_nil hl.2.2.2.1 rfl).elim
        | mk a b c1 d1 e1 =>
          have hw1 := mul_two_pow_succ L h
          have hw2 := mul_two_pow_succ L (h + 1)
          have hw3 := mul_two_pow_succ (L * 2) h
          have hw4 : L * 2 * 2 ^ h = 2 * (L * 2 ^ h) := by ring
          simp only [dropLeaves]
          refine ⟨by omega, by omega, hd, ih s _ hl, ?_⟩
          rcases hr with ⟨hn, hno⟩ | hr
          · subst hn; exact Or.inl ⟨rfl, hno⟩
          · exact Or.inr (ih sp rt hr)

theorem DropLeaves_inv {t t1 : tree TxRef} {ops : List (Nat × TxRef)} (hinv : Inv t ops)
    (h : t.DropLeaves = some t1) :
    Inv t1 ops ∧ t1.maxLC = t.maxLC ∧ (t1 = t ∨ t1.leafSize = t.leafSize * 2) := by
  obtain ⟨hL, hinit, hclk, h32, ht, hM, hg⟩ := hinv
  unfold tree.DropLeaves at h
  split at h
  · simp at h
  · simp only [Option.some.injEq] at h; subst h
    exact ⟨⟨hL, hinit, hclk, h32, ht, hM, hg⟩, rfl, Or.inl rfl⟩
  · rename_i sp mx d ls lm ld ll lr rt hroot
    simp only [Option.some.injEq] at h; subst h
    cases ht with
    | zero => rw [hroot] at hg; exact absurd hg.2.2.1 (by simp)
    | succ ht =>
      have hw := mul_two_pow_succ t.leafSize ht
      have hpos := mul_two_pow_pos hL ht
      have hmod : (t.leafSize * 2) % lcSize = t.leafSize * 2 := by
        apply Nat.mod_eq_of_lt
        have := mul_two_pow_ge (L := t.leafSize) ht
        omega
      refine ⟨⟨?_, hinit, hclk, h32, ht, ?_, ?_⟩, rfl, Or.inr hmod⟩
      · show 1 ≤ (t.leafSize * 2) % lcSize
        rw [hmod]; omega
      · show t.maxLC = (t.leafSize * 2) % lcSize * 2 ^ ht
        rw [hmod, hM, Nat.pow_succ]; ring
      · show Good ((t.leafSize * 2) % lcSize) ops ht 0 (dropLeaves t.root)
        rw [hmod]
        exact dropLeaves_good ht 0 t.root hg

theorem New_inv (L : Nat) (hL : 1 ≤ L) (h32 : L < lcSize) : Inv (New L NewTxRef) [] :=
  ⟨hL, rfl, fun _ hp => absurd hp (List.not_mem_nil _), h32, 0, by simp [New],
    by simp [New, newNode, Good, NewTxRef, rangeXor_nil]⟩

theorem Reach_inv {L : Nat} {t : tree TxRef} {ops : List (Nat × TxRef)} (hL : 1 ≤ L)
    (h : Reach L t ops) : Inv t ops := by
  induction h with
  | new h32 => exact New_inv L hL h32
  | insert _ _ hex hins ih => exact (Insert_inv ih hins (Or.inr hex)).2.1
  | reRoot _ hb hre ih =>
    obtain ⟨t2, hr, hinv2, _, _⟩ := reRoot_inv ih (by simpa [lcSize] using hb)
    rw [hr] at hre
    simp only [Option.some.injEq] at hre
    subst hre
    exact hinv2
  | dropLeaves _ hd ih => exact (DropLeaves_inv ih hd).1

theorem BuiltExact_reach {L : Nat} {t : tree TxRef} {ops : List (Nat × TxRef)}
    (h : BuiltExact L t ops) : Reach L t ops := by
  induction h with
  | new h32 => exact Reach.new h32
  | insert _ hc hex hins ih => exact Reach.insert ih hc hex hins

theorem BuiltExact_built {L : Nat} {t : tree TxRef} {ops : List (Nat × TxRef)}
    (h : BuiltExact L t ops) : Built L t ops := by
  induction h with
  | new h32 => exact Built.new h32
  | insert _ hc _ hins ih => exact Built.insert ih hc hins

theorem Built_leafSize {L : Nat} {t : tree TxRef} {ops : List (Nat × TxRef)}
    (h : Built L t ops) : t.leafSize = L := by
  induction h with
  | new _ => rfl
  | insert _ _ hins ih =>
    obtain ⟨t2, n1, hg, _, ht1⟩ := Insert_eq_some hins
    subst ht1
    show t2.leafSize = L
    rw [growLoop_leafSize _ _ _ _ hg, ih]

/-! ## The prefix digest -/

theorem lt_leafEnd (L c : Nat) (hL : 1 ≤ L) : c < (c / L + 1) * L := by
  rw [Nat.mul_comm]
  exact Nat.lt_mul_div_succ c hL

theorem leafEnd_le_of_lt {L c m : Nat} (hL : 1 ≤ L) (hm : L ∣ m) (hc : c < m) :
    (c / L + 1) * L ≤ m := by
  obtain ⟨k, rfl⟩ := hm
  rw [Nat.mul_comm L k]
  apply Nat.mul_le_mul_right
  have : c / L < k := (Nat.div_lt_iff_lt_mul hL).2 (by rw [Nat.mul_comm]; exact hc)
  omega

theorem add_le_leafEnd {L c s : Nat} (hL : 1 ≤ L) (hs : L ∣ s) (hc : s ≤ c) :
    s + L ≤ (c / L + 1) * L := by
  obtain ⟨k, rfl⟩ := hs
  have : k ≤ c / L := (Nat.le_div_iff_mul_le hL).2 (by rw [Nat.mul_comm]; exact hc)
  calc L * k + L = (k + 1) * L := by ring
    _ ≤ (c / L + 1) * L := Nat.mul_le_mul_right _ (by omega)

theorem getZeroToLoop_nil (c : Nat) (acc : TxRef) :
    getZeroToLoop c (node.nil : node TxRef) acc = acc := rfl

theorem getZeroToLoop_leaf (c sp mx : Nat) (d acc : TxRef) :
    getZeroToLoop c (node.mk sp mx d node.nil node.nil) acc = acc := by
  by_cases h : c < sp
  · simp only [getZeroToLoop, if_pos h]
  · simp only [getZeroToLoop, if_neg h]

theorem getZeroToLoop_right (c sp mx : Nat) (d acc : TxRef) (l rt : node TxRef)
    (h : ¬ c < sp) : getZeroToLoop c (node.mk sp mx d l rt) acc = getZeroToLoop c rt acc := by
  simp only [getZeroToLoop, if_neg h]

theorem getZeroToLoop_left_nil (c sp mx : Nat) (d acc : TxRef) (l : node TxRef)
    (h : c < sp) :
    getZeroToLoop c (node.mk sp mx d l node.nil) acc = getZeroToLoop c l acc := by
  simp only [getZeroToLoop, if_pos h]

theorem getZeroToLoop_left_mk (c sp mx : Nat) (d acc : TxRef) (l : node TxRef)
    (rs rm : Nat) (rd : TxRef) (rl rr : node TxRef) (h : c < sp) :
    getZeroToLoop c (node.mk sp mx d l (node.mk rs rm rd rl rr)) acc
      = getZeroToLoop c l (acc.xor rd) := by
  simp only [getZeroToLoop, if_pos h, Data.Subtract, TxRef.Subtract]

theorem getZeroToLoop_ge {L : Nat} {ops : List (Nat × TxRef)} (c : Nat) :
    ∀ (h s : Nat) (n : node TxRef) (acc : TxRef), Good L ops h s n → s + L * 2 ^ h ≤ c →
      getZeroToLoop c n acc = acc := by
  intro h
  induction h with
  | zero =>
    intro s n acc hg _
    cases n with
    | nil => rfl
    | mk sp mx d l rt =>
      obtain ⟨_, _, hl, hr⟩ := hg
      subst hl hr
      exact getZeroToLoop_leaf c sp mx d acc
  | succ h ih =>
    intro s n acc hg hc
    cases n with
    | nil => rfl
    | mk sp mx d l rt =>
      obtain ⟨hsp, hm, _, _, hr⟩ := hg
      have hw := mul_two_pow_succ L h
      rw [getZeroToLoop_right c sp mx d acc l rt (by omega)]
      rcases hr with ⟨hn, _⟩ | hr
      · subst hn; rfl
      · exact ih sp rt acc hr (by omega)

theorem getZeroToLoop_in {L : Nat} {ops : List (Nat × TxRef)} (c : Nat) (hL : 1 ≤ L) :
    ∀ (h s : Nat) (n : node TxRef) (acc : TxRef), Good L ops h s n → L ∣ s → s ≤ c →
      c < s + L * 2 ^ h →
      getZeroToLoop c n acc = acc.xor (rangeXor ops ((c / L + 1) * L) (s + L * 2 ^ h)) := by
  intro h
  induction h with
  | zero =>
    intro s n acc hg hs hsc _
    cases n with
    | nil => exact absurd hg id
    | mk sp mx d l rt =>
      obtain ⟨_, _, hl, hr⟩ := hg
      subst hl hr
      rw [getZeroToLoop_leaf, rangeXor_empty, TxRef.xor_zero]
      have := add_le_leafEnd hL hs hsc
      simpa using this
  | succ h ih =>
    intro s n acc hg hs hsc hc
    cases n with
    | nil => exact absurd hg id
    | mk sp mx d l rt =>
      obtain ⟨hsp, hm, _, hl, hr⟩ := hg
      have hw := mul_two_pow_succ L h
      have hdsp : L ∣ sp := by
        rw [hsp]; exact Nat.dvd_add hs (Dvd.intro _ rfl)
      have hlt := lt_leafEnd L c hL
      by_cases hcsp : c < sp
      · have hle : (c / L + 1) * L ≤ sp := leafEnd_le_of_lt hL hdsp hcsp
        have hsplit := rangeXor_split ops ((c / L + 1) * L) sp (s + L * 2 ^ (h + 1)) hle
          (by omega)
        rw [hsplit]
        rcases hr with ⟨hn, hno⟩ | hr
        · subst hn
          rw [getZeroToLoop_left_nil c sp mx d acc l hcsp, ih s l acc hl hs hsc (by omega),
            ← hm, rangeXor_of_noClockIn hno, TxRef.xor_zero, ← hsp]
        · cases rt with
          | nil => exact (Good_ne_nil hr rfl).elim
          | mk rs rm rd rl rr =>
            obtain ⟨hrm, hrd⟩ := Good_data hr
            rw [getZeroToLoop_left_mk c sp mx d acc l rs rm rd rl rr hcsp,
              ih s l (acc.xor rd) hl hs hsc (by omega), hrd, ← hsp]
            have e1 : rm = s + L * 2 ^ (h + 1) := by omega
            rw [e1, TxRef.xor_assoc, TxRef.xor_comm (rangeXor ops sp _)]
      · rw [getZeroToLoop_right c sp mx d acc l rt hcsp]
        rcases hr with ⟨hn, hno⟩ | hr
        · subst hn
          rw [getZeroToLoop_nil, rangeXor_of_noClockIn, TxRef.xor_zero]
          exact noClockIn_mono hno (by omega) (by omega)
        · rw [ih sp rt acc hr hdsp (by omega) (by omega)]
          have e1 : sp + L * 2 ^ h = s + L * 2 ^ (h + 1) := by omega
          rw [e1]

theorem GetZeroTo_inv {t : tree TxRef} {ops : List (Nat × TxRef)} (hinv : Inv t ops)
    (c : Nat) :
    t.GetZeroTo c = some (xorBelow ops ((c / t.leafSize + 1) * t.leafSize), none) := by
  obtain ⟨hL, _, hclk, _, h, hM, hg⟩ := hinv
  have hlt := lt_leafEnd t.leafSize c hL
  cases hr : t.root with
  | nil => rw [hr] at hg; exact (Good_ne_nil hg rfl).elim
  | mk sp mx d l rt =>
    have hroot : t.GetZeroTo c = some (getZeroToLoop c t.root d, none) := by
      simp only [tree.GetZeroTo, hr]; rfl
    rw [hroot, xorBelow_eq_rangeXor]
    have hd := hg
    rw [hr] at hd
    obtain ⟨hmx, hd⟩ := Good_data hd
    have hmx2 : mx = t.maxLC := by omega
    by_cases hc : c < t.maxLC
    · have hle : (c / t.leafSize + 1) * t.leafSize ≤ t.maxLC :=
        leafEnd_le_of_lt hL (by rw [hM]; exact Dvd.intro _ rfl) hc
      rw [getZeroToLoop_in c hL h 0 t.root d hg (Nat.dvd_zero _) (Nat.zero_le _) (by omega),
        hd, hmx2, Nat.zero_add, ← hM,
        rangeXor_split ops 0 ((c / t.leafSize + 1) * t.leafSize) t.maxLC (Nat.zero_le _) hle,
        TxRef.xor_xor_cancel]
    · rw [getZeroToLoop_ge c h 0 t.root d hg (by omega), hd, hmx2,
        rangeXor_of_bound hclk ((c / t.leafSize + 1) * t.leafSize) (by omega)]

theorem DropLeaves_isSome {t : tree TxRef} {ops : List (Nat × TxRef)} (hinv : Inv t ops) :
    ∃ t1, t.DropLeaves = some t1 := by
  obtain ⟨_, _, _, _, h, _, hg⟩ := hinv
  unfold tree.DropLeaves
  split
  · rename_i hr; rw [hr] at hg; exact (Good_ne_nil hg rfl).elim
  · exact ⟨_, rfl⟩
  · exact ⟨_, rfl⟩

theorem leafEnd_mul (L k : Nat) (hL : 1 ≤ L) : (k * L / L + 1) * L = (k + 1) * L := by
  rw [Nat.mul_div_cancel _ hL]

theorem leafEnd_odd_double (L k : Nat) (hL : 1 ≤ L) (hk : k % 2 = 1) :
    (k * L / (L * 2) + 1) * (L * 2) = (k + 1) * L := by
  obtain ⟨j, rfl⟩ : ∃ j, k = 2 * j + 1 := ⟨k / 2, by omega⟩
  have h1 : (2 * j + 1) * L / (L * 2) = j := by
    apply Nat.div_eq_of_lt_le
    · calc j * (L * 2) = 2 * j * L := by ring
        _ ≤ (2 * j + 1) * L := Nat.mul_le_mul_right _ (by omega)
    · calc (2 * j + 1) * L < (2 * j + 2) * L := Nat.mul_lt_mul_of_pos_right (by omega) hL
        _ = (j + 1) * (L * 2) := by ring
  rw [h1]; ring

/-! ## Concrete runs -/

theorem BuiltExact_treeAfterInsert0 : BuiltExact 4 treeAfterInsert0 [(0, TxRef.fill 1)] :=
  BuiltExact.insert (f := 3) (e := none) (BuiltExact.new (by decide)) (by decide) rfl rfl

theorem BuiltExact_twoLeafTree :
    BuiltExact 4 twoLeafTree [(0, TxRef.fill 1), (4, TxRef.fill 2)] :=
  BuiltExact.insert (f := 3) (e := none) (t := treeAfterInsert0) BuiltExact_treeAfterInsert0
    (by decide) rfl rfl

theorem BuiltExact_threeLeafTree :
    BuiltExact 4 threeLeafTree [(0, TxRef.fill 1), (4, TxRef.fill 2), (8, TxRef.fill 4)] :=
  BuiltExact.insert (f := 4) (e := none) (t := twoLeafTree) BuiltExact_twoLeafTree
    (by decide) rfl rfl

theorem BuiltExact_filledTree : BuiltExact 4 filledTree filledOps :=
  BuiltExact.insert (f := 4) (e := none) (t := threeLeafTree) BuiltExact_threeLeafTree
    (by decide) rfl rfl

theorem BuiltExact_treeAfterInsert4 : BuiltExact 4 treeAfterInsert4 [(4, TxRef.fill 2)] :=
  BuiltExact.insert (f := 3) (e := none) (BuiltExact.new (by decide)) (by decide) rfl rfl

theorem BuiltExact_swapped :
    BuiltExact 4 twoLeafTree [(4, TxRef.fill 2), (0, TxRef.fill 1)] :=
  BuiltExact.insert (f := 3) (e := none) (t := treeAfterInsert4) BuiltExact_treeAfterInsert4
    (by decide) rfl rfl

theorem Built_wrappedTree : Built (11 * 2 ^ 28) wrappedTree [(11 * 2 ^ 28, TxRef.fill 1)] :=
  Built.insert (f := 3) (e := none) (Built.new (by decide)) (by decide) rfl

theorem xorBelow_of_bound {ops : List (Nat × TxRef)} {b : Nat} (h : ∀ p ∈ ops, p.1 < b) :
    xorBelow ops b = xorAll (ops.map Prod.snd) := by
  unfold xorBelow
  rw [List.filter_eq_self.2 (fun p hp => by simpa using h p hp)]

theorem DropLeaves_twoLeafTree : twoLeafTree.DropLeaves = some twoLeafTreeDropped := rfl

theorem xorAll_perm {rs rs2 : List TxRef} (p : rs.Perm rs2) : xorAll rs = xorAll rs2 := by
  induction p with
  | nil => rfl
  | cons x _ ih => rw [xorAll_cons, xorAll_cons, ih]
  | swap x y l =>
    rw [xorAll_cons, xorAll_cons, xorAll_cons, xorAll_cons, ← TxRef.xor_assoc,
      ← TxRef.xor_assoc, TxRef.xor_comm y x]
  | trans _ _ ih1 ih2 => rw [ih1, ih2]

/-! ## Growth beyond the `uint32` range -/

theorem growLoop_two_pow_31 {D : Type} [Data D] (fuel : Nat) (t : tree D)
    (h : t.maxLC = 0 ∨ ∃ k, k ≤ 31 ∧ t.maxLC = 2 ^ k) :
    tree.growLoop fuel t (2 ^ 31) = none := by
  have hle : t.maxLC ≤ 2 ^ 31 := by
    rcases h with h | ⟨k, hk, h⟩
    · omega
    · rw [h]; exact Nat.pow_le_pow_right (by decide) hk
  induction fuel generalizing t with
  | zero => simp only [tree.growLoop, ge_iff_le, if_pos hle]
  | succ fuel ih =>
    simp only [tree.growLoop, ge_iff_le, if_pos hle]
    cases hr : t.reRoot with
    | none => rfl
    | some u =>
      have hu := (reRoot_leafSize hr).2
      have hP : u.maxLC = 0 ∨ ∃ k, k ≤ 31 ∧ u.maxLC = 2 ^ k := by
        rcases h with h | ⟨k, hk, h⟩
        · left; rw [hu, h]; rfl
        · rcases Nat.lt_or_ge k 31 with hlt | hge
          · right
            refine ⟨k + 1, by omega, ?_⟩
            have hb : 2 ^ (k + 1) ≤ 2 ^ 31 := Nat.pow_le_pow_right (by decide) (by omega)
            rw [hu, h, ← Nat.pow_succ]
            apply Nat.mod_eq_of_lt
            simp only [lcSize]
            omega
          · left
            have hk31 : k = 31 := by omega
            rw [hu, h, hk31]; rfl
      have hle2 : u.maxLC ≤ 2 ^ 31 := by
        rcases hP with h | ⟨k, hk, h⟩
        · omega
        · rw [h]; exact Nat.pow_le_pow_right (by decide) hk
      exact ih u hP hle2

/-! ## The upper bound after growth -/

theorem reRoot_of_root (t : tree TxRef) (s m : Nat) (d : TxRef) (l r : node TxRef)
    (hr : t.root = node.mk s m d l r) :
    t.reRoot = some { t with
      root := node.mk t.maxLC ((2 * t.maxLC) % lcSize) d t.root node.nil
      maxLC := (t.maxLC * 2) % lcSize } := by
  simp only [tree.reRoot, hr]
  rfl

theorem growLoop_maxLC {D : Type} [Data D] (c : Nat) :
    ∀ (j fuel : Nat) (t u : tree D), c < t.maxLC * 2 ^ j → (∀ i, i < j → t.maxLC * 2 ^ i ≤ c) →
      t.maxLC * 2 ^ j < lcSize → tree.growLoop fuel t c = some u →
      u.maxLC = t.maxLC * 2 ^ j := by
  intro j
  induction j with
  | zero =>
    intro fuel t u hc _ _ h
    obtain ⟨_, heq | hle⟩ := growLoop_lt fuel t u c h
    · rw [heq]; simp
    · simp at hc; omega
  | succ j ih =>
    intro fuel t u hc hmin hov h
    have h0 : t.maxLC ≤ c := by simpa using hmin 0 (Nat.succ_pos j)
    have hw := mul_two_pow_succ t.maxLC j
    have hge := mul_two_pow_ge (L := 2 * t.maxLC) j
    have hw2 : 2 * t.maxLC * 2 ^ j = 2 * (t.maxLC * 2 ^ j) := by ring
    cases fuel with
    | zero => simp [tree.growLoop, h0] at h
    | succ fuel =>
      simp only [tree.growLoop, ge_iff_le, if_pos h0] at h
      cases hr : t.reRoot with
      | none => rw [hr] at h; simp at h
      | some v =>
        rw [hr] at h
        have hv : v.maxLC = 2 * t.maxLC := by
          rw [(reRoot_leafSize hr).2, Nat.mul_comm]
          apply Nat.mod_eq_of_lt
          omega
        rw [ih fuel v u (by rw [hv]; omega)
          (fun i hi => by
            have := hmin (i + 1) (by omega)
            have e := mul_two_pow_succ t.maxLC i
            have e2 : 2 * t.maxLC * 2 ^ i = 2 * (t.maxLC * 2 ^ i) := by ring
            rw [hv]; omega)
          (by rw [hv]; omega) h, hv]
        omega

theorem growLoop_total_inv (ops : List (Nat × TxRef)) (c : Nat) :
    ∀ (j : Nat) (t : tree TxRef), Inv t ops → c < t.maxLC * 2 ^ j →
      (∀ i, i < j → t.maxLC * 2 ^ i ≤ c) → t.maxLC * 2 ^ j ≤ 2 ^ 31 →
      ∃ u, Inv u ops ∧ u.maxLC = t.maxLC * 2 ^ j ∧
        ∀ fuel, j ≤ fuel → tree.growLoop fuel t c = some u := by
  intro j
  induction j with
  | zero =>
    intro t hinv hc _ _
    refine ⟨t, hinv, by simp, fun fuel _ => ?_⟩
    have hlt : ¬ c ≥ t.maxLC := by simp at hc; omega
    cases fuel <;> simp only [tree.growLoop, if_neg hlt]
  | succ j ih =>
    intro t hinv hc hmin hov
    have h0 : t.maxLC ≤ c := by simpa using hmin 0 (Nat.succ_pos j)
    have hw := mul_two_pow_succ t.maxLC j
    have hge := mul_two_pow_ge (L := 2 * t.maxLC) j
    have hw2 : 2 * t.maxLC * 2 ^ j = 2 * (t.maxLC * 2 ^ j) := by ring
    obtain ⟨v, hr, hinvv, hv, _⟩ := reRoot_inv hinv (by omega)
    obtain ⟨u, hinvu, hu, hrun⟩ := ih v hinvv (by rw [hv]; omega)
      (fun i hi => by
        have := hmin (i + 1) (by omega)
        have e := mul_two_pow_succ t.maxLC i
        have e2 : 2 * t.maxLC * 2 ^ i = 2 * (t.maxLC * 2 ^ i) := by ring
        rw [hv]; omega)
      (by rw [hv]; omega)
    refine ⟨u, hinvu, by rw [hu, hv]; omega, fun fuel hf => ?_⟩
    cases fuel with
    | zero => omega
    | succ fuel =>
      simp only [tree.growLoop, ge_iff_le, if_pos h0, hr]
      exact hrun fuel (by omega)

theorem Insert_of_parts {D : Type} [Data D] {t u : tree D} {fuel c : Nat} {ref : TxRef}
    {n1 : node D} {e : error} (hg : tree.growLoop fuel t c = some u)
    (hw : u.insertLoop c ref fuel u.root = some (n1, e)) :
    t.Insert fuel c ref = some ({ u with root := n1 }, e) := by
  simp only [tree.Insert, hg, hw]

theorem Insert_returns {t : tree TxRef} {ops : List (Nat × TxRef)} (c j : Nat) (ref : TxRef)
    (hinv : Inv t ops) (hc : c < t.maxLC * 2 ^ j) (hmin : ∀ i, i < j → t.maxLC * 2 ^ i ≤ c)
    (hov : t.maxLC * 2 ^ j ≤ 2 ^ 31) :
    ∃ N, ∀ fuel, N ≤ fuel → ∃ u, t.Insert fuel c ref = some (u, none) := by
  obtain ⟨u, hinvu, hu, hrun⟩ := growLoop_total_inv ops c j t hinv hc hmin hov
  obtain ⟨hL, hinit, _, _, h, hM, hg⟩ := hinvu
  refine ⟨max j (h + 1), fun fuel hf => ?_⟩
  rcases insertLoop_good u ops c ref hinit hL h fuel 0 u.root hg (Nat.zero_le _)
    (by omega) (Or.inl (by omega)) with ⟨_, hle⟩ | ⟨n1, hn1, _⟩
  · have := Nat.le_max_right j (h + 1)
    omega
  · exact ⟨_, Insert_of_parts (hrun fuel (by have := Nat.le_max_left j (h + 1); omega)) hn1⟩

/-! ## Pruning one level -/

theorem Good_height {L : Nat} {ops : List (Nat × TxRef)} :
    ∀ (h s : Nat) (n : node TxRef), Good L ops h s n → n.height = h := by
  intro h
  induction h with
  | zero =>
    intro s n hg
    cases n with
    | nil => rfl
    | mk sp mx d l rt =>
      obtain ⟨_, _, hl, _⟩ := hg
      subst hl
      rfl
  | succ h ih =>
    intro s n hg
    cases n with
    | nil => exact absurd hg id
    | mk sp mx d l rt =>
      obtain ⟨_, _, _, hl, _⟩ := hg
      cases l with
      | nil => exact (Good_ne_nil hl rfl).elim
      | mk a b c l2 r2 =>
        show node.height (node.mk a b c l2 r2) + 1 = h + 1
        rw [ih s _ hl]

theorem dropLeaves_inner {D : Type} (sp mx : Nat) (d : D) (ls lm : Nat) (ld : D)
    (a b : Nat) (c : D) (l r lr rt : node D) :
    dropLeaves (node.mk sp mx d (node.mk ls lm ld (node.mk a b c l r) lr) rt)
      = node.mk sp mx d (dropLeaves (node.mk ls lm ld (node.mk a b c l r) lr))
          (dropLeaves rt) := rfl

theorem keep_succ {D : Type} (k sp mx : Nat) (d : D) (l rt : node D) :
    (node.mk sp mx d l rt).keep (k + 1) = node.mk sp mx d (l.keep k) (rt.keep k) := rfl

theorem dropLeaves_keep {L : Nat} {ops : List (Nat × TxRef)} :
    ∀ (h s : Nat) (n : node TxRef), Good L ops (h + 1) s n →
      dropLeaves n = n.keep (h + 1) := by
  intro h
  induction h with
  | zero =>
    intro s n hg
    cases n with
    | nil => rfl
    | mk sp mx d l rt =>
      obtain ⟨_, _, _, hl, _⟩ := hg
      cases l with
      | nil => exact absurd hl id
      | mk ls lm ld ll lr =>
        obtain ⟨_, _, hll, _⟩ := hl
        subst hll
        rfl
  | succ h ih =>
    intro s n hg
    cases n with
    | nil => rfl
    | mk sp mx d l rt =>
      obtain ⟨_, _, _, hl, hr⟩ := hg
      cases l with
      | nil => exact absurd hl id
      | mk ls lm ld ll lr =>
        cases ll with
        | nil => exact (Good_ne_nil hl.2.2.2.1 rfl).elim
        | mk a b c1 d1 e1 =>
          rw [dropLeaves_inner, keep_succ, ih s _ hl]
          rcases hr with ⟨hn, _⟩ | hr
          · subst hn; rfl
          · rw [ih sp rt hr]

theorem Inv_height {t : tree TxRef} {ops : List (Nat × TxRef)} (hinv : Inv t ops) :
    t.maxLC = t.leafSize * 2 ^ t.root.height ∧
      Good t.leafSize ops t.root.height 0 t.root := by
  obtain ⟨_, _, _, _, h, hM, hg⟩ := hinv
  rw [Good_height h 0 t.root hg]
  exact ⟨hM, hg⟩

theorem DropLeaves_height {t u : tree TxRef} {ops : List (Nat × TxRef)} {h : Nat}
    (hinv : Inv t ops) (hh : t.root.height = h + 1) (hd : t.DropLeaves = some u) :
    u.root = t.root.keep (h + 1) ∧ u.root.height = h ∧ u.leafSize = 2 * t.leafSize ∧
      u.maxLC = t.maxLC := by
  obtain ⟨hM, hg⟩ := Inv_height hinv
  have hL := hinv.1
  have h32 := hinv.2.2.2.1
  rw [hh] at hM hg
  have hw := mul_two_pow_succ t.leafSize h
  have hge := mul_two_pow_ge (L := t.leafSize) h
  have hmod : (t.leafSize * 2) % lcSize = 2 * t.leafSize := by
    rw [Nat.mul_comm]
    apply Nat.mod_eq_of_lt
    omega
  have hroot : u = { t with root := dropLeaves t.root,
                            leafSize := (t.leafSize * 2) % lcSize } := by
    unfold tree.DropLeaves at hd
    split at hd
    · simp at hd
    · rename_i hr
      rw [hr] at hh
      simp [node.height] at hh
    · simp only [Option.some.injEq] at hd
      exact hd.symm
  subst hroot
  refine ⟨dropLeaves_keep h 0 t.root hg, ?_, hmod, rfl⟩
  exact Good_height h 0 _ (dropLeaves_good h 0 t.root hg)

theorem dropLeavesN_inv {ops : List (Nat × TxRef)} :
    ∀ (h : Nat) (t : tree TxRef), Inv t ops → t.root.height = h →
      ∃ v sp mx d, dropLeavesN h t = some v ∧ v.root = node.mk sp mx d node.nil node.nil ∧
        v.leafSize = t.leafSize * 2 ^ h := by
  intro h
  induction h with
  | zero =>
    intro t hinv hh
    obtain ⟨_, hg⟩ := Inv_height hinv
    rw [hh] at hg
    cases hr : t.root with
    | nil => rw [hr] at hg; exact absurd hg id
    | mk sp mx d l rt =>
      rw [hr] at hg
      obtain ⟨_, _, hl, hrt⟩ := hg
      subst hl hrt
      exact ⟨t, sp, mx, d, rfl, hr, by simp⟩
  | succ h ih =>
    intro t hinv hh
    obtain ⟨u, hu⟩ := DropLeaves_isSome hinv
    obtain ⟨hinvu, hmu, _⟩ := DropLeaves_inv hinv hu
    obtain ⟨_, hhu, hlu, _⟩ := DropLeaves_height hinv hh hu
    obtain ⟨v, sp, mx, d, hv, hroot, hls⟩ := ih u hinvu hhu
    refine ⟨v, sp, mx, d, ?_, hroot, ?_⟩
    · simp only [dropLeavesN, hu]
      exact hv
    · rw [hls, hlu, Nat.pow_succ]; ring

/-! ## A branch whose bounds wrapped -/

theorem newBranch_wrapped {D : Type} (t : tree D) :
    ∀ (fuel start stop : Nat), stop < start → start + t.leafSize < lcSize →
      t.newBranch fuel start stop = none := by
  intro fuel
  induction fuel with
  | zero => intro start stop _ _; rfl
  | succ fuel ih =>
    intro start stop hlt hb
    have hc : (stop + lcSize - start) % lcSize > t.leafSize := by
      simp only [lcSize] at hb ⊢
      omega
    have hsplit : ((stop + start) % lcSize) / 2 < start := by
      simp only [lcSize]
      omega
    simp only [tree.newBranch, if_pos hc, ih start _ hsplit hb]

theorem newBranch_sum_wrapped {D : Type} (t : tree D) (hL : t.leafSize = 3) (fuel : Nat) :
    t.newBranch fuel (3 * 2 ^ 29) (3 * 2 ^ 30) = none := by
  cases fuel with
  | zero => rfl
  | succ fuel =>
    have hc : (3 * 2 ^ 30 + lcSize - 3 * 2 ^ 29) % lcSize > t.leafSize := by
      rw [hL]; decide
    have hsplit : ((3 * 2 ^ 30 + 3 * 2 ^ 29) % lcSize) / 2 = 2 ^ 28 := by decide
    simp only [tree.newBranch, if_pos hc, hsplit,
      newBranch_wrapped t fuel (3 * 2 ^ 29) (2 ^ 28) (by decide) (by rw [hL]; decide)]

theorem growLoop_last {D : Type} [Data D] (fuel : Nat) (t u : tree D) (c : Nat)
    (h : tree.growLoop fuel t c = some u) :
    u = t ∨ ∃ v : tree D, v.reRoot = some u ∧ v.maxLC ≤ c := by
  induction fuel generalizing t with
  | zero =>
    unfold tree.growLoop at h
    split at h
    · simp at h
    · simp only [Option.some.injEq] at h; exact Or.inl h.symm
  | succ fuel ih =>
    unfold tree.growLoop at h
    split at h
    · rename_i hge
      cases hr : t.reRoot with
      | none => rw [hr] at h; simp at h
      | some w =>
        rw [hr] at h
        rcases ih w h with heq | hv
        · subst heq; exact Or.inr ⟨t, hr, hge⟩
        · exact Or.inr hv
    · simp only [Option.some.injEq] at h; exact Or.inl h.symm

theorem insert_sum_wrapped (fuel : Nat) (ref : TxRef) :
    (New 3 NewTxRef).Insert fuel (3 * 2 ^ 29) ref = none := by
  cases hins : (New 3 NewTxRef).Insert fuel (3 * 2 ^ 29) ref with
  | none => rfl
  | some p =>
    exfalso
    obtain ⟨u1, e⟩ := p
    obtain ⟨u, n1, hg, hw, _⟩ := Insert_eq_some hins
    have hmax : u.maxLC = (New 3 NewTxRef).maxLC * 2 ^ 30 :=
      growLoop_maxLC (3 * 2 ^ 29) 30 fuel (New 3 NewTxRef) u (by decide) (by decide)
        (by decide) hg
    have hls : u.leafSize = 3 := growLoop_leafSize fuel _ u _ hg
    rcases growLoop_last fuel _ u _ hg with heq | ⟨v, hv, hvc⟩
    · rw [heq] at hmax
      exact absurd hmax (by decide)
    · have hvm := (reRoot_leafSize hv).2
      cases hvr : v.root with
      | nil => simp [tree.reRoot, hvr] at hv
      | mk s m d l r =>
        rw [reRoot_of_root v s m d l r hvr] at hv
        simp only [Option.some.injEq] at hv
        have hvmax : v.maxLC = 3 * 2 ^ 29 := by
          have h1 : (v.maxLC * 2) % lcSize = 3 * 2 ^ 30 := by
            rw [← hvm, hmax]; rfl
          simp only [lcSize] at h1
          omega
        have hroot : u.root = node.mk (3 * 2 ^ 29) (3 * 2 ^ 30) d (node.mk s m d l r)
            node.nil := by
          rw [← hv, hvmax, hvr]
          rfl
        rw [hroot] at hw
        cases fuel with
        | zero => simp [tree.insertLoop] at hw
        | succ fuel =>
          rw [insertLoop_fresh_none u _ ref fuel _ _ d _ (by simp) (by decide)
            (newBranch_sum_wrapped u hls fuel)] at hw
          simp at hw

/-! ## Aggregates and ranges -/

theorem Good_aggregates {L : Nat} {ops : List (Nat × TxRef)} :
    ∀ (h s : Nat) (n : node TxRef), Good L ops h s n →
      aggregatesMatch ops s (s + L * 2 ^ h) n ∧ sumOfChildren n := by
  intro h
  induction h with
  | zero =>
    intro s n hg
    cases n with
    | nil => exact absurd hg id
    | mk sp mx d l rt =>
      obtain ⟨hm, hd, hl, hr⟩ := hg
      subst hl hr
      refine ⟨⟨?_, trivial, trivial⟩, trivial⟩
      rw [hd, hm]; simp
  | succ h ih =>
    intro s n hg
    cases n with
    | nil => exact absurd hg id
    | mk sp mx d l rt =>
      obtain ⟨hsp, hm, hd, hl, hr⟩ := hg
      have hw := mul_two_pow_succ L h
      have hl2 := ih s l hl
      rw [← hsp] at hl2
      have hsplit := rangeXor_split ops s sp mx (by omega) (by omega)
      cases l with
      | nil => exact (Good_ne_nil hl rfl).elim
      | mk a b c l2 r2 =>
        obtain ⟨hb, hc⟩ := Good_data hl
        have hbsp : b = sp := by omega
        rcases hr with ⟨hn, hno⟩ | hr
        · subst hn
          refine ⟨⟨by rw [hd, hm], hl2.1, trivial⟩, ?_, hl2.2, trivial⟩
          rw [hd, hsplit, rangeXor_of_noClockIn hno, hc, hbsp]
          rfl
        · have hr2 := ih sp rt hr
          have e1 : sp + L * 2 ^ h = s + L * 2 ^ (h + 1) := by omega
          rw [e1] at hr2
          refine ⟨⟨by rw [hd, hm], hl2.1, hr2.1⟩, ?_, hl2.2, hr2.2⟩
          cases rt with
          | nil => exact (Good_ne_nil hr rfl).elim
          | mk rs rm rd rl rr =>
            obtain ⟨hrm, hrd⟩ := Good_data hr
            have : rm = mx := by omega
            rw [hd, hsplit, hc, hbsp, hrd, this]
            rfl

/-! ## The prefix digest after pruning -/

theorem DropLeaves_data {D : Type} {t u : tree D} (h : t.DropLeaves = some u) :
    u.root.data? = t.root.data? := by
  unfold tree.DropLeaves at h
  split at h
  · simp at h
  · simp only [Option.some.injEq] at h; rw [h]
  · rename_i hr
    simp only [Option.some.injEq] at h
    rw [← h, hr]
    show (dropLeaves (node.mk _ _ _ (node.mk _ _ _ _ _) _)).data? = _
    unfold dropLeaves
    split <;> rfl

theorem leafEnd_upper (L c : Nat) (hL : 1 ≤ L) :
    ((c / (L * 2) * (L * 2) + L) / L + 1) * L = (c / (L * 2) + 1) * (L * 2) := by
  have h1 : (c / (L * 2) * (L * 2) + L) / L = c / (L * 2) * 2 + 1 := by
    have : c / (L * 2) * (L * 2) + L = L + L * (c / (L * 2) * 2) := by ring
    rw [this, Nat.add_mul_div_left _ _ hL, Nat.div_self hL]
    omega
  rw [h1]; ring

theorem leafEnd_odd (L c : Nat) (_hL : 1 ≤ L) (hodd : c / L % 2 = 1) :
    (c / (L * 2) + 1) * (L * 2) = (c / L + 1) * L := by
  have h1 : c / (L * 2) = c / L / 2 := (Nat.div_div_eq_div_mul c L 2).symm
  rw [h1]
  have h2 : c / L = 2 * (c / L / 2) + 1 := by omega
  have h3 : (c / L / 2 + 1) * (L * 2) = (2 * (c / L / 2) + 1 + 1) * L := by ring
  rw [h3, ← h2]

/-! ## The shape of a fresh branch -/

theorem newBranch_eq_leftSpine {D : Type} (t : tree D) (k fuel start : Nat)
    (hL : 1 ≤ t.leafSize) (hsum : start + (start + t.leafSize * 2 ^ k) < lcSize)
    (hfuel : k < fuel) :
    t.newBranch fuel start (start + t.leafSize * 2 ^ k)
      = some (leftSpine (t.dataInitFn ()) t.leafSize start k) := by
  induction k generalizing fuel with
  | zero =>
    obtain ⟨f, rfl⟩ : ∃ f, fuel = f + 1 := ⟨fuel - 1, by omega⟩
    simp only [Nat.pow_zero, Nat.mul_one] at hsum ⊢
    have hc : ¬ ((start + t.leafSize + lcSize - start) % lcSize > t.leafSize) := by
      simp only [lcSize] at hsum ⊢
      omega
    have hsplit : ((start + t.leafSize + start) % lcSize) / 2 = start + t.leafSize / 2 := by
      simp only [lcSize] at hsum ⊢
      omega
    simp only [tree.newBranch, if_neg hc, hsplit, newNode, leftSpine]
  | succ k ih =>
    obtain ⟨f, rfl⟩ : ∃ f, fuel = f + 1 := ⟨fuel - 1, by omega⟩
    have hw := mul_two_pow_succ t.leafSize k
    have hpos := mul_two_pow_pos hL k
    have hge := mul_two_pow_ge (L := t.leafSize) k
    have hc : (start + t.leafSize * 2 ^ (k + 1) + lcSize - start) % lcSize > t.leafSize := by
      simp only [lcSize] at hsum ⊢
      omega
    have hsplit : ((start + t.leafSize * 2 ^ (k + 1) + start) % lcSize) / 2
        = start + t.leafSize * 2 ^ k := by
      simp only [lcSize] at hsum ⊢
      omega
    have hhalf : start + t.leafSize * 2 ^ (k + 1) / 2 = start + t.leafSize * 2 ^ k := by
      omega
    simp only [tree.newBranch, if_pos hc, hsplit, ih f (by omega) (by omega), leftSpine,
      hhalf]


/-! ## The walk of `Insert` for any implementation of `Data` -/

theorem insertLoop_fail {D : Type} [Data D] (t : tree D) (c : Nat) (ref : TxRef)
    (fuel s m : Nat) (d d1 : D) (l rt : node D) (x : String) (n1 : node D) (e : error)
    (hI : Data.Insert d ref = (d1, some x))
    (h : t.insertLoop c ref (fuel + 1) (node.mk s m d l rt) = some (n1, e)) :
    n1 = node.mk s m d1 l rt := by
  simp only [tree.insertLoop, hI, Option.some.injEq, Prod.mk.injEq] at h
  exact h.1.symm

theorem insertLoop_at_leaf {D : Type} [Data D] (t : tree D) (c : Nat) (ref : TxRef)
    (fuel s m : Nat) (d d1 : D) (rt : node D) (n1 : node D) (e : error)
    (hI : Data.Insert d ref = (d1, none))
    (h : t.insertLoop c ref (fuel + 1) (node.mk s m d node.nil rt) = some (n1, e)) :
    n1 = node.mk s m d1 node.nil rt ∧ e = none := by
  simp only [tree.insertLoop, hI, Option.some.injEq, Prod.mk.injEq] at h
  exact ⟨h.1.symm, h.2.symm⟩

theorem insertLoop_go_left {D : Type} [Data D] (t : tree D) (c : Nat) (ref : TxRef)
    (fuel s m : Nat) (d d1 : D) (l rt : node D) (n1 : node D) (e : error)
    (hI : Data.Insert d ref = (d1, none)) (hl : l ≠ node.nil) (hc : c < s)
    (h : t.insertLoop c ref (fuel + 1) (node.mk s m d l rt) = some (n1, e)) :
    ∃ l1, t.insertLoop c ref fuel l = some (l1, e) ∧ n1 = node.mk s m d1 l1 rt := by
  cases l with
  | nil => exact absurd rfl hl
  | mk ls lm ld ll lr =>
    simp only [tree.insertLoop, hI, if_pos hc] at h
    cases hsub : t.insertLoop c ref fuel (node.mk ls lm ld ll lr) with
    | none => rw [hsub] at h; simp at h
    | some p =>
      obtain ⟨l1, e1⟩ := p
      rw [hsub] at h
      simp only [Option.some.injEq, Prod.mk.injEq] at h
      exact ⟨l1, by rw [h.2], h.1.symm⟩

theorem insertLoop_go_right {D : Type} [Data D] (t : tree D) (c : Nat) (ref : TxRef)
    (fuel s m : Nat) (d d1 : D) (l rt : node D) (n1 : node D) (e : error)
    (hI : Data.Insert d ref = (d1, none)) (hl : l ≠ node.nil) (hr : rt ≠ node.nil)
    (hc : ¬ c < s)
    (h : t.insertLoop c ref (fuel + 1) (node.mk s m d l rt) = some (n1, e)) :
    ∃ r1, t.insertLoop c ref fuel rt = some (r1, e) ∧ n1 = node.mk s m d1 l r1 := by
  cases l with
  | nil => exact absurd rfl hl
  | mk ls lm ld ll lr =>
    cases rt with
    | nil => exact absurd rfl hr
    | mk rs rm rd rl rr =>
      simp only [tree.insertLoop, hI, if_neg hc] at h
      cases hsub : t.insertLoop c ref fuel (node.mk rs rm rd rl rr) with
      | none => rw [hsub] at h; simp at h
      | some p =>
        obtain ⟨r1, e1⟩ := p
        rw [hsub] at h
        simp only [Option.some.injEq, Prod.mk.injEq] at h
        exact ⟨r1, by rw [h.2], h.1.symm⟩

theorem insertLoop_go_fresh {D : Type} [Data D] (t : tree D) (c : Nat) (ref : TxRef)
    (fuel s m : Nat) (d d1 : D) (l : node D) (n1 : node D) (e : error)
    (hI : Data.Insert d ref = (d1, none)) (hl : l ≠ node.nil) (hc : ¬ c < s)
    (h : t.insertLoop c ref (fuel + 1) (node.mk s m d l node.nil) = some (n1, e)) :
    ∃ b r1, t.newBranch fuel s m = some b ∧ t.insertLoop c ref fuel b = some (r1, e) ∧
      n1 = node.mk s m d1 l r1 := by
  cases l with
  | nil => exact absurd rfl hl
  | mk ls lm ld ll lr =>
    simp only [tree.insertLoop, hI, if_neg hc] at h
    cases hb : t.newBranch fuel s m with
    | none => rw [hb] at h; simp at h
    | some b =>
      rw [hb] at h
      simp only at h
      cases hsub : t.insertLoop c ref fuel b with
      | none => rw [hsub] at h; simp at h
      | some p =>
        obtain ⟨r1, e1⟩ := p
        rw [hsub] at h
        simp only [Option.some.injEq, Prod.mk.injEq] at h
        obtain ⟨h1, h2⟩ := h
        subst h2
        exact ⟨b, r1, rfl, hsub, h1.symm⟩

theorem walkExact_go_left {D : Type} [Data D] (t : tree D) (c : Nat) (ref : TxRef)
    (fuel s m : Nat) (d d1 : D) (l rt : node D) (hI : Data.Insert d ref = (d1, none))
    (hl : l ≠ node.nil) (hc : c < s) :
    t.walkExact c ref (fuel + 1) (node.mk s m d l rt) = t.walkExact c ref fuel l := by
  cases l with
  | nil => exact absurd rfl hl
  | mk ls lm ld ll lr => simp only [tree.walkExact, hI, if_pos hc]

theorem walkExact_go_right {D : Type} [Data D] (t : tree D) (c : Nat) (ref : TxRef)
    (fuel s m : Nat) (d d1 : D) (l rt : node D) (hI : Data.Insert d ref = (d1, none))
    (hl : l ≠ node.nil) (hr : rt ≠ node.nil) (hc : ¬ c < s) :
    t.walkExact c ref (fuel + 1) (node.mk s m d l rt) = t.walkExact c ref fuel rt := by
  cases l with
  | nil => exact absurd rfl hl
  | mk ls lm ld ll lr =>
    cases rt with
    | nil => exact absurd rfl hr
    | mk rs rm rd rl rr => simp only [tree.walkExact, hI, if_neg hc]

theorem walkExact_go_fresh {D : Type} [Data D] (t : tree D) (c : Nat) (ref : TxRef)
    (fuel s m : Nat) (d d1 : D) (l : node D) (hI : Data.Insert d ref = (d1, none))
    (hl : l ≠ node.nil) (hc : ¬ c < s)
    (h : t.walkExact c ref (fuel + 1) (node.mk s m d l node.nil) = true) :
    t.newBranchExact fuel s m = true ∧
      ∀ b, t.newBranch fuel s m = some b → t.walkExact c ref fuel b = true := by
  cases l with
  | nil => exact absurd rfl hl
  | mk ls lm ld ll lr =>
    simp only [tree.walkExact, hI, if_neg hc, Bool.and_eq_true] at h
    refine ⟨h.1, fun b hb => ?_⟩
    have h2 := h.2
    rw [hb] at h2
    exact h2

theorem newBranchExact_sum_lt {D : Type} (t : tree D) (fuel s m : Nat)
    (h : t.newBranchExact (fuel + 1) s m = true) : m + s < lcSize := by
  simp only [tree.newBranchExact, Bool.and_eq_true, decide_eq_true_eq] at h
  exact h.1.1

theorem newBranch_spine_or {D : Type} (t : tree D) (hL : 1 ≤ t.leafSize) :
    ∀ (k fuel start : Nat), start + (start + t.leafSize * 2 ^ k) < lcSize →
      (t.newBranch fuel start (start + t.leafSize * 2 ^ k) = none ∧ fuel ≤ k) ∨
        t.newBranch fuel start (start + t.leafSize * 2 ^ k)
          = some (leftSpine (t.dataInitFn ()) t.leafSize start k) := by
  intro k fuel start hsum
  rcases Nat.lt_or_ge k fuel with hlt | hge
  · exact Or.inr (newBranch_eq_leftSpine t k fuel start hL hsum hlt)
  · left
    refine ⟨?_, hge⟩
    induction k generalizing fuel with
    | zero =>
      have : fuel = 0 := by omega
      subst this; rfl
    | succ k ih =>
      cases fuel with
      | zero => rfl
      | succ f =>
        have hw := mul_two_pow_succ t.leafSize k
        have hpos := mul_two_pow_pos hL k
        have hge2 := mul_two_pow_ge (L := t.leafSize) k
        have hc : (start + t.leafSize * 2 ^ (k + 1) + lcSize - start) % lcSize
            > t.leafSize := by
          simp only [lcSize] at hsum ⊢
          omega
        have hsplit : ((start + t.leafSize * 2 ^ (k + 1) + start) % lcSize) / 2
            = start + t.leafSize * 2 ^ k := by
          simp only [lcSize] at hsum ⊢
          omega
        simp only [tree.newBranch, if_pos hc, hsplit, ih f (by omega) (by omega)]

theorem Shape_ne_nil {D : Type} {L ls : Nat} {first : Bool} {h s : Nat} {n : node D}
    (hg : Shape L ls first h s n) : n ≠ node.nil := by
  intro hn
  subst hn
  cases h <;> exact hg

theorem Shape_leftSpine {D : Type} (init : D) (L ls s : Nat) :
    ∀ k, Shape L ls false k s (leftSpine init L s k) := by
  intro k
  induction k with
  | zero => exact ⟨rfl, rfl, rfl, by simp⟩
  | succ k ih =>
    have hw := mul_two_pow_succ L k
    exact ⟨by omega, rfl, ih, Or.inl rfl⟩

/-! ## The structural invariant -/

theorem insertLoop_shape {D : Type} [Data D] (t : tree D) (c : Nat) (ref : TxRef) (ls : Nat)
    (hL : 1 ≤ t.leafSize) :
    ∀ (h fuel : Nat) (first : Bool) (s : Nat) (n n1 : node D) (e : error),
      Shape t.leafSize ls first h s n → s ≤ c → c < s + t.leafSize * 2 ^ h →
      (s + t.leafSize * 2 ^ h ≤ 2 ^ 31 ∨ t.walkExact c ref fuel n = true) →
      t.insertLoop c ref fuel n = some (n1, e) → Shape t.leafSize ls first h s n1 := by
  intro h
  induction h with
  | zero =>
    intro fuel first s n n1 e hg _ _ _ hres
    cases n with
    | nil => exact absurd hg id
    | mk sp mx d l rt =>
      obtain ⟨hm, hl, hr, hsplit⟩ := hg
      subst hl hr
      cases fuel with
      | zero => simp [tree.insertLoop] at hres
      | succ fuel =>
        cases hI : Data.Insert d ref with
        | mk d1 oe =>
          cases oe with
          | none =>
            rw [(insertLoop_at_leaf t c ref fuel sp mx d d1 node.nil n1 e hI hres).1]
            exact ⟨hm, rfl, rfl, hsplit⟩
          | some x =>
            rw [insertLoop_fail t c ref fuel sp mx d d1 node.nil node.nil x n1 e hI hres]
            exact ⟨hm, rfl, rfl, hsplit⟩
  | succ h ih =>
    intro fuel first s n n1 e hg hs hc hb hres
    cases n with
    | nil => exact absurd hg id
    | mk sp mx d l rt =>
      obtain ⟨hsp, hm, hl, hr⟩ := hg
      have hw := mul_two_pow_succ t.leafSize h
      have hpos := mul_two_pow_pos hL h
      cases fuel with
      | zero => simp [tree.insertLoop] at hres
      | succ fuel =>
        cases hI : Data.Insert d ref with
        | mk d1 oe =>
          cases oe with
          | some x =>
            rw [insertLoop_fail t c ref fuel sp mx d d1 l rt x n1 e hI hres]
            exact ⟨hsp, hm, hl, hr⟩
          | none =>
            by_cases hlt : c < sp
            · obtain ⟨l1, hsub, hn1⟩ :=
                insertLoop_go_left t c ref fuel sp mx d d1 l rt n1 e hI (Shape_ne_nil hl) hlt
                  hres
              rw [hn1]
              refine ⟨hsp, hm, ih fuel first s l l1 e hl hs (by omega) ?_ hsub, hr⟩
              exact hb.imp (fun hb => by omega) (fun hb => by
                rw [walkExact_go_left t c ref fuel sp mx d d1 l rt hI (Shape_ne_nil hl) hlt]
                  at hb
                exact hb)
            · rcases hr with hn | hr
              · subst hn
                obtain ⟨b, r1, hnb, hsub, hn1⟩ :=
                  insertLoop_go_fresh t c ref fuel sp mx d d1 l n1 e hI (Shape_ne_nil hl) hlt
                    hres
                have hmx : mx = sp + t.leafSize * 2 ^ h := by omega
                subst hmx
                cases fuel with
                | zero => simp [tree.newBranch] at hnb
                | succ fuel =>
                  have hsum : sp + (sp + t.leafSize * 2 ^ h) < lcSize := by
                    rcases hb with hb | hb
                    · simp only [lcSize]; omega
                    · have := newBranchExact_sum_lt t fuel sp _
                        (walkExact_go_fresh t c ref (fuel + 1) sp _ d d1 l hI
                          (Shape_ne_nil hl) hlt hb).1
                      omega
                  rcases newBranch_spine_or t hL h (fuel + 1) sp hsum with ⟨hnone, _⟩ | hsome
                  · rw [hnone] at hnb; simp at hnb
                  · rw [hsome] at hnb
                    simp only [Option.some.injEq] at hnb
                    subst hnb
                    rw [hn1]
                    refine ⟨hsp, hm, hl, Or.inr (ih (fuel + 1) false sp _ r1 e
                      (Shape_leftSpine _ _ ls sp h) (by omega) (by omega) ?_ hsub)⟩
                    exact hb.imp (fun hb => by omega) (fun hb =>
                      (walkExact_go_fresh t c ref (fuel + 1) sp _ d d1 l hI (Shape_ne_nil hl)
                        hlt hb).2 _ hsome)
              · obtain ⟨r1, hsub, hn1⟩ :=
                  insertLoop_go_right t c ref fuel sp mx d d1 l rt n1 e hI (Shape_ne_nil hl)
                    (Shape_ne_nil hr) hlt hres
                rw [hn1]
                refine ⟨hsp, hm, hl, Or.inr (ih fuel false sp rt r1 e hr (by omega) (by omega)
                  ?_ hsub)⟩
                exact hb.imp (fun hb => by omega) (fun hb => by
                  rw [walkExact_go_right t c ref fuel sp mx d d1 l rt hI (Shape_ne_nil hl)
                    (Shape_ne_nil hr) hlt] at hb
                  exact hb)

theorem reRoot_shape {D : Type} [Data D] {t u : tree D} {ls : Nat} (hinv : ShapeAt t ls)
    (hb : 2 * t.maxLC < lcSize) (hr : t.reRoot = some u) :
    ShapeAt u ls ∧ u.maxLC = 2 * t.maxLC := by
  obtain ⟨hL, _, hls, h, hM, hg⟩ := hinv
  have hm1 : (2 * t.maxLC) % lcSize = 2 * t.maxLC := Nat.mod_eq_of_lt hb
  have hm2 : (t.maxLC * 2) % lcSize = 2 * t.maxLC := by
    rw [Nat.mul_comm]; exact hm1
  have hw := mul_two_pow_succ t.leafSize h
  unfold tree.reRoot at hr
  split at hr
  · simp at hr
  · rename_i sp mx d l rt hroot
    simp only [Option.some.injEq] at hr
    subst hr
    refine ⟨⟨hL, ?_, hls, h + 1, ?_, ?_⟩, hm2⟩
    · show (t.maxLC * 2) % lcSize < lcSize
      rw [hm2]; exact hb
    · show (t.maxLC * 2) % lcSize = t.leafSize * 2 ^ (h + 1)
      rw [hm2]; omega
    · show Shape t.leafSize ls true (h + 1) 0
        (node.mk t.maxLC ((2 * t.maxLC) % lcSize) (Data.Clone d) t.root node.nil)
      rw [hm1]
      exact ⟨by omega, by omega, hg, Or.inl rfl⟩

theorem growLoop_shape {D : Type} [Data D] (fuel : Nat) (t u : tree D) (c : Nat) (ls : Nat)
    (hinv : ShapeAt t ls) (h : tree.growLoop fuel t c = some u)
    (hb : u.maxLC ≤ 2 ^ 31 ∨ tree.growExact fuel t c = true) : ShapeAt u ls := by
  induction fuel generalizing t with
  | zero =>
    obtain ⟨_, heq | hle⟩ := growLoop_lt 0 t u c h
    · subst heq; exact hinv
    · unfold tree.growLoop at h
      rw [if_pos hle] at h
      simp at h
  | succ fuel ih =>
    have hlt := (growLoop_lt (fuel + 1) t u c h).1
    unfold tree.growLoop at h
    split at h
    · rename_i hge
      cases hr : t.reRoot with
      | none => rw [hr] at h; simp at h
      | some v =>
        have h2 : 2 * t.maxLC < lcSize := by
          rcases hb with hb | hb
          · simp only [lcSize]; omega
          · exact (growExact_step fuel t v c hge hr hb).1
        rw [hr] at h
        exact ih v (reRoot_shape hinv h2 hr).1 h
          (hb.imp id (fun hb => (growExact_step fuel t v c hge hr hb).2))
    · simp only [Option.some.injEq] at h; subst h; exact hinv

theorem Insert_shape {D : Type} [Data D] {t u : tree D} {fuel c : Nat} {ref : TxRef}
    {e : error} {ls : Nat} (hinv : ShapeAt t ls) (h : t.Insert fuel c ref = some (u, e))
    (hb : u.maxLC ≤ 2 ^ 31 ∨ t.InsertExact fuel c ref = true) : ShapeAt u ls := by
  obtain ⟨v, n1, hg, hw, hu⟩ := Insert_eq_some h
  subst hu
  have hc := (growLoop_lt fuel t v c hg).1
  have hbg : v.maxLC ≤ 2 ^ 31 ∨ tree.growExact fuel t c = true :=
    hb.imp id (fun hb => by
      simp only [tree.InsertExact, Bool.and_eq_true] at hb
      exact hb.1)
  obtain ⟨hL, h32, hls, ht, hM, hgood⟩ := growLoop_shape fuel t v c ls hinv hg hbg
  have hbw : 0 + v.leafSize * 2 ^ ht ≤ 2 ^ 31 ∨ v.walkExact c ref fuel v.root = true :=
    hb.imp (fun hb => by
        have : v.maxLC ≤ 2 ^ 31 := hb
        omega)
      (fun hb => by
        simp only [tree.InsertExact, Bool.and_eq_true, hg] at hb
        exact hb.2)
  exact ⟨hL, h32, hls, ht, hM,
    insertLoop_shape v c ref ls hL ht fuel true 0 v.root n1 e hgood (Nat.zero_le _)
      (by omega) hbw hw⟩

theorem Shape_false_ls {D : Type} {L ls : Nat} (ls2 : Nat) :
    ∀ (h s : Nat) (n : node D), Shape L ls false h s n → Shape L ls2 false h s n := by
  intro h
  induction h with
  | zero =>
    intro s n hg
    cases n with
    | nil => exact hg
    | mk sp mx d l rt =>
      obtain ⟨hm, hl, hr, hsplit⟩ := hg
      exact ⟨hm, hl, hr, by simpa using hsplit⟩
  | succ h ih =>
    intro s n hg
    cases n with
    | nil => exact hg
    | mk sp mx d l rt =>
      obtain ⟨hsp, hm, hl, hr⟩ := hg
      exact ⟨hsp, hm, ih s l hl, hr.imp id (ih sp rt)⟩

theorem dropLeaves_shape {D : Type} {L ls : Nat} :
    ∀ (h : Nat) (first : Bool) (s : Nat) (n : node D) (ls2 : Nat),
      Shape L ls first (h + 1) s n → (first = true → ls2 = s + L) →
      Shape (L * 2) ls2 first h s (dropLeaves n) := by
  intro h
  induction h with
  | zero =>
    intro first s n ls2 hg hls
    cases n with
    | nil => exact hg
    | mk sp mx d l rt =>
      obtain ⟨hsp, hm, hl, _⟩ := hg
      cases l with
      | nil => exact absurd hl id
      | mk a b c1 ll lr =>
        obtain ⟨_, hll, _, _⟩ := hl
        subst hll
        simp only [Nat.pow_zero, Nat.mul_one, Nat.zero_add, Nat.pow_one] at hsp hm
        refine ⟨by simpa using hm, rfl, rfl, ?_⟩
        cases first with
        | true => simp only [if_true]; rw [hls rfl]; exact hsp
        | false => simp only [Bool.false_eq_true, if_false]; omega
  | succ h ih =>
    intro first s n ls2 hg hls
    cases n with
    | nil => exact hg
    | mk sp mx d l rt =>
      obtain ⟨hsp, hm, hl, hr⟩ := hg
      cases l with
      | nil => exact absurd hl id
      | mk a b c1 ll lr =>
        cases ll with
        | nil => exact (Shape_ne_nil hl.2.2.1 rfl).elim
        | mk a2 b2 c2 d2 e2 =>
          have hw1 := mul_two_pow_succ L h
          have hw2 := mul_two_pow_succ L (h + 1)
          have hw3 := mul_two_pow_succ (L * 2) h
          have hw4 : L * 2 * 2 ^ h = 2 * (L * 2 ^ h) := by ring
          rw [dropLeaves_inner]
          refine ⟨by omega, by omega, ih first s _ ls2 hl hls, ?_⟩
          rcases hr with hn | hr
          · subst hn; exact Or.inl rfl
          · exact Or.inr (ih false sp rt ls2 hr (fun hf => by cases hf))

theorem DropLeaves_shape {D : Type} {t u : tree D} (hinv : ShapeInv t)
    (h : t.DropLeaves = some u) : ShapeInv u := by
  obtain ⟨ls, hL, h32, hls, ht, hM, hg⟩ := hinv
  unfold tree.DropLeaves at h
  split at h
  · simp at h
  · simp only [Option.some.injEq] at h; subst h
    exact ⟨ls, hL, h32, hls, ht, hM, hg⟩
  · rename_i sp mx d a b c1 ll lr rt hroot
    simp only [Option.some.injEq] at h; subst h
    cases ht with
    | zero => rw [hroot] at hg; exact absurd hg.2.1 (by simp)
    | succ ht =>
      have hw := mul_two_pow_succ t.leafSize ht
      have hge := mul_two_pow_ge (L := t.leafSize) ht
      have hmod : (t.leafSize * 2) % lcSize = t.leafSize * 2 := by
        apply Nat.mod_eq_of_lt
        omega
      refine ⟨t.leafSize, ?_, h32, Or.inl ?_, ht, ?_, ?_⟩
      · show 1 ≤ (t.leafSize * 2) % lcSize
        rw [hmod]; omega
      · show t.leafSize = (t.leafSize * 2) % lcSize / 2
        rw [hmod]; omega
      · show t.maxLC = (t.leafSize * 2) % lcSize * 2 ^ ht
        rw [hmod, hM, Nat.pow_succ]; ring
      · show Shape ((t.leafSize * 2) % lcSize) t.leafSize true ht 0 (dropLeaves t.root)
        rw [hmod]
        exact dropLeaves_shape ht true 0 t.root t.leafSize hg (fun _ => by omega)

theorem New_shape {D : Type} (L : Nat) (init : Unit → D) (hL : 1 ≤ L) (h32 : L < lcSize) :
    ShapeAt (New L init) L :=
  ⟨hL, h32, Or.inr rfl, 0, by simp [New], by simp [New, newNode, Shape]⟩

theorem ReachAny_shape {D : Type} [Data D] {L : Nat} {init : Unit → D} {t : tree D}
    (hL : 1 ≤ L) (h : ReachAny L init t) : ShapeInv t := by
  induction h with
  | new h32 => exact ⟨L, New_shape L init hL h32⟩
  | insert _ _ hex hins ih =>
    obtain ⟨ls, ih⟩ := ih
    exact ⟨ls, Insert_shape ih hins (Or.inr hex)⟩
  | reRoot _ hb hre ih =>
    obtain ⟨ls, ih⟩ := ih
    exact ⟨ls, (reRoot_shape ih hb hre).1⟩
  | dropLeaves _ hd ih => exact DropLeaves_shape ih hd

theorem Reach_any {L : Nat} {t : tree TxRef} {ops : List (Nat × TxRef)}
    (h : Reach L t ops) : ReachAny L NewTxRef t := by
  induction h with
  | new h32 => exact ReachAny.new h32
  | insert _ hc hex hins ih => exact ReachAny.insert ih hc hex hins
  | reRoot _ hb hre ih => exact ReachAny.reRoot ih hb hre
  | dropLeaves _ hd ih => exact ReachAny.dropLeaves ih hd

theorem Shape_midpoint {D : Type} {L ls : Nat} :
    ∀ (h : Nat) (first : Bool) (s : Nat) (n : node D), Shape L ls first h s n →
      (first = true → ls = (s + (s + L)) / 2 ∨ ls = s + L) →
      midpointSplitsExcept first s (s + L * 2 ^ h) n := by
  intro h
  induction h with
  | zero =>
    intro first s n hg hls
    cases n with
    | nil => exact absurd hg id
    | mk sp mx d l rt =>
      obtain ⟨_, hl, hr, hsplit⟩ := hg
      subst hl hr
      simp only [Nat.pow_zero, Nat.mul_one]
      refine ⟨?_, trivial, trivial⟩
      cases first with
      | true =>
        simp only [if_true] at hsplit
        rcases hls rfl with h1 | h1
        · left; omega
        · right; exact ⟨rfl, rfl, by omega⟩
      | false =>
        simp only [Bool.false_eq_true, if_false] at hsplit
        left; omega
  | succ h ih =>
    intro first s n hg hls
    cases n with
    | nil => exact absurd hg id
    | mk sp mx d l rt =>
      obtain ⟨hsp, _, hl, hr⟩ := hg
      have hw := mul_two_pow_succ L h
      have hl2 := ih first s l hl hls
      rw [← hsp] at hl2
      refine ⟨Or.inl (by omega), hl2, ?_⟩
      rcases hr with hn | hr
      · subst hn; trivial
      · have hr2 := ih false sp rt hr (fun hf => by cases hf)
        have e1 : sp + L * 2 ^ h = s + L * 2 ^ (h + 1) := by omega
        rw [e1] at hr2
        exact hr2

theorem Shape_uniform {D : Type} {L ls : Nat} :
    ∀ (h : Nat) (first : Bool) (s : Nat) (n : node D), Shape L ls first h s n →
      uniformLeaves L h s (s + L * 2 ^ h) n := by
  intro h
  induction h with
  | zero =>
    intro first s n hg
    cases n with
    | nil => exact absurd hg id
    | mk sp mx d l rt =>
      obtain ⟨_, hl, hr, _⟩ := hg
      exact ⟨hl, hr, by simp⟩
  | succ h ih =>
    intro first s n hg
    cases n with
    | nil => exact absurd hg id
    | mk sp mx d l rt =>
      obtain ⟨hsp, _, hl, hr⟩ := hg
      have hw := mul_two_pow_succ L h
      have hl2 := ih first s l hl
      rw [← hsp] at hl2
      refine ⟨Shape_ne_nil hl, hl2, ?_⟩
      rcases hr with hn | hr
      · exact Or.inl hn
      · have hr2 := ih false sp rt hr
        have e1 : sp + L * 2 ^ h = s + L * 2 ^ (h + 1) := by omega
        rw [e1] at hr2
        exact Or.inr hr2

theorem ShapeInv_uniform {D : Type} {t : tree D} (hinv : ShapeInv t) : uniformTree t := by
  obtain ⟨ls, _, _, _, h, hM, hg⟩ := hinv
  refine ⟨h, hM, ?_⟩
  have := Shape_uniform h true 0 t.root hg
  rw [Nat.zero_add, ← hM] at this
  exact this

theorem ShapeInv_midpoint {D : Type} {t : tree D} (hinv : ShapeInv t) :
    midpointSplitsExcept true 0 t.maxLC t.root := by
  obtain ⟨ls, _, _, hls, h, hM, hg⟩ := hinv
  have := Shape_midpoint h true 0 t.root hg
    (fun _ => hls.imp (fun h1 => by omega) (fun h1 => by omega))
  rw [Nat.zero_add, ← hM] at this
  exact this

/-! ## Lazy materialisation of right children -/

theorem Lazy_snoc {D : Type} {ops : List (Nat × TxRef)} (p : Nat × TxRef) :
    ∀ (n : node D) (m : Nat), Lazy ops m n → Lazy (ops ++ [p]) m n := by
  intro n
  induction n with
  | nil => intro m _; trivial
  | mk sp mx d l rt ihl ihr =>
    intro m h
    obtain ⟨h1, h2, h3⟩ := h
    exact ⟨ihl sp h1, ihr m h2,
      fun hne hno => h3 hne (fun q hq => hno q (List.mem_append_left _ hq))⟩

theorem newBranch_lazy {D : Type} (t : tree D) (ops : List (Nat × TxRef)) :
    ∀ (fuel start stop : Nat) (b : node D), t.newBranch fuel start stop = some b →
      ∀ m, Lazy ops m b := by
  intro fuel
  induction fuel with
  | zero => intro start stop b h; simp [tree.newBranch] at h
  | succ f ih =>
    intro start stop b h m
    simp only [tree.newBranch] at h
    split at h
    · cases hsub : t.newBranch f start (((stop + start) % lcSize) / 2) with
      | none => rw [hsub] at h; simp at h
      | some l =>
        rw [hsub] at h
        simp only [Option.some.injEq] at h
        subst h
        exact ⟨ih _ _ l hsub _, trivial, fun hne => absurd rfl hne⟩
    · simp only [newNode, Option.some.injEq] at h
      subst h
      exact ⟨trivial, trivial, fun hne => absurd rfl hne⟩

theorem insertLoop_lazy {D : Type} [Data D] (t : tree D) (ops : List (Nat × TxRef))
    (c : Nat) (ref : TxRef) :
    ∀ (fuel : Nat) (n n1 : node D) (e : error) (m : Nat), Lazy ops m n → c < m →
      t.insertLoop c ref fuel n = some (n1, e) → Lazy (ops ++ [(c, ref)]) m n1 := by
  intro fuel
  induction fuel with
  | zero =>
    intro n n1 e m hl _ h
    cases n with
    | nil =>
      simp only [tree.insertLoop, Option.some.injEq, Prod.mk.injEq] at h
      rw [← h.1]; trivial
    | mk sp mx d l rt => simp [tree.insertLoop] at h
  | succ f ih =>
    intro n n1 e m hl hcm h
    cases n with
    | nil =>
      simp only [tree.insertLoop, Option.some.injEq, Prod.mk.injEq] at h
      rw [← h.1]; trivial
    | mk sp mx d l rt =>
      have hl2 := Lazy_snoc (c, ref) _ m hl
      obtain ⟨h1, h2, h3⟩ := hl
      obtain ⟨g1, g2, g3⟩ := hl2
      cases hI : Data.Insert d ref with
      | mk d1 x =>
        cases x with
        | some x =>
          rw [insertLoop_fail t c ref f sp mx d d1 l rt x n1 e hI h]
          exact ⟨g1, g2, g3⟩
        | none =>
          by_cases hln : l = node.nil
          · subst hln
            rw [(insertLoop_at_leaf t c ref f sp mx d d1 rt n1 e hI h).1]
            exact ⟨g1, g2, g3⟩
          · by_cases hc : c < sp
            · obtain ⟨l1, hsub, hn1⟩ := insertLoop_go_left t c ref f sp mx d d1 l rt n1 e hI
                hln hc h
              rw [hn1]
              exact ⟨ih l l1 e sp h1 hc hsub, g2, g3⟩
            · have hin : ¬ noClockIn (ops ++ [(c, ref)]) sp m := fun hno =>
                hno (c, ref) (List.mem_append_right _ (List.mem_singleton.mpr rfl))
                  ⟨Nat.le_of_not_lt hc, hcm⟩
              by_cases hrn : rt = node.nil
              · subst hrn
                obtain ⟨b, r1, hb, hsub, hn1⟩ := insertLoop_go_fresh t c ref f sp mx d d1 l
                  n1 e hI hln hc h
                rw [hn1]
                exact ⟨g1, ih b r1 e m (newBranch_lazy t ops f sp mx b hb m) hcm hsub,
                  fun _ => hin⟩
              · obtain ⟨r1, hsub, hn1⟩ := insertLoop_go_right t c ref f sp mx d d1 l rt n1 e
                  hI hln hrn hc h
                rw [hn1]
                exact ⟨g1, ih rt r1 e m h2 hcm hsub, fun _ => hin⟩

theorem reRoot_lazy {D : Type} [Data D] {t u : tree D} {ops : List (Nat × TxRef)}
    (hl : Lazy ops t.maxLC t.root) (hr : t.reRoot = some u) : Lazy ops u.maxLC u.root := by
  cases hroot : t.root with
  | nil => simp [tree.reRoot, hroot] at hr
  | mk s m d l r =>
    simp only [tree.reRoot, hroot, Option.some.injEq] at hr
    subst hr
    rw [hroot] at hl
    exact ⟨hl, trivial, fun hne => absurd rfl hne⟩

theorem growLoop_lazy {D : Type} [Data D] {ops : List (Nat × TxRef)} (c : Nat) :
    ∀ (fuel : Nat) (t u : tree D), Lazy ops t.maxLC t.root →
      tree.growLoop fuel t c = some u → Lazy ops u.maxLC u.root := by
  intro fuel
  induction fuel with
  | zero =>
    intro t u hl h
    simp only [tree.growLoop] at h
    split at h
    · simp at h
    · simp only [Option.some.injEq] at h
      subst h; exact hl
  | succ f ih =>
    intro t u hl h
    simp only [tree.growLoop] at h
    split at h
    · cases hr : t.reRoot with
      | none => rw [hr] at h; simp at h
      | some t1 =>
        rw [hr] at h
        exact ih t1 u (reRoot_lazy hl hr) h
    · simp only [Option.some.injEq] at h
      subst h; exact hl

theorem Insert_lazy {D : Type} [Data D] {t u : tree D} {ops : List (Nat × TxRef)}
    {fuel c : Nat} {ref : TxRef} {e : error} (hl : Lazy ops t.maxLC t.root)
    (h : t.Insert fuel c ref = some (u, e)) : Lazy (ops ++ [(c, ref)]) u.maxLC u.root := by
  obtain ⟨v, n1, hg, hw, hu⟩ := Insert_eq_some h
  subst hu
  exact insertLoop_lazy v ops c ref fuel v.root n1 e v.maxLC (growLoop_lazy c fuel t v hl hg)
    (growLoop_lt fuel t v c hg).1 hw

theorem dropLeaves_lazy {D : Type} {ops : List (Nat × TxRef)} :
    ∀ (n : node D) (m : Nat), Lazy ops m n → Lazy ops m (dropLeaves n) := by
  intro n
  induction n with
  | nil => intro m h; exact h
  | mk sp mx d l rt ihl ihr =>
    intro m h
    cases l with
    | nil => exact h
    | mk ls lm ld ll lr =>
      cases ll with
      | nil => exact ⟨trivial, trivial, fun hne => absurd rfl hne⟩
      | mk a b c1 d1 e1 =>
        obtain ⟨h1, h2, h3⟩ := h
        refine ⟨ihl sp h1, ihr m h2, fun hne => h3 (fun hrt => hne ?_)⟩
        subst hrt; rfl

theorem DropLeaves_lazy {D : Type} {t u : tree D} {ops : List (Nat × TxRef)}
    (hl : Lazy ops t.maxLC t.root) (h : t.DropLeaves = some u) :
    Lazy ops u.maxLC u.root := by
  unfold tree.DropLeaves at h
  split at h
  · simp at h
  · simp only [Option.some.injEq] at h; subst h; exact hl
  · simp only [Option.some.injEq] at h; subst h
    exact dropLeaves_lazy t.root t.maxLC hl

theorem Reach_lazy {L : Nat} {t : tree TxRef} {ops : List (Nat × TxRef)}
    (h : Reach L t ops) : Lazy ops t.maxLC t.root := by
  induction h with
  | new h32 => exact ⟨trivial, trivial, fun hne => absurd rfl hne⟩
  | insert _ _ _ hins ih => exact Insert_lazy ih hins
  | reRoot _ _ hre ih => exact reRoot_lazy ih hre
  | dropLeaves _ hd ih => exact DropLeaves_lazy ih hd

theorem Reach_canon {L : Nat} {t : tree TxRef} {ops : List (Nat × TxRef)} (hL : 1 ≤ L)
    (h : Reach L t ops) : ∃ ls, Canon t ops ls := by
  obtain ⟨ls, hs⟩ := ReachAny_shape hL (Reach_any h)
  exact ⟨ls, Reach_inv hL h, hs, Reach_lazy h⟩

theorem Insert_canon {t u : tree TxRef} {ops : List (Nat × TxRef)} {ls fuel c : Nat}
    {ref : TxRef} {e : error} (hc : Canon t ops ls) (h : t.Insert fuel c ref = some (u, e))
    (hb : u.maxLC ≤ 2 ^ 31 ∨ t.InsertExact fuel c ref = true) :
    e = none ∧ Canon u (ops ++ [(c, ref)]) ls ∧ u.leafSize = t.leafSize := by
  obtain ⟨hinv, hs, hl⟩ := hc
  obtain ⟨he, hinv2, hls⟩ := Insert_inv hinv h hb
  exact ⟨he, ⟨hinv2, Insert_shape hs h hb, Insert_lazy hl h⟩, hls⟩

/-! ## The canonical form is determined by the multiset of insertions -/

theorem rangeXor_perm {ops ops2 : List (Nat × TxRef)} (p : ops.Perm ops2) (s e : Nat) :
    rangeXor ops s e = rangeXor ops2 s e :=
  xorAll_perm ((p.filter _).map _)

theorem noClockIn_perm {ops ops2 : List (Nat × TxRef)} (p : ops.Perm ops2) {s e : Nat}
    (h : noClockIn ops s e) : noClockIn ops2 s e :=
  fun q hq => h q (p.mem_iff.mpr hq)

theorem canon_unique {L ls : Nat} {ops ops2 : List (Nat × TxRef)} (p : ops.Perm ops2) :
    ∀ (h : Nat) (first : Bool) (s : Nat) (n n2 : node TxRef), Good L ops h s n →
      Good L ops2 h s n2 → Shape L ls first h s n → Shape L ls first h s n2 →
      Lazy ops (s + L * 2 ^ h) n → Lazy ops2 (s + L * 2 ^ h) n2 → n = n2 := by
  intro h
  induction h with
  | zero =>
    intro first s n n2 hg hg2 hs hs2 _ _
    cases n with
    | nil => exact (Good_ne_nil hg rfl).elim
    | mk sp mx d l rt =>
      cases n2 with
      | nil => exact (Good_ne_nil hg2 rfl).elim
      | mk sp2 mx2 d2 l2 rt2 =>
        obtain ⟨hm, hd, hl, hr⟩ := hg
        obtain ⟨hm2, hd2, hl2, hr2⟩ := hg2
        obtain ⟨_, _, _, hsp⟩ := hs
        obtain ⟨_, _, _, hsp2⟩ := hs2
        subst hl hr hl2 hr2 hsp hsp2 hm hm2
        rw [hd, hd2, rangeXor_perm p]
  | succ h ih =>
    intro first s n n2 hg hg2 hs hs2 hz hz2
    cases n with
    | nil => exact (Good_ne_nil hg rfl).elim
    | mk sp mx d l rt =>
      cases n2 with
      | nil => exact (Good_ne_nil hg2 rfl).elim
      | mk sp2 mx2 d2 l2 rt2 =>
        obtain ⟨hsp, hm, hd, hgl, hgr⟩ := hg
        obtain ⟨hsp2, hm2, hd2, hgl2, hgr2⟩ := hg2
        obtain ⟨_, _, hsl, hsr⟩ := hs
        obtain ⟨_, _, hsl2, hsr2⟩ := hs2
        obtain ⟨hzl, hzr, hzn⟩ := hz
        obtain ⟨hzl2, hzr2, hzn2⟩ := hz2
        subst hsp hsp2 hm hm2
        have hmid : s + L * 2 ^ (h + 1) = s + L * 2 ^ h + L * 2 ^ h := by
          rw [Nat.pow_succ]; ring
        have hleft : l = l2 := ih first s l l2 hgl hgl2 hsl hsl2 hzl hzl2
        have hright : rt = rt2 := by
          rcases hgr with ⟨hn, hno⟩ | hgr
          · rcases hgr2 with ⟨hn2, _⟩ | hgr2
            · rw [hn, hn2]
            · exact absurd (noClockIn_perm p hno) (hzn2 (Good_ne_nil hgr2))
          · rcases hgr2 with ⟨hn2, hno2⟩ | hgr2
            · exact absurd (noClockIn_perm p.symm hno2) (hzn (Good_ne_nil hgr))
            · rcases hsr with hn | hsr
              · exact absurd hn (Good_ne_nil hgr)
              · rcases hsr2 with hn2 | hsr2
                · exact absurd hn2 (Good_ne_nil hgr2)
                · rw [hmid] at hzr hzr2
                  exact ih false (s + L * 2 ^ h) rt rt2 hgr hgr2 hsr hsr2 hzr hzr2
        rw [hd, hd2, hleft, hright, rangeXor_perm p]

theorem mul_two_pow_inj {L a b : Nat} (hL : 1 ≤ L) (h : L * 2 ^ a = L * 2 ^ b) : a = b :=
  Nat.pow_right_injective (le_refl 2) (Nat.eq_of_mul_eq_mul_left hL h)

theorem mul_two_pow_le (M : Nat) {a b : Nat} (h : a ≤ b) : M * 2 ^ a ≤ M * 2 ^ b :=
  Nat.mul_le_mul_left M (Nat.pow_le_pow_right (by decide) h)

theorem tree_eq {D : Type} {u v : tree D} (h1 : u.leafSize = v.leafSize)
    (h2 : u.maxLC = v.maxLC) (h3 : u.root = v.root) (h4 : u.dataInitFn = v.dataInitFn) :
    u = v := by
  cases u
  cases v
  simp only at h1 h2 h3 h4
  subst h1 h2 h3 h4
  rfl

theorem Canon_unique {u v : tree TxRef} {ops ops2 : List (Nat × TxRef)} {ls : Nat}
    (p : ops.Perm ops2) (hu : Canon u ops ls) (hv : Canon v ops2 ls)
    (hL : u.leafSize = v.leafSize) (hM : u.maxLC = v.maxLC) : u = v := by
  obtain ⟨⟨hL1, hi, _, _, h, hMh, hg⟩, ⟨_, _, _, h2, hMh2, hs⟩, hz⟩ := hu
  obtain ⟨⟨_, hi2, _, _, k, hMk, hg2⟩, ⟨_, _, _, k2, hMk2, hs2⟩, hz2⟩ := hv
  rw [← hL] at hMk hMk2 hg2 hs2
  rw [← hM] at hMk hMk2 hz2
  have e1 : h2 = h := mul_two_pow_inj hL1 (hMh2.symm.trans hMh)
  have e2 : k = h := mul_two_pow_inj hL1 (hMk.symm.trans hMh)
  have e3 : k2 = h := mul_two_pow_inj hL1 (hMk2.symm.trans hMh)
  subst e1 e2 e3
  have hm : u.maxLC = 0 + u.leafSize * 2 ^ k2 := by rw [hMh, Nat.zero_add]
  rw [hm] at hz hz2
  exact tree_eq hL hM (canon_unique p k2 true 0 u.root v.root hg hg2 hs hs2 hz hz2)
    (hi.trans hi2.symm)

/-! ## The upper bound after `Insert` is the least sufficient doubling -/

theorem growLoop_least (ops : List (Nat × TxRef)) (c : Nat) :
    ∀ (fuel : Nat) (t u : tree TxRef), Inv t ops → tree.growLoop fuel t c = some u →
      (u.maxLC ≤ 2 ^ 31 ∨ tree.growExact fuel t c = true) →
      ∃ j, u.maxLC = t.maxLC * 2 ^ j ∧ ∀ i, i < j → t.maxLC * 2 ^ i ≤ c := by
  intro fuel
  induction fuel with
  | zero =>
    intro t u _ h _
    simp only [tree.growLoop] at h
    split at h
    · simp at h
    · simp only [Option.some.injEq] at h
      subst h
      exact ⟨0, by simp, fun i hi => absurd hi (Nat.not_lt_zero i)⟩
  | succ f ih =>
    intro t u hinv h hb
    by_cases hge : c ≥ t.maxLC
    · have hlt := (growLoop_lt (f + 1) t u c h).1
      have h2 : 2 * t.maxLC < 2 ^ 32 := by
        rcases hb with hb | hb
        · omega
        · have hx := hb
          simp only [tree.growExact, if_pos hge, Bool.and_eq_true, decide_eq_true_eq,
            lcSize] at hx
          exact hx.1
      obtain ⟨t1, hr, hinv1, hm1, _⟩ := reRoot_inv hinv h2
      have hb1 : u.maxLC ≤ 2 ^ 31 ∨ tree.growExact f t1 c = true := by
        rcases hb with hb | hb
        · exact Or.inl hb
        · exact Or.inr (growExact_step f t t1 c hge hr hb).2
      have h1 : tree.growLoop f t1 c = some u := by
        simpa only [tree.growLoop, if_pos hge, hr] using h
      obtain ⟨j, hj, hmin⟩ := ih t1 u hinv1 h1 hb1
      refine ⟨j + 1, ?_, fun i hi => ?_⟩
      · rw [hj, hm1, Nat.pow_succ]; ring
      · cases i with
        | zero => simpa using hge
        | succ i =>
          have := hmin i (by omega)
          rw [hm1] at this
          rw [Nat.pow_succ]
          calc t.maxLC * (2 ^ i * 2) = 2 * t.maxLC * 2 ^ i := by ring
            _ ≤ c := this
    · have h1 : u = t := by
        simp only [tree.growLoop, if_neg hge, Option.some.injEq] at h
        exact h.symm
      subst h1
      exact ⟨0, by simp, fun i hi => absurd hi (Nat.not_lt_zero i)⟩

theorem Insert_least {t u : tree TxRef} {ops : List (Nat × TxRef)} {fuel c : Nat}
    {ref : TxRef} {e : error} (hinv : Inv t ops) (h : t.Insert fuel c ref = some (u, e))
    (hb : u.maxLC ≤ 2 ^ 31 ∨ t.InsertExact fuel c ref = true) :
    ∃ j, u.maxLC = t.maxLC * 2 ^ j ∧ c < t.maxLC * 2 ^ j ∧
      ∀ i, i < j → t.maxLC * 2 ^ i ≤ c := by
  obtain ⟨v, n1, hg, _, hu⟩ := Insert_eq_some h
  subst hu
  have hbg : v.maxLC ≤ 2 ^ 31 ∨ tree.growExact fuel t c = true := by
    rcases hb with hb | hb
    · exact Or.inl hb
    · simp only [tree.InsertExact, Bool.and_eq_true] at hb
      exact Or.inr hb.1
  obtain ⟨j, hj, hmin⟩ := growLoop_least ops c fuel t v hinv hg hbg
  have hlt := (growLoop_lt fuel t v c hg).1
  exact ⟨j, hj, by rw [← hj]; exact hlt, hmin⟩

theorem grow_twice_le {M c1 c2 a b a2 b2 : Nat} (h1 : c1 < M * 2 ^ a)
    (h2 : c2 < M * 2 ^ a * 2 ^ b) (m3 : ∀ i, i < a2 → M * 2 ^ i ≤ c2)
    (m4 : ∀ i, i < b2 → M * 2 ^ a2 * 2 ^ i ≤ c1) : a2 + b2 ≤ a + b := by
  by_contra hlt
  have e : ∀ x y, M * 2 ^ x * 2 ^ y = M * 2 ^ (x + y) := fun x y => by
    rw [Nat.pow_add]; ring
  cases b2 with
  | zero =>
    have h3 := m3 (a2 - 1) (by omega)
    have h4 := mul_two_pow_le M (show a + b ≤ a2 - 1 by omega)
    rw [e] at h2
    omega
  | succ k =>
    have h3 := m4 k (by omega)
    have h4 := mul_two_pow_le M (show a ≤ a2 + k by omega)
    rw [e] at h3
    omega

theorem grow_twice_unique {M c1 c2 a b a2 b2 : Nat} (h1 : c1 < M * 2 ^ a)
    (m1 : ∀ i, i < a → M * 2 ^ i ≤ c1) (h2 : c2 < M * 2 ^ a * 2 ^ b)
    (m2 : ∀ i, i < b → M * 2 ^ a * 2 ^ i ≤ c2) (h3 : c2 < M * 2 ^ a2)
    (m3 : ∀ i, i < a2 → M * 2 ^ i ≤ c2) (h4 : c1 < M * 2 ^ a2 * 2 ^ b2)
    (m4 : ∀ i, i < b2 → M * 2 ^ a2 * 2 ^ i ≤ c1) :
    M * 2 ^ a * 2 ^ b = M * 2 ^ a2 * 2 ^ b2 := by
  have e1 := grow_twice_le h1 h2 m3 m4
  have e2 := grow_twice_le h3 h4 m1 m2
  have e : a + b = a2 + b2 := by omega
  calc M * 2 ^ a * 2 ^ b = M * 2 ^ (a + b) := by rw [Nat.pow_add]; ring
    _ = M * 2 ^ (a2 + b2) := by rw [e]
    _ = M * 2 ^ a2 * 2 ^ b2 := by rw [Nat.pow_add]; ring

/-! ## Two insertions in either order -/

theorem Insert_swap {t u1 u2 v1 v2 : tree TxRef} {ops : List (Nat × TxRef)}
    {ls c1 c2 f1 f2 f3 f4 : Nat} {r1 r2 : TxRef} {e1 e2 e3 e4 : error} (hc : Canon t ops ls)
    (h1 : t.Insert f1 c1 r1 = some (u1, e1))
    (b1 : u1.maxLC ≤ 2 ^ 31 ∨ t.InsertExact f1 c1 r1 = true)
    (h2 : u1.Insert f2 c2 r2 = some (u2, e2))
    (b2 : u2.maxLC ≤ 2 ^ 31 ∨ u1.InsertExact f2 c2 r2 = true)
    (h3 : t.Insert f3 c2 r2 = some (v1, e3))
    (b3 : v1.maxLC ≤ 2 ^ 31 ∨ t.InsertExact f3 c2 r2 = true)
    (h4 : v1.Insert f4 c1 r1 = some (v2, e4))
    (b4 : v2.maxLC ≤ 2 ^ 31 ∨ v1.InsertExact f4 c1 r1 = true) : u2 = v2 := by
  obtain ⟨_, cu1, l1⟩ := Insert_canon hc h1 b1
  obtain ⟨_, cu2, l2⟩ := Insert_canon cu1 h2 b2
  obtain ⟨_, cv1, l3⟩ := Insert_canon hc h3 b3
  obtain ⟨_, cv2, l4⟩ := Insert_canon cv1 h4 b4
  obtain ⟨a, ha, hlt1, hm1⟩ := Insert_least hc.1 h1 b1
  obtain ⟨b, hb, hlt2, hm2⟩ := Insert_least cu1.1 h2 b2
  obtain ⟨a2, ha2, hlt3, hm3⟩ := Insert_least hc.1 h3 b3
  obtain ⟨k, hk, hlt4, hm4⟩ := Insert_least cv1.1 h4 b4
  rw [ha] at hb hlt2 hm2
  rw [ha2] at hk hlt4 hm4
  have hM : u2.maxLC = v2.maxLC := by
    rw [hb, hk]
    exact grow_twice_unique hlt1 hm1 hlt2 hm2 hlt3 hm3 hlt4 hm4
  have p : (ops ++ [(c1, r1)] ++ [(c2, r2)]).Perm (ops ++ [(c2, r2)] ++ [(c1, r1)]) := by
    rw [List.append_assoc, List.append_assoc]
    exact List.Perm.append_left ops (List.Perm.swap _ _ [])
  exact Canon_unique p cu2 cv2 (by rw [l2, l1, l4, l3]) hM

theorem exists_least_pow {M : Nat} (hM : 1 ≤ M) (c : Nat) :
    ∃ j, c < M * 2 ^ j ∧ ∀ i, i < j → M * 2 ^ i ≤ c := by
  have hex : ∃ j, c < M * 2 ^ j :=
    ⟨c, lt_of_lt_of_le (Nat.lt_two_pow c) (Nat.le_mul_of_pos_left _ hM)⟩
  classical
  exact ⟨Nat.find hex, Nat.find_spec hex, fun i hi => Nat.le_of_not_lt (Nat.find_min hex hi)⟩

theorem Insert_total {t : tree TxRef} {ops : List (Nat × TxRef)} (c : Nat) (ref : TxRef)
    (hinv : Inv t ops) (hM : t.maxLC ≤ 2 ^ 31) (hc : c < 2 ^ 30) :
    ∀ fuel, 33 ≤ fuel → ∃ u, t.Insert fuel c ref = some (u, none) ∧ u.maxLC ≤ 2 ^ 31 := by
  intro fuel hf
  have hM1 : 1 ≤ t.maxLC := by
    obtain ⟨hL, _, _, _, h, hMh, _⟩ := hinv
    rw [hMh]; exact mul_two_pow_pos hL h
  obtain ⟨j, hj, hmin⟩ := exists_least_pow hM1 c
  have hov : t.maxLC * 2 ^ j ≤ 2 ^ 31 := by
    cases j with
    | zero => simpa using hM
    | succ k =>
      have := hmin k (by omega)
      have := mul_two_pow_succ t.maxLC k
      omega
  obtain ⟨u, hinvu, hu, hrun⟩ := growLoop_total_inv ops c j t hinv hj hmin hov
  have hj31 : j ≤ 31 := by
    by_contra hgt
    have h1 := mul_two_pow_le t.maxLC (show 32 ≤ j by omega)
    have h2 : 2 ^ 32 ≤ t.maxLC * 2 ^ 32 := Nat.le_mul_of_pos_left _ hM1
    omega
  obtain ⟨hL, hinit, _, _, h, hMh, hg⟩ := hinvu
  have hh31 : h ≤ 31 := by
    by_contra hgt
    have h1 := mul_two_pow_le u.leafSize (show 32 ≤ h by omega)
    have h2 : 2 ^ 32 ≤ u.leafSize * 2 ^ 32 := Nat.le_mul_of_pos_left _ hL
    omega
  rcases insertLoop_good u ops c ref hinit hL h fuel 0 u.root hg (Nat.zero_le _)
    (by omega) (Or.inl (by omega)) with ⟨_, hle⟩ | ⟨n1, hn1, _⟩
  · omega
  · exact ⟨_, Insert_of_parts (hrun fuel (by omega)) hn1, by
      show u.maxLC ≤ 2 ^ 31
      omega⟩

theorem Insert_swap_total {t : tree TxRef} {ops : List (Nat × TxRef)} {ls : Nat}
    (c1 c2 : Nat) (r1 r2 : TxRef) (hc : Canon t ops ls) (hM : t.maxLC ≤ 2 ^ 31)
    (h1 : c1 < 2 ^ 30) (h2 : c2 < 2 ^ 30) (f1 f2 f3 f4 : Nat) (g1 : 33 ≤ f1) (g2 : 33 ≤ f2)
    (g3 : 33 ≤ f3) (g4 : 33 ≤ f4) :
    ∃ u1 v1 w, t.Insert f1 c1 r1 = some (u1, none) ∧ u1.Insert f2 c2 r2 = some (w, none) ∧
      t.Insert f3 c2 r2 = some (v1, none) ∧ v1.Insert f4 c1 r1 = some (w, none) := by
  obtain ⟨u1, hu1, bu1⟩ := Insert_total c1 r1 hc.1 hM h1 f1 g1
  obtain ⟨_, cu1, _⟩ := Insert_canon hc hu1 (Or.inl bu1)
  obtain ⟨u2, hu2, bu2⟩ := Insert_total c2 r2 cu1.1 bu1 h2 f2 g2
  obtain ⟨v1, hv1, bv1⟩ := Insert_total c2 r2 hc.1 hM h2 f3 g3
  obtain ⟨_, cv1, _⟩ := Insert_canon hc hv1 (Or.inl bv1)
  obtain ⟨v2, hv2, bv2⟩ := Insert_total c1 r1 cv1.1 bv1 h1 f4 g4
  have e := Insert_swap hc hu1 (Or.inl bu1) hu2 (Or.inl bu2) hv1 (Or.inl bv1) hv2
    (Or.inl bv2)
  subst e
  exact ⟨u1, v1, u2, hu1, hu2, hv1, hv2⟩

/-! ## The tree as a function of the multiset of insertions -/

theorem BuiltExact_canon {L : Nat} {t : tree TxRef} {ops : List (Nat × TxRef)} (hL : 1 ≤ L)
    (h : BuiltExact L t ops) :
    Canon t ops L ∧ t.leafSize = L ∧ (t.maxLC = L ∨ ∃ p ∈ ops, t.maxLC ≤ 2 * p.1) := by
  induction h with
  | new h32 =>
    exact ⟨⟨New_inv L hL h32, New_shape L NewTxRef hL h32, trivial, trivial,
      fun hne => absurd rfl hne⟩, rfl, Or.inl rfl⟩
  | @insert t u ops f c r e _ _ hex hins ih =>
    obtain ⟨hc, hl, hmin⟩ := ih
    obtain ⟨_, hc2, hl2⟩ := Insert_canon hc hins (Or.inr hex)
    obtain ⟨j, hj, hlt, hm⟩ := Insert_least hc.1 hins (Or.inr hex)
    refine ⟨hc2, hl2.trans hl, ?_⟩
    cases j with
    | zero =>
      have hj0 : u.maxLC = t.maxLC := by simpa using hj
      rcases hmin with h0 | ⟨p, hp, hle⟩
      · exact Or.inl (hj0.trans h0)
      · exact Or.inr ⟨p, List.mem_append_left _ hp, by rw [hj0]; exact hle⟩
    | succ k =>
      right
      refine ⟨(c, r), List.mem_append_right _ (List.mem_singleton.mpr rfl), ?_⟩
      have := hm k (by omega)
      have := mul_two_pow_succ t.maxLC k
      show u.maxLC ≤ 2 * c
      omega

theorem minimal_top_le {L a b : Nat} {o o2 : List (Nat × TxRef)} (hL : 1 ≤ L)
    (hlt : ∀ q ∈ o, q.1 < L * 2 ^ a)
    (hmin : L * 2 ^ b = L ∨ ∃ q ∈ o2, L * 2 ^ b ≤ 2 * q.1)
    (hsub : ∀ q, q ∈ o2 → q ∈ o) : b ≤ a := by
  by_contra hgt
  rcases hmin with h0 | ⟨q, hq, hle⟩
  · have : b = 0 := mul_two_pow_inj hL (by rw [h0]; simp)
    omega
  · have h1 := hlt q (hsub q hq)
    have h2 := mul_two_pow_le L (show a + 1 ≤ b by omega)
    have h3 := mul_two_pow_succ L a
    omega

theorem BuiltExact_unique {L : Nat} {t u : tree TxRef} {ops ops2 : List (Nat × TxRef)}
    (hL : 1 ≤ L) (ht : BuiltExact L t ops) (hu : BuiltExact L u ops2)
    (p : ops.Perm ops2) : t = u := by
  obtain ⟨ct, lt, mt⟩ := BuiltExact_canon hL ht
  obtain ⟨cu, lu, mu⟩ := BuiltExact_canon hL hu
  refine Canon_unique p ct cu (lt.trans lu.symm) ?_
  obtain ⟨_, _, hbt, _, h, hMh, _⟩ := ct.1
  obtain ⟨_, _, hbu, _, k, hMk, _⟩ := cu.1
  rw [lt] at hMh
  rw [lu] at hMk
  rw [hMh] at hbt mt
  rw [hMk] at hbu mu
  have e1 : k ≤ h := minimal_top_le hL hbt mu (fun q hq => p.mem_iff.mpr hq)
  have e2 : h ≤ k := minimal_top_le hL hbu mt (fun q hq => p.mem_iff.mp hq)
  rw [hMh, hMk, Nat.le_antisymm e1 e2]

/-! ## Runs of `Insert` calls: existence and inversion -/

theorem Built_cases {L : Nat} {t : tree TxRef} {ops : List (Nat × TxRef)}
    (h : Built L t ops) :
    (ops = [] ∧ t = New L NewTxRef) ∨
      ∃ t0 ops0 f c r e, Built L t0 ops0 ∧ ops = ops0 ++ [(c, r)] ∧
        t0.Insert f c r = some (t, e) := by
  cases h with
  | new _ => exact Or.inl ⟨rfl, rfl⟩
  | @insert t0 _ ops0 f c r e hb _ hins => exact Or.inr ⟨t0, ops0, f, c, r, e, hb, rfl, hins⟩

theorem Built_singleton {L : Nat} {t : tree TxRef} {c : Nat} {r : TxRef}
    (h : Built L t [(c, r)]) : ∃ f e, (New L NewTxRef).Insert f c r = some (t, e) := by
  rcases Built_cases h with ⟨h0, _⟩ | ⟨t0, ops0, f, c1, r1, e, hb, hops, hins⟩
  · simp at h0
  · have hlen := congrArg List.length hops
    simp only [List.length_singleton, List.length_append] at hlen
    have h0 : ops0 = [] := List.length_eq_zero.mp (by omega)
    subst h0
    simp only [List.nil_append, List.cons.injEq, Prod.mk.injEq, and_true] at hops
    obtain ⟨hc, hr⟩ := hops
    subst hc hr
    rcases Built_cases hb with ⟨_, ht0⟩ | ⟨_, ops1, _, _, _, _, _, hnil, _⟩
    · subst ht0
      exact ⟨f, e, hins⟩
    · have := congrArg List.length hnil
      simp at this

theorem Built_exists {L : Nat} (hL : 1 ≤ L) (hL31 : L ≤ 2 ^ 31) :
    ∀ ops : List (Nat × TxRef), (∀ p ∈ ops, p.1 < 2 ^ 30) →
      ∃ t, Built L t ops ∧ Inv t ops ∧ t.maxLC ≤ 2 ^ 31 := by
  intro ops
  induction ops using List.reverseRecOn with
  | nil =>
    intro _
    have h32 : L < lcSize := by simp only [lcSize]; omega
    exact ⟨New L NewTxRef, Built.new h32, New_inv L hL h32, hL31⟩
  | append_singleton l a ih =>
    intro hb
    obtain ⟨t, hbt, hinv, hM⟩ := ih (fun p hp => hb p (List.mem_append_left _ hp))
    have hc : a.1 < 2 ^ 30 := hb a (List.mem_append_right _ (List.mem_singleton.mpr rfl))
    obtain ⟨u, hu, hMu⟩ := Insert_total a.1 a.2 hinv hM hc 33 (Nat.le_refl _)
    exact ⟨u, Built.insert hbt (by simp only [lcSize]; omega) hu,
      (Insert_inv hinv hu (Or.inl hMu)).2.1, hMu⟩

/-! ## Claims -/

/-- C1: for every leaf size `L ≥ 1` and every sequence of `Insert` calls that all return,
starting from `New(L, NewTxRef)`, `GetRoot()` returns the byte-wise XOR of all inserted
references (the all-zero value when nothing was inserted), whatever the clocks are. -/
theorem getRoot_eq_xorAll (L : Nat) (t : tree TxRef) (ops : List (Nat × TxRef))
    (_hL : 1 ≤ L) (h : Built L t ops) :
    t.GetRoot = some (xorAll (ops.map Prod.snd)) := by
  rw [GetRoot_eq_data]
  exact Built_root_data h

/-- Witness of C1: `Insert(5, r)` into `New(4, NewTxRef)`, which re-roots once. -/
theorem getRoot_eq_xorAll_witness :
    (1 ≤ 4 ∧ Built 4 treeAfterInsert5 ([] ++ [(5, TxRef.fill 1)])) ∧
      treeAfterInsert5.GetRoot = some (xorAll ([(5, TxRef.fill 1)].map Prod.snd)) :=
  ⟨⟨by decide, Built.insert (f := 3) (e := none) (Built.new (by decide)) (by decide) rfl⟩,
    getRoot_eq_xorAll 4 treeAfterInsert5 [(5, TxRef.fill 1)] (by decide)
      (Built.insert (f := 3) (e := none) (Built.new (by decide)) (by decide) rfl)⟩

/-- Counterexample to C2. With leaf size 4, after `Insert(0, A)` the call `GetZeroTo(0)`
returns `A`, not the XOR of the references at clocks below `ceil(0 / 4) * 4 = 0`. And the
tree of leaf size `11 * 2 ^ 28` after `Insert(11 * 2 ^ 28, A)`, in which `uint32` operations
wrapped, returns `A` for `GetZeroTo(7 * 2 ^ 28)` although `A` was inserted above the end
`11 * 2 ^ 28` of the leaf of that clock. -/
theorem getZeroTo_ceil_counterexample :
    (BuiltExact 4 treeAfterInsert0 [(0, TxRef.fill 1)] ∧
      treeAfterInsert0.GetZeroTo 0
        ≠ some (xorBelow [(0, TxRef.fill 1)] ((0 + 4 - 1) / 4 * 4), none)) ∧
    (Built (11 * 2 ^ 28) wrappedTree [(11 * 2 ^ 28, TxRef.fill 1)] ∧
      wrappedTree.GetZeroTo (7 * 2 ^ 28)
        ≠ some (xorBelow [(11 * 2 ^ 28, TxRef.fill 1)]
            ((7 * 2 ^ 28 + 1 + 11 * 2 ^ 28 - 1) / (11 * 2 ^ 28) * (11 * 2 ^ 28)), none)) :=
  ⟨⟨BuiltExact_treeAfterInsert0, by decide⟩, ⟨Built_wrappedTree, by decide⟩⟩

/-- C2, amended: for every tree built from `New(L, NewTxRef)`, `L ≥ 1`, by a sequence of
`Insert` calls in which no clock arithmetic overflows, and for every clock `c`:
`GetZeroTo(c)` returns the XOR of exactly those inserted references whose clock is strictly
less than `ceil((c + 1) / L) * L`. -/
theorem getZeroTo_ceil_succ (L : Nat) (t : tree TxRef) (ops : List (Nat × TxRef)) (c : Nat)
    (hL : 1 ≤ L) (h : BuiltExact L t ops) :
    t.GetZeroTo c = some (xorBelow ops ((c + 1 + L - 1) / L * L), none) := by
  have hinv := Reach_inv hL (BuiltExact_reach h)
  rw [GetZeroTo_inv hinv c, Built_leafSize (BuiltExact_built h)]
  have e : (c + 1 + L - 1) / L = c / L + 1 := by
    have : c + 1 + L - 1 = c + L := by omega
    rw [this, Nat.add_div_right c hL]
  rw [e]

/-- Witness of the amended C2: the tree of `filledTree` and the clock 4. -/
theorem getZeroTo_ceil_succ_witness :
    (1 ≤ 4 ∧ BuiltExact 4 filledTree filledOps) ∧
      filledTree.GetZeroTo 4 = some (xorBelow filledOps ((4 + 1 + 4 - 1) / 4 * 4), none) :=
  ⟨⟨by decide, BuiltExact_filledTree⟩,
    getZeroTo_ceil_succ 4 filledTree filledOps 4 (by decide) BuiltExact_filledTree⟩

/-- C3: for every tree built from `New(L, NewTxRef)`, `L ≥ 1`, by a sequence of `Insert`
calls in which no clock arithmetic overflows, and for every clock `c`: `GetZeroTo(c)`
returns a nil error and the XOR of exactly those inserted references whose clock is
strictly less than `(floor(c / L) + 1) * L`. In particular `GetZeroTo(k * L)` covers the
clocks below `(k + 1) * L`, and for every `c` at or above the upper bound `GetZeroTo(c)`
equals `GetRoot()`. -/
theorem getZeroTo_leaf_end (L : Nat) (t : tree TxRef) (ops : List (Nat × TxRef)) (c : Nat)
    (hL : 1 ≤ L) (h : BuiltExact L t ops) :
    t.GetZeroTo c = some (xorBelow ops ((c / L + 1) * L), none) ∧
      (∀ k, t.GetZeroTo (k * L) = some (xorBelow ops ((k + 1) * L), none)) ∧
      (t.maxLC ≤ c → (t.GetZeroTo c).map Prod.fst = t.GetRoot) := by
  have hinv := Reach_inv hL (BuiltExact_reach h)
  have hls := Built_leafSize (BuiltExact_built h)
  have key : ∀ c, t.GetZeroTo c = some (xorBelow ops ((c / L + 1) * L), none) := by
    intro c
    rw [GetZeroTo_inv hinv c, hls]
  refine ⟨key c, fun k => ?_, fun hc => ?_⟩
  · rw [key (k * L), leafEnd_mul L k hL]
  · rw [key c, GetRoot_eq_data, Built_root_data (BuiltExact_built h)]
    have hlt := lt_leafEnd L c hL
    have hclk := hinv.2.2.1
    rw [xorBelow_of_bound (fun p hp => by have := hclk p hp; omega)]
    rfl

/-- Witness of C3: leaf size 4 and references `A`, `B`, `C`, `D` inserted at the clocks
0, 4, 8, 5 give `GetZeroTo(0) = A`, `GetZeroTo(4) = A ^ B ^ D` and
`GetZeroTo(8) = GetZeroTo(32) = A ^ B ^ C ^ D`. -/
theorem getZeroTo_leaf_end_witness :
    (1 ≤ 4 ∧ BuiltExact 4 filledTree filledOps) ∧
      (filledTree.GetZeroTo 5 = some (xorBelow filledOps ((5 / 4 + 1) * 4), none) ∧
        (∀ k, filledTree.GetZeroTo (k * 4) = some (xorBelow filledOps ((k + 1) * 4), none)) ∧
        (filledTree.maxLC ≤ 5 → (filledTree.GetZeroTo 5).map Prod.fst = filledTree.GetRoot)) ∧
      filledTree.GetZeroTo 0 = some (TxRef.fill 1, none) ∧
      filledTree.GetZeroTo 4
        = some ((TxRef.fill 1).xor ((TxRef.fill 2).xor (TxRef.fill 8)), none) ∧
      filledTree.GetZeroTo 8
        = some (((TxRef.fill 1).xor (TxRef.fill 2)).xor ((TxRef.fill 4).xor (TxRef.fill 8)),
            none) ∧
      filledTree.GetZeroTo 32 = filledTree.GetZeroTo 8 :=
  ⟨⟨by decide, BuiltExact_filledTree⟩,
    getZeroTo_leaf_end 4 filledTree filledOps 5 (by decide) BuiltExact_filledTree,
    by decide, by decide, by decide, by decide⟩

/-- Counterexample to C4: with leaf size 4, `A` inserted at clock 0 and `B` at clock 4, the
boundary `0 * 4` is a multiple of `2 * 4`, and `GetZeroTo(0)` is `A` before `DropLeaves()`
and `A ^ B` after it. -/
theorem getZeroTo_dropLeaves_even_counterexample :
    BuiltExact 4 twoLeafTree [(0, TxRef.fill 1), (4, TxRef.fill 2)] ∧
      twoLeafTree.DropLeaves = some twoLeafTreeDropped ∧
      (0 * 4) % (2 * 4) = 0 ∧
      twoLeafTree.GetZeroTo (0 * 4) = some (TxRef.fill 1, none) ∧
      twoLeafTreeDropped.GetZeroTo (0 * 4)
        = some ((TxRef.fill 1).xor (TxRef.fill 2), none) ∧
      twoLeafTree.GetZeroTo (0 * 4) ≠ twoLeafTreeDropped.GetZeroTo (0 * 4) :=
  ⟨BuiltExact_twoLeafTree, DropLeaves_twoLeafTree, by decide, by decide, by decide,
    by decide⟩

/-- C4, amended: for every tree built from `New(L, NewTxRef)`, `L ≥ 1`, by a sequence of
`Insert` calls in which no clock arithmetic overflows, and for every odd `k`:
`DropLeaves()` returns, and the value of `GetZeroTo(k * L)` immediately before the call
equals the value of `GetZeroTo(k * L)` immediately after it. -/
theorem getZeroTo_dropLeaves_odd (L : Nat) (t : tree TxRef) (ops : List (Nat × TxRef))
    (k : Nat) (hL : 1 ≤ L) (h : BuiltExact L t ops) (hk : k % 2 = 1) :
    ∃ u, t.DropLeaves = some u ∧ u.GetZeroTo (k * L) = t.GetZeroTo (k * L) := by
  have hinv := Reach_inv hL (BuiltExact_reach h)
  have hls := Built_leafSize (BuiltExact_built h)
  obtain ⟨u, hu⟩ := DropLeaves_isSome hinv
  refine ⟨u, hu, ?_⟩
  obtain ⟨hinvu, _, heq | hdbl⟩ := DropLeaves_inv hinv hu
  · rw [heq]
  · rw [GetZeroTo_inv hinvu, GetZeroTo_inv hinv, hdbl, hls, leafEnd_odd_double L k hL hk,
      leafEnd_mul L k hL]

/-- Witness of the amended C4: the boundary `1 * 4` in the tree of `filledTree`. -/
theorem getZeroTo_dropLeaves_odd_witness :
    (1 ≤ 4 ∧ BuiltExact 4 filledTree filledOps ∧ 1 % 2 = 1) ∧
      ∃ u, filledTree.DropLeaves = some u ∧
        u.GetZeroTo (1 * 4) = filledTree.GetZeroTo (1 * 4) :=
  ⟨⟨by decide, BuiltExact_filledTree, by decide⟩,
    getZeroTo_dropLeaves_odd 4 filledTree filledOps 1 (by decide) BuiltExact_filledTree
      (by decide)⟩

/-- C5, the code at two failing inputs. On the tree `New(1, NewTxRef)` the call
`Insert(2 ^ 31, ref)` does not return, whatever the number of steps allowed: after 31
re-rootings `maxLC` is `2 ^ 31`, the next doubling wraps it to 0, and from then on
`clock >= t.maxLC` holds forever. On the tree `New(3, NewTxRef)` the call
`Insert(3 * 2 ^ 29, ref)` does not return either: the growth loop stops at
`maxLC = 3 * 2 ^ 30`, and in `newBranch(3 * 2 ^ 29, 3 * 2 ^ 30)` the sum `stop + start`
wraps, after which `stop` stays below `start` and the recursion never ends. -/
theorem insert_diverges (fuel : Nat) (ref : TxRef) :
    (New 1 NewTxRef).Insert fuel (2 ^ 31) ref = none ∧
      (New 3 NewTxRef).Insert fuel (3 * 2 ^ 29) ref = none := by
  constructor
  · unfold tree.Insert
    rw [growLoop_two_pow_31 fuel (New 1 NewTxRef) (Or.inr ⟨0, by decide, rfl⟩)]
  · exact insert_sum_wrapped fuel ref

/-- Counterexample to C6: for leaf size 1 and the list holding the single pair
`(2 ^ 31, ref)` (a permutation of itself) the call `Insert(2 ^ 31, ref)` on the fresh tree
does not return, whatever the number of steps allowed; so no tree results from inserting the
list, and there is no `GetRoot()` value to compare. -/
theorem getRoot_perm_counterexample :
    [((2 : Nat) ^ 31, TxRef.fill 1)].Perm [(2 ^ 31, TxRef.fill 1)] ∧
      (∀ fuel, (New 1 NewTxRef).Insert fuel (2 ^ 31) (TxRef.fill 1) = none) ∧
      (∀ t, ¬ Built 1 t [(2 ^ 31, TxRef.fill 1)]) := by
  have key : ∀ fuel, (New 1 NewTxRef).Insert fuel (2 ^ 31) (TxRef.fill 1) = none := by
    intro fuel
    unfold tree.Insert
    rw [growLoop_two_pow_31 fuel (New 1 NewTxRef) (Or.inr ⟨0, by decide, rfl⟩)]
  refine ⟨List.Perm.refl _, key, fun t h => ?_⟩
  obtain ⟨f, e, hins⟩ := Built_singleton h
  rw [key f] at hins
  simp at hins

/-- C6, amended: for every leaf size `L ≥ 1`, every list of (clock, reference) pairs and
every permutation of it: whenever all `Insert` calls return, for the list and for the
permuted list, on fresh trees `New(L, NewTxRef)`, both `GetRoot()` calls return the XOR of
all references of the list, so the two values are equal. For `L ≤ 2 ^ 31` and clocks below
`2 ^ 30` all `Insert` calls of both runs do return. -/
theorem getRoot_perm (L : Nat) (ops ops2 : List (Nat × TxRef)) (hL : 1 ≤ L)
    (hp : ops.Perm ops2) :
    (∀ t u, Built L t ops → Built L u ops2 →
        t.GetRoot = some (xorAll (ops.map Prod.snd)) ∧
          u.GetRoot = some (xorAll (ops.map Prod.snd))) ∧
      (L ≤ 2 ^ 31 → (∀ p ∈ ops, p.1 < 2 ^ 30) → ∃ t u, Built L t ops ∧ Built L u ops2) := by
  refine ⟨fun t u ht hu => ?_, fun h31 hb => ?_⟩
  · rw [GetRoot_eq_data, GetRoot_eq_data, Built_root_data ht, Built_root_data hu,
      xorAll_perm (hp.map Prod.snd)]
    exact ⟨rfl, rfl⟩
  · obtain ⟨t, ht, _⟩ := Built_exists hL h31 ops hb
    obtain ⟨u, hu, _⟩ := Built_exists hL h31 ops2 (fun p hp2 => hb p (hp.mem_iff.mpr hp2))
    exact ⟨t, u, ht, hu⟩

/-- Witness of the amended C6: `fill 1` at clock 0 and `fill 2` at clock 4, inserted in both
orders into `New(4, NewTxRef)`: both runs end in `twoLeafTree`, whose `GetRoot()` is
`fill 3`. -/
theorem getRoot_perm_witness :
    (1 ≤ 4 ∧
        [(0, TxRef.fill 1), (4, TxRef.fill 2)].Perm [(4, TxRef.fill 2), (0, TxRef.fill 1)]) ∧
      ((∀ t u, Built 4 t [(0, TxRef.fill 1), (4, TxRef.fill 2)] →
          Built 4 u [(4, TxRef.fill 2), (0, TxRef.fill 1)] →
          t.GetRoot = some (xorAll ([(0, TxRef.fill 1), (4, TxRef.fill 2)].map Prod.snd)) ∧
            u.GetRoot
              = some (xorAll ([(0, TxRef.fill 1), (4, TxRef.fill 2)].map Prod.snd))) ∧
        (4 ≤ 2 ^ 31 → (∀ p ∈ [(0, TxRef.fill 1), (4, TxRef.fill 2)], p.1 < 2 ^ 30) →
          ∃ t u, Built 4 t [(0, TxRef.fill 1), (4, TxRef.fill 2)] ∧
            Built 4 u [(4, TxRef.fill 2), (0, TxRef.fill 1)])) ∧
      (Built 4 twoLeafTree [(0, TxRef.fill 1), (4, TxRef.fill 2)] ∧
        Built 4 twoLeafTree [(4, TxRef.fill 2), (0, TxRef.fill 1)] ∧
        xorAll ([(0, TxRef.fill 1), (4, TxRef.fill 2)].map Prod.snd) = TxRef.fill 3 ∧
        twoLeafTree.GetRoot = some (TxRef.fill 3)) :=
  ⟨⟨by decide, List.Perm.swap _ _ _⟩,
    getRoot_perm 4 [(0, TxRef.fill 1), (4, TxRef.fill 2)]
      [(4, TxRef.fill 2), (0, TxRef.fill 1)] (by decide) (List.Perm.swap _ _ _),
    BuiltExact_built BuiltExact_twoLeafTree, BuiltExact_built BuiltExact_swapped,
    by decide, by decide⟩

/-- C7, the code at a failing input. The tree `New(2 ^ 31, NewTxRef)` has upper bound
`2 ^ 31`; `reRoot` computes `t.maxLC *= 2` in `uint32`, so after it the upper bound is 0,
not `2 * 2 ^ 31`, and the new root has `max = 0` above a left child with `max = 2 ^ 31`.
The call `Insert(2 ^ 31, ref)`, whose growth loop performs this `reRoot`, then does not
return, whatever the number of steps allowed. -/
theorem reRoot_doubling_wraps (fuel : Nat) (ref : TxRef) :
    (New (2 ^ 31) NewTxRef).maxLC = 2 ^ 31 ∧
      (New (2 ^ 31) NewTxRef).reRoot
        = some { root := node.mk (2 ^ 31) 0 TxRef.zero
                   (node.mk (2 ^ 31) (2 ^ 31) TxRef.zero node.nil node.nil) node.nil
                 maxLC := 0
                 leafSize := 2 ^ 31
                 dataInitFn := NewTxRef } ∧
      ((New (2 ^ 31) NewTxRef).reRoot).map tree.maxLC = some 0 ∧
      (0 : Nat) ≠ 2 * (New (2 ^ 31) NewTxRef).maxLC ∧
      (New (2 ^ 31) NewTxRef).Insert fuel (2 ^ 31) ref = none := by
  refine ⟨rfl, rfl, rfl, by decide, ?_⟩
  unfold tree.Insert
  rw [growLoop_two_pow_31 fuel (New (2 ^ 31) NewTxRef) (Or.inr ⟨31, by decide, rfl⟩)]

/-- What `reRoot` does on every tree `t` with a root: it returns and leaves `GetRoot()`
unchanged, the new root's aggregate equals the old root's aggregate, the old root (with
its whole subtree unchanged) is the new root's left child, the new root has no right
child, its split is the old upper bound, and the upper bound is doubled whenever twice
the old upper bound fits in `uint32`. A returning `Insert` whose clock lies beyond the
current range changes `GetRoot()` only by combining the inserted reference. -/
theorem reRoot_keeps_root (t : tree TxRef) (s m : Nat) (d : TxRef) (l r : node TxRef)
    (hr : t.root = node.mk s m d l r) :
    (∃ u mx, t.reRoot = some u ∧ u.GetRoot = t.GetRoot ∧
        u.root = node.mk t.maxLC mx d t.root node.nil ∧
        (2 * t.maxLC < lcSize → u.maxLC = 2 * t.maxLC) ∧ u.LeafSize = t.LeafSize) ∧
      (∀ fuel c ref v e, t.maxLC ≤ c → t.Insert fuel c ref = some (v, e) →
        t.GetRoot = some d ∧ v.GetRoot = some (d.xor ref)) := by
  constructor
  · refine ⟨_, (2 * t.maxLC) % lcSize, reRoot_of_root t s m d l r hr, ?_, rfl, ?_, rfl⟩
    · rw [GetRoot_eq_data, GetRoot_eq_data, hr]; rfl
    · intro hb
      show (t.maxLC * 2) % lcSize = 2 * t.maxLC
      rw [Nat.mul_comm]
      exact Nat.mod_eq_of_lt hb
  · intro fuel c ref v e _ hins
    have hd : t.root.data? = some d := by rw [hr]; rfl
    rw [GetRoot_eq_data, GetRoot_eq_data, Insert_data hins hd]
    exact ⟨hd, rfl⟩

/-- An instance of `reRoot_keeps_root`: the empty tree `New(4, NewTxRef)`. -/
theorem reRoot_keeps_root_witness :
    (New 4 NewTxRef).root = node.mk 4 4 TxRef.zero node.nil node.nil ∧
      ((∃ u mx, (New 4 NewTxRef).reRoot = some u ∧ u.GetRoot = (New 4 NewTxRef).GetRoot ∧
          u.root = node.mk (New 4 NewTxRef).maxLC mx TxRef.zero (New 4 NewTxRef).root node.nil ∧
          (2 * (New 4 NewTxRef).maxLC < lcSize → u.maxLC = 2 * (New 4 NewTxRef).maxLC) ∧
          u.LeafSize = (New 4 NewTxRef).LeafSize) ∧
        (∀ fuel c ref v e, (New 4 NewTxRef).maxLC ≤ c →
          (New 4 NewTxRef).Insert fuel c ref = some (v, e) →
          (New 4 NewTxRef).GetRoot = some TxRef.zero ∧
            v.GetRoot = some (TxRef.zero.xor ref))) :=
  ⟨rfl, reRoot_keeps_root (New 4 NewTxRef) 4 4 TxRef.zero node.nil node.nil rfl⟩

/-- C8, the code at a failing input. The tree `New(3, NewTxRef)` has upper bound `M = 3`,
and for the clock `c = 3 * 2 ^ 29` the least `j` with `c < M * 2 ^ j` is 30, with
`M * 2 ^ 30 < 2 ^ 32`: no doubling overflows. Yet `Insert(3 * 2 ^ 29, ref)` does not return,
whatever the number of steps allowed: after the growth loop, in
`newBranch(3 * 2 ^ 29, 3 * 2 ^ 30)`, the sum `stop + start` wraps, after which `stop` stays
below `start` and the recursion never ends. So there is no state after the call in which
the upper bound is `3 * 2 ^ 30`. -/
theorem insert_upper_bound_diverges (fuel : Nat) (ref : TxRef) :
    (1 ≤ (New 3 NewTxRef).maxLC ∧ 3 * 2 ^ 29 < (New 3 NewTxRef).maxLC * 2 ^ 30 ∧
        (∀ i, i < 30 → (New 3 NewTxRef).maxLC * 2 ^ i ≤ 3 * 2 ^ 29) ∧
        (New 3 NewTxRef).maxLC * 2 ^ 30 < lcSize) ∧
      (∀ (k : Nat) (u : tree TxRef), u.leafSize = 3 →
        u.newBranch k (3 * 2 ^ 29) (3 * 2 ^ 30) = none) ∧
      (New 3 NewTxRef).Insert fuel (3 * 2 ^ 29) ref = none := by
  refine ⟨⟨by decide, by decide, fun i hi => ?_, by decide⟩,
    fun k u hu => newBranch_sum_wrapped u hu k, insert_sum_wrapped fuel ref⟩
  exact mul_two_pow_le 3 (show i ≤ 29 by omega)

/-- The upper bound after a returning `Insert`: for a tree with upper bound `M ≥ 1` and a
clock `c`, with `j` the least number with `c < M * 2 ^ j` and `M * 2 ^ j < 2 ^ 32`, every
`Insert(c, ref)` that returns leaves the upper bound `M * 2 ^ j` and `LeafSize()` unchanged.
For a tree reached without overflow whose grown upper bound stays within `2 ^ 31`, the call
does return. -/
theorem insert_upper_bound (t : tree TxRef) (c j : Nat) (ref : TxRef) (_hM : 1 ≤ t.maxLC)
    (hc : c < t.maxLC * 2 ^ j) (hmin : ∀ i, i < j → t.maxLC * 2 ^ i ≤ c)
    (hov : t.maxLC * 2 ^ j < lcSize) :
    (∀ fuel u e, t.Insert fuel c ref = some (u, e) →
        u.maxLC = t.maxLC * 2 ^ j ∧ u.LeafSize = t.LeafSize) ∧
      (∀ L ops, 1 ≤ L → Reach L t ops → t.maxLC * 2 ^ j ≤ 2 ^ 31 →
        ∃ N, ∀ fuel, N ≤ fuel → ∃ u, t.Insert fuel c ref = some (u, none)) := by
  constructor
  · intro fuel u e hins
    obtain ⟨v, n1, hg, _, hu⟩ := Insert_eq_some hins
    subst hu
    exact ⟨growLoop_maxLC c j fuel t v hc hmin hov hg, growLoop_leafSize fuel t v c hg⟩
  · intro L ops hL hreach hb
    exact Insert_returns c j ref (Reach_inv hL hreach) hc hmin hb

/-- An instance of `insert_upper_bound`: with leaf size 4, `Insert(5, ref)` on the empty
tree re-roots exactly once: the upper bound becomes 8, and the reference is at the root and
at the right-half node while the left-half node is still zero. -/
theorem insert_upper_bound_witness :
    (1 ≤ (New 4 NewTxRef).maxLC ∧ 5 < (New 4 NewTxRef).maxLC * 2 ^ 1 ∧
        (∀ i, i < 1 → (New 4 NewTxRef).maxLC * 2 ^ i ≤ 5) ∧
        (New 4 NewTxRef).maxLC * 2 ^ 1 < lcSize) ∧
      ((∀ fuel u e, (New 4 NewTxRef).Insert fuel 5 (TxRef.fill 1) = some (u, e) →
          u.maxLC = (New 4 NewTxRef).maxLC * 2 ^ 1 ∧ u.LeafSize = (New 4 NewTxRef).LeafSize) ∧
        (∀ L ops, 1 ≤ L → Reach L (New 4 NewTxRef) ops →
          (New 4 NewTxRef).maxLC * 2 ^ 1 ≤ 2 ^ 31 →
          ∃ N, ∀ fuel, N ≤ fuel →
            ∃ u, (New 4 NewTxRef).Insert fuel 5 (TxRef.fill 1) = some (u, none))) ∧
      (New 4 NewTxRef).Insert 3 5 (TxRef.fill 1) = some (treeAfterInsert5, none) ∧
      treeAfterInsert5.maxLC = 8 ∧
      treeAfterInsert5.root = node.mk 4 8 (TxRef.fill 1)
        (node.mk 4 4 TxRef.zero node.nil node.nil)
        (node.mk 6 8 (TxRef.fill 1) node.nil node.nil) :=
  ⟨⟨by decide, by decide, by decide, by decide⟩,
    insert_upper_bound (New 4 NewTxRef) 5 1 (TxRef.fill 1) (by decide) (by decide)
      (by decide) (by decide),
    rfl, rfl, rfl⟩

/-- C9: for every tree whose root is a leaf (`root.left` absent), `DropLeaves()` is a
no-op: it returns the tree as it was, so the root is kept, stays a leaf with the same
aggregate, and `LeafSize()` and the upper bound are unchanged. -/
theorem dropLeaves_leaf_root {D : Type} (t : tree D) (s m : Nat) (d : D) (r : node D)
    (h : t.root = node.mk s m d node.nil r) : t.DropLeaves = some t := by
  simp only [tree.DropLeaves, h]

/-- Witness of C9: the single-leaf tree holding one reference. -/
theorem dropLeaves_leaf_root_witness :
    treeAfterInsert0.root = node.mk 4 4 (TxRef.fill 1) node.nil node.nil ∧
      treeAfterInsert0.DropLeaves = some treeAfterInsert0 :=
  ⟨rfl, dropLeaves_leaf_root treeAfterInsert0 4 4 (TxRef.fill 1) node.nil rfl⟩

/-- Counterexample to C10. The tree reached from `New(4, NewTxRef)` by `reRoot()`,
`reRoot()` and `DropLeaves()` has height 1, and one more `DropLeaves()` call yields a
single-leaf root with `LeafSize() = 16`, not `4 * 2 ^ 1`. And for the tree reached from
`New(2 ^ 31, NewTxRef)` by `reRoot()`, `DropLeaves()` yields `LeafSize() = 0`: the doubling
wraps. -/
theorem dropLeaves_leafSize_counterexample :
    (((New 4 NewTxRef).reRoot.bind tree.reRoot).bind tree.DropLeaves = some prunedOnceTree ∧
        prunedOnceTree.root.height = 1 ∧
        (dropLeavesN 1 prunedOnceTree).map tree.LeafSize = some 16 ∧
        (16 : Nat) ≠ 4 * 2 ^ 1) ∧
      (((New (2 ^ 31) NewTxRef).reRoot.bind tree.DropLeaves).map tree.LeafSize = some 0 ∧
        ((New (2 ^ 31) NewTxRef).reRoot).map tree.LeafSize = some (2 ^ 31) ∧
        (0 : Nat) ≠ 2 * 2 ^ 31) :=
  ⟨⟨rfl, rfl, rfl, by decide⟩, rfl, rfl, by decide⟩

/-- C10, amended: for every tree reached from `New(L, NewTxRef)`, `L ≥ 1`, by `Insert`,
`reRoot` and `DropLeaves` without overflow of clock arithmetic, whose height (length
of the left spine from the root) is `h ≥ 1`: `DropLeaves()` yields a tree of height `h - 1`
in which exactly the nodes of depth `< h` survive with split, max and aggregate unchanged,
the nodes of depth `h - 1` having no children, `LeafSize()` is doubled and the upper bound
is unchanged; and `h` successive `DropLeaves()` calls yield a single-leaf root with
`LeafSize()` equal to `2 ^ h` times the `LeafSize()` before these calls. -/
theorem dropLeaves_level (L : Nat) (t : tree TxRef) (ops : List (Nat × TxRef)) (h : Nat)
    (hL : 1 ≤ L) (hr : Reach L t ops) (hh : t.root.height = h) (h1 : 1 ≤ h) :
    (∃ u, t.DropLeaves = some u ∧ u.root = t.root.keep h ∧ u.root.height = h - 1 ∧
        u.LeafSize = 2 * t.LeafSize ∧ u.maxLC = t.maxLC) ∧
      (∃ v sp mx d, dropLeavesN h t = some v ∧
        v.root = node.mk sp mx d node.nil node.nil ∧ v.LeafSize = t.LeafSize * 2 ^ h) := by
  have hinv := Reach_inv hL hr
  obtain ⟨k, rfl⟩ : ∃ k, h = k + 1 := ⟨h - 1, by omega⟩
  constructor
  · obtain ⟨u, hu⟩ := DropLeaves_isSome hinv
    exact ⟨u, hu, DropLeaves_height hinv hh hu⟩
  · exact dropLeavesN_inv (k + 1) t hinv hh

/-- Witness of the amended C10: the tree of `filledTree`, of height 2. -/
theorem dropLeaves_level_witness :
    (1 ≤ 4 ∧ Reach 4 filledTree filledOps ∧ filledTree.root.height = 2 ∧ 1 ≤ 2) ∧
      ((∃ u, filledTree.DropLeaves = some u ∧ u.root = filledTree.root.keep 2 ∧
          u.root.height = 2 - 1 ∧ u.LeafSize = 2 * filledTree.LeafSize ∧
          u.maxLC = filledTree.maxLC) ∧
        (∃ v sp mx d, dropLeavesN 2 filledTree = some v ∧
          v.root = node.mk sp mx d node.nil node.nil ∧
          v.LeafSize = filledTree.LeafSize * 2 ^ 2)) :=
  ⟨⟨by decide, BuiltExact_reach BuiltExact_filledTree, rfl, by decide⟩,
    dropLeaves_level 4 filledTree filledOps 2 (by decide)
      (BuiltExact_reach BuiltExact_filledTree) rfl (by decide)⟩

/-- C11: for every `TxRef` value `r` and every reference `x`, `r.Insert(x)` followed by
`r.Subtract(&x)` returns nil both times and restores `r`, and likewise `Subtract` followed
by `Insert`: both are the byte-wise XOR. -/
theorem insert_subtract_inverse (r x : TxRef) :
    ((TxRef.Insert r x).2 = none ∧
        (TxRef.Insert r x).1.SubtractData (DataValue.txRef (some x)) = some (r, none)) ∧
      (∃ r1, r.SubtractData (DataValue.txRef (some x)) = some (r1, none) ∧
        TxRef.Insert r1 x = (r, none)) ∧
      (TxRef.Insert r x).1 = r.xor x ∧
      r.SubtractData (DataValue.txRef (some x)) = some (r.xor x, none) := by
  refine ⟨⟨rfl, ?_⟩, ⟨r.xor x, rfl, ?_⟩, rfl, rfl⟩
  · show some ((r.xor x).xor x, none) = some (r, none)
    rw [TxRef.xor_xor_cancel]
  · show ((r.xor x).xor x, none) = (r, none)
    rw [TxRef.xor_xor_cancel]

/-- C12: for every `TxRef` receiver `r` and every `Data` argument `d`, `r.Subtract(d)`
returns a non-nil error if and only if the dynamic type of `d` is not `*TxRef`; when it
returns an error `r` is unchanged, and when it returns nil `r` has become the byte-wise
XOR of its old value with the array `d` points to. -/
theorem subtract_error_iff (r : TxRef) (d : DataValue) :
    ((∃ r1 e, r.SubtractData d = some (r1, some e)) ↔ ¬ ∃ p, d = DataValue.txRef p) ∧
      (∀ r1 e, r.SubtractData d = some (r1, some e) → r1 = r) ∧
      (∀ r1, r.SubtractData d = some (r1, none) →
        ∃ x, d = DataValue.txRef (some x) ∧ r1 = r.xor x) := by
  cases d with
  | nilData =>
    refine ⟨⟨fun _ ⟨p, hp⟩ => (by cases hp), fun _ => ⟨r, _, rfl⟩⟩, ?_, ?_⟩
    · intro r1 e h
      simp only [TxRef.SubtractData, Option.some.injEq, Prod.mk.injEq] at h
      exact h.1.symm
    · intro r1 h
      simp [TxRef.SubtractData] at h
  | other n =>
    refine ⟨⟨fun _ ⟨p, hp⟩ => (by cases hp), fun _ => ⟨r, _, rfl⟩⟩, ?_, ?_⟩
    · intro r1 e h
      simp only [TxRef.SubtractData, Option.some.injEq, Prod.mk.injEq] at h
      exact h.1.symm
    · intro r1 h
      simp [TxRef.SubtractData] at h
  | txRef p =>
    cases p with
    | none =>
      refine ⟨⟨fun ⟨r1, e, h⟩ => (by simp [TxRef.SubtractData] at h),
        fun h => absurd ⟨none, rfl⟩ h⟩, ?_, ?_⟩
      · intro r1 e h
        simp [TxRef.SubtractData] at h
      · intro r1 h
        simp [TxRef.SubtractData] at h
    | some x =>
      refine ⟨⟨fun ⟨r1, e, h⟩ => (by simp [TxRef.SubtractData] at h),
        fun h => absurd ⟨some x, rfl⟩ h⟩, ?_, ?_⟩
      · intro r1 e h
        simp [TxRef.SubtractData] at h
      · intro r1 h
        simp only [TxRef.SubtractData, Option.some.injEq, Prod.mk.injEq, and_true] at h
        exact ⟨x, rfl, h.symm⟩

/-- Counterexample to C13: in `mixedTree` the call `GetZeroTo(0)` subtracts the aggregate of
the right leaf from the copy of the root aggregate; this `Subtract` fails with the type
mismatch of `TxRef.Subtract`, and `GetZeroTo(0)` returns a nil error with the accumulator
unchanged. -/
theorem getZeroTo_swallows_error_counterexample :
    (TxRef.fill 1).SubtractData MixedData.plain.toValue
        = some (TxRef.fill 1, some "internal data structures do not match") ∧
      (Data.Subtract (MixedData.tx (TxRef.fill 1)) MixedData.plain).2 ≠ none ∧
      mixedTree.GetZeroTo 0 = some (MixedData.tx (TxRef.fill 1), none) :=
  ⟨rfl, by decide, by decide⟩

/-- C13, amended: for every tree with a root, whatever the implementation of `Data`, and
every clock `c`: `GetZeroTo(c)` returns a nil error, also when a `Subtract` performed
during the walk fails: the result of `Subtract` is discarded and the accumulator is used as
`Subtract` left it. -/
theorem getZeroTo_error_nil {D : Type} [Data D] (t : tree D) (c : Nat) (s m : Nat) (d : D)
    (l r : node D) (hr : t.root = node.mk s m d l r) :
    t.GetZeroTo c = some (getZeroToLoop c t.root (Data.Clone d), none) ∧
      (∀ (sp mx rs rm : Nat) (x y : D) (n rl rr : node D) (acc : D), c < sp →
        getZeroToLoop c (node.mk sp mx x n (node.mk rs rm y rl rr)) acc
          = getZeroToLoop c n (Data.Subtract acc y).1) := by
  constructor
  · simp only [tree.GetZeroTo, hr]
  · intro sp mx rs rm x y n rl rr acc hc
    simp only [getZeroToLoop, if_pos hc]

/-- Witness of the amended C13: the tree `mixedTree`, in which a `Subtract` fails. -/
theorem getZeroTo_error_nil_witness :
    mixedTree.root = node.mk 4 8 (MixedData.tx (TxRef.fill 1))
        (node.mk 4 4 (MixedData.tx (TxRef.fill 1)) node.nil node.nil)
        (node.mk 6 8 MixedData.plain node.nil node.nil) ∧
      (mixedTree.GetZeroTo 0
          = some (getZeroToLoop 0 mixedTree.root
              (Data.Clone (MixedData.tx (TxRef.fill 1))), none) ∧
        (∀ (sp mx rs rm : Nat) (x y : MixedData) (n rl rr : node MixedData)
          (acc : MixedData), 0 < sp →
          getZeroToLoop 0 (node.mk sp mx x n (node.mk rs rm y rl rr)) acc
            = getZeroToLoop 0 n (Data.Subtract acc y).1)) :=
  ⟨rfl, getZeroTo_error_nil mixedTree 0 4 8 (MixedData.tx (TxRef.fill 1)) _ _ rfl⟩

/-- C14: for every leaf size `L`, `New(L, NewTxRef)` is an empty tree covering `[0, L)`:
`LeafSize() = L`, the upper bound is `L`, the root exists and is a leaf (no left, no right
child) whose aggregate is all-zero; `GetRoot()` is all-zero, and `GetZeroTo(c)` is all-zero
with a nil error for every clock `c`. -/
theorem new_empty (L c : Nat) :
    (New L NewTxRef).LeafSize = L ∧ (New L NewTxRef).maxLC = L ∧
      (∃ split, (New L NewTxRef).root = node.mk split L TxRef.zero node.nil node.nil) ∧
      (New L NewTxRef).GetRoot = some TxRef.zero ∧
      (New L NewTxRef).GetZeroTo c = some (TxRef.zero, none) := by
  refine ⟨rfl, rfl, ⟨L, rfl⟩, rfl, ?_⟩
  show some (getZeroToLoop c (node.mk L L TxRef.zero node.nil node.nil) TxRef.zero, none) = _
  rw [getZeroToLoop_leaf]

/-- C15: in every tree reached from `New(L, NewTxRef)`, `L ≥ 1`, by `Insert` and `DropLeaves`
(and `reRoot`) without overflow of clock arithmetic, the aggregate of every node equals the
XOR of all inserted references whose clock lies in the range of the node, the root covering
`[0, maxLC)`, the left child of a node covering `[s, m)` with split `p` covering `[s, p)`
and the right child `[p, m)`; and the aggregate of every node with children is the XOR of
the aggregates of its left and right child, an absent right child counting as zero. -/
theorem aggregates_match_ranges (L : Nat) (t : tree TxRef) (ops : List (Nat × TxRef))
    (hL : 1 ≤ L) (h : Reach L t ops) :
    aggregatesMatch ops 0 t.maxLC t.root ∧ sumOfChildren t.root := by
  obtain ⟨_, _, _, _, ht, hM, hg⟩ := Reach_inv hL h
  have := Good_aggregates ht 0 t.root hg
  rw [Nat.zero_add, ← hM] at this
  exact this

/-- Witness of C15: the tree of `filledTree` has the leaves `ref0`, `ref4 ^ ref5`, `ref8`,
the parents `ref0 ^ ref4 ^ ref5` and `ref8`, and no node at `root.right.right`. -/
theorem aggregates_match_ranges_witness :
    (1 ≤ 4 ∧ Reach 4 filledTree filledOps) ∧
      (aggregatesMatch filledOps 0 filledTree.maxLC filledTree.root ∧
        sumOfChildren filledTree.root) ∧
      filledTree.root = node.mk 8 16
        (((TxRef.fill 1).xor ((TxRef.fill 2).xor (TxRef.fill 8))).xor (TxRef.fill 4))
        (node.mk 4 8 ((TxRef.fill 1).xor ((TxRef.fill 2).xor (TxRef.fill 8)))
          (node.mk 4 4 (TxRef.fill 1) node.nil node.nil)
          (node.mk 6 8 ((TxRef.fill 2).xor (TxRef.fill 8)) node.nil node.nil))
        (node.mk 12 16 (TxRef.fill 4)
          (node.mk 10 12 (TxRef.fill 4) node.nil node.nil)
          node.nil) :=
  ⟨⟨by decide, BuiltExact_reach BuiltExact_filledTree⟩,
    aggregates_match_ranges 4 filledTree filledOps (by decide)
      (BuiltExact_reach BuiltExact_filledTree),
    by decide⟩

/-- C19: for every tree with leaf size `L ≥ 1` and every `start`, `stop` with
`stop - start = L * 2 ^ k` and `start + stop` not overflowing `uint32`, `newBranch(start,
stop)` terminates (within `k + 1` nested calls) and returns the chain `leftSpine` of
exactly `k + 1` nodes linked through left children only: every node has the aggregate
produced by the factory and no right child, the `i`-th node has
`max = start + L * 2 ^ (k - i)` and `split = start + L * 2 ^ (k - i) / 2`, and only the last
node has no left child, so that the final leaf covers `[start, start + L)`. -/
theorem newBranch_left_spine {D : Type} (t : tree D) (k fuel start : Nat)
    (hL : 1 ≤ t.leafSize) (hsum : start + (start + t.leafSize * 2 ^ k) < lcSize)
    (hfuel : k < fuel) :
    t.newBranch fuel start (start + t.leafSize * 2 ^ k)
      = some (leftSpine (t.dataInitFn ()) t.leafSize start k) :=
  newBranch_eq_leftSpine t k fuel start hL hsum hfuel

/-- Witness of C19: in a tree of leaf size 4, `newBranch(8, 16)` returns the node over
`[8, 16)` with split 12 and its left child, the leaf over `[8, 12)` with split 10. -/
theorem newBranch_left_spine_witness :
    (1 ≤ (New 4 NewTxRef).leafSize ∧ 8 + (8 + (New 4 NewTxRef).leafSize * 2 ^ 1) < lcSize ∧
        1 < 2) ∧
      (New 4 NewTxRef).newBranch 2 8 (8 + (New 4 NewTxRef).leafSize * 2 ^ 1)
        = some (leftSpine ((New 4 NewTxRef).dataInitFn ()) (New 4 NewTxRef).leafSize 8 1) ∧
      leftSpine ((New 4 NewTxRef).dataInitFn ()) (New 4 NewTxRef).leafSize 8 1
        = node.mk 12 16 TxRef.zero (node.mk 10 12 TxRef.zero node.nil node.nil) node.nil :=
  ⟨⟨by decide, by decide, by decide⟩,
    newBranch_left_spine (New 4 NewTxRef) 1 2 8 (by decide) (by decide) (by decide), rfl⟩

/-- C20: for every tree built from `New(L, NewTxRef)`, `L ≥ 1`, by a sequence of `Insert`
calls without overflow, whose root is not a leaf, and every clock `c`: after one
`DropLeaves()`, `GetZeroTo(c)` equals the XOR of all inserted references whose clock is
strictly less than `(floor(c / (2L)) + 1) * 2L`; this is the value of
`GetZeroTo(floor(c / (2L)) * 2L + L)` before the call; so `GetZeroTo(c)` is unchanged for
the clocks `c` with `floor(c / L)` odd, and `GetRoot()` is unchanged. -/
theorem getZeroTo_after_dropLeaves (L : Nat) (t : tree TxRef) (ops : List (Nat × TxRef))
    (c : Nat) (hL : 1 ≤ L) (h : BuiltExact L t ops) (hroot : t.root.height ≠ 0) :
    ∃ u, t.DropLeaves = some u ∧ u.LeafSize = L * 2 ∧
      u.GetZeroTo c = some (xorBelow ops ((c / (L * 2) + 1) * (L * 2)), none) ∧
      u.GetZeroTo c = t.GetZeroTo (c / (L * 2) * (L * 2) + L) ∧
      (c / L % 2 = 1 → u.GetZeroTo c = t.GetZeroTo c) ∧
      u.GetRoot = t.GetRoot := by
  have hinv := Reach_inv hL (BuiltExact_reach h)
  have hls := Built_leafSize (BuiltExact_built h)
  obtain ⟨u, hu⟩ := DropLeaves_isSome hinv
  obtain ⟨k, hk⟩ : ∃ k, t.root.height = k + 1 := ⟨t.root.height - 1, by omega⟩
  obtain ⟨_, _, hlu, _⟩ := DropLeaves_height hinv hk hu
  obtain ⟨hinvu, _, _⟩ := DropLeaves_inv hinv hu
  have hlu2 : u.leafSize = L * 2 := by rw [hlu, hls, Nat.mul_comm]
  have key : u.GetZeroTo c = some (xorBelow ops ((c / (L * 2) + 1) * (L * 2)), none) := by
    rw [GetZeroTo_inv hinvu c, hlu2]
  refine ⟨u, hu, hlu2, key, ?_, fun hodd => ?_, ?_⟩
  · rw [key, GetZeroTo_inv hinv, hls, leafEnd_upper L c hL]
  · rw [key, GetZeroTo_inv hinv, hls, leafEnd_odd L c hL hodd]
  · rw [GetRoot_eq_data, GetRoot_eq_data, DropLeaves_data hu]

/-- Witness of C20: the tree of `filledTree` and the clock 5. -/
theorem getZeroTo_after_dropLeaves_witness :
    (1 ≤ 4 ∧ BuiltExact 4 filledTree filledOps ∧ filledTree.root.height ≠ 0) ∧
      ∃ u, filledTree.DropLeaves = some u ∧ u.LeafSize = 4 * 2 ∧
        u.GetZeroTo 5 = some (xorBelow filledOps ((5 / (4 * 2) + 1) * (4 * 2)), none) ∧
        u.GetZeroTo 5 = filledTree.GetZeroTo (5 / (4 * 2) * (4 * 2) + 4) ∧
        (5 / 4 % 2 = 1 → u.GetZeroTo 5 = filledTree.GetZeroTo 5) ∧
        u.GetRoot = filledTree.GetRoot :=
  ⟨⟨by decide, BuiltExact_filledTree, by decide⟩,
    getZeroTo_after_dropLeaves 4 filledTree filledOps 5 (by decide) BuiltExact_filledTree
      (by decide)⟩

/-- Counterexample to C16: the root created by `New(4, NewTxRef)` covers `[0, 4)` and has
split 4, not the midpoint 2. And in the tree of leaf size `11 * 2 ^ 28` after
`Insert(11 * 2 ^ 28, A)`, in which `uint32` operations wrapped, the splits are not the
midpoints even apart from the leaf at clock 0. -/
theorem split_midpoint_counterexample :
    ¬ midpointSplits 0 (New 4 NewTxRef).maxLC (New 4 NewTxRef).root ∧
      (Built (11 * 2 ^ 28) wrappedTree [(11 * 2 ^ 28, TxRef.fill 1)] ∧
        ¬ midpointSplitsExcept true 0 wrappedTree.maxLC wrappedTree.root) := by
  refine ⟨fun h => ?_, Built_wrappedTree, fun h => ?_⟩
  · simp [New, newNode, midpointSplits] at h
  · simp [wrappedTree, midpointSplitsExcept] at h

/-- C16, amended: in every tree reached from `New(L, dataInitFn)`, `L ≥ 1`, by `Insert` and
`DropLeaves` (and `reRoot`) without overflow of clock arithmetic, every node's split is the
midpoint `(start + max) / 2` of the clock range `[start, max)` the node covers - for roots
created by re-rooting and for every node created by `newBranch` alike - except for the leaf
at clock 0 as long as it is the node created by `New`, whose split is the end of its
range. -/
theorem split_midpoint_except_first {D : Type} [Data D] (L : Nat) (init : Unit → D)
    (t : tree D) (hL : 1 ≤ L) (h : ReachAny L init t) :
    midpointSplitsExcept true 0 t.maxLC t.root :=
  ShapeInv_midpoint (ReachAny_shape hL h)

/-- Witness of the amended C16: the tree of `filledTree`. -/
theorem split_midpoint_except_first_witness :
    (1 ≤ 4 ∧ ReachAny 4 NewTxRef filledTree) ∧
      midpointSplitsExcept true 0 filledTree.maxLC filledTree.root :=
  ⟨⟨by decide, Reach_any (BuiltExact_reach BuiltExact_filledTree)⟩,
    split_midpoint_except_first 4 NewTxRef filledTree (by decide)
      (Reach_any (BuiltExact_reach BuiltExact_filledTree))⟩

/-- C17, the code at a failing input. On `New(11 * 2 ^ 28, NewTxRef)` the call
`Insert(11 * 2 ^ 28, ref)` returns nil after `uint32` operations wrapped (the doubling of
the upper bound in `reRoot` and the sum in `newBranch`): the upper bound is `12 * 2 ^ 28`,
which is not `LeafSize() * 2 ^ h` for any `h`; the left leaf is at depth 2, and the right
leaf is at depth 1 and covers `[6 * 2 ^ 28, 12 * 2 ^ 28)`, of width `6 * 2 ^ 28`, while
`LeafSize()` is `11 * 2 ^ 28`; so the tree does not have the shape the invariant states. -/
theorem uniform_shape_wrapped :
    (New (11 * 2 ^ 28) NewTxRef).Insert 3 (11 * 2 ^ 28) (TxRef.fill 1)
        = some (wrappedTree, none) ∧
      Built (11 * 2 ^ 28) wrappedTree [(11 * 2 ^ 28, TxRef.fill 1)] ∧
      wrappedTree.root = node.mk 1610612736 3221225472 (TxRef.fill 1)
        (node.mk 2952790016 1610612736 TxRef.zero
          (node.mk 2952790016 2952790016 TxRef.zero node.nil node.nil) node.nil)
        (node.mk 268435456 3221225472 (TxRef.fill 1) node.nil node.nil) ∧
      (wrappedTree.maxLC = 3221225472 ∧ wrappedTree.LeafSize = 2952790016) ∧
      (∀ h, wrappedTree.maxLC ≠ wrappedTree.LeafSize * 2 ^ h) ∧
      ¬ uniformTree wrappedTree := by
  have key : ∀ h, wrappedTree.maxLC ≠ wrappedTree.LeafSize * 2 ^ h := by
    intro h heq
    have h1 : (3221225472 : Nat) = 2952790016 * 2 ^ h := heq
    cases h with
    | zero => simp at h1
    | succ k =>
      have := mul_two_pow_succ 2952790016 k
      have := mul_two_pow_ge (L := 2952790016) k
      omega
  exact ⟨rfl, Built_wrappedTree, rfl, ⟨rfl, rfl⟩, key, fun ⟨h, hh, _⟩ => key h hh⟩

/-- The shape of trees reached without overflow: every tree reached from
`New(L, dataInitFn)`, `L ≥ 1`, by `Insert` and `DropLeaves` (and `reRoot`) without overflow
of clock arithmetic has the shape: a node has a right child only if it has a left child,
every leaf covers a range of width exactly `LeafSize()`, all leaves are at the same depth
`h`, and the upper bound is `LeafSize() * 2 ^ h`. A returning `Insert` without overflow and
`DropLeaves` both lead to a tree of this shape again. -/
theorem uniform_shape {D : Type} [Data D] (L : Nat) (init : Unit → D) (t : tree D)
    (hL : 1 ≤ L) (h : ReachAny L init t) :
    uniformTree t ∧
      (∀ f c r u e, c < lcSize → t.InsertExact f c r = true → t.Insert f c r = some (u, e) →
        uniformTree u) ∧
      (∀ u, t.DropLeaves = some u → uniformTree u) :=
  ⟨ShapeInv_uniform (ReachAny_shape hL h),
    fun _ _ _ _ _ hc hex hins =>
      ShapeInv_uniform (ReachAny_shape hL (ReachAny.insert h hc hex hins)),
    fun _ hd => ShapeInv_uniform (ReachAny_shape hL (ReachAny.dropLeaves h hd))⟩

/-- An instance of `uniform_shape`: the tree of `filledTree`, of height 2. -/
theorem uniform_shape_witness :
    (1 ≤ 4 ∧ ReachAny 4 NewTxRef filledTree) ∧
      (uniformTree filledTree ∧
        (∀ f c r u e, c < lcSize → filledTree.InsertExact f c r = true →
          filledTree.Insert f c r = some (u, e) → uniformTree u) ∧
        (∀ u, filledTree.DropLeaves = some u → uniformTree u)) ∧
      filledTree.maxLC = filledTree.LeafSize * 2 ^ 2 ∧
      uniformLeaves filledTree.LeafSize 2 0 filledTree.maxLC filledTree.root :=
  ⟨⟨by decide, Reach_any (BuiltExact_reach BuiltExact_filledTree)⟩,
    uniform_shape 4 NewTxRef filledTree (by decide)
      (Reach_any (BuiltExact_reach BuiltExact_filledTree)),
    rfl, by simp [filledTree, uniformLeaves, tree.LeafSize]⟩

/-- C18: for every leaf size `L ≥ 1`, every tree `t` reached from `New(L, NewTxRef)` and
every two pairs `(c1, r1)`, `(c2, r2)`: whenever no clock arithmetic overflows, inserting
`(c1, r1)` then `(c2, r2)` into `t` yields exactly the same tree as inserting `(c2, r2)` then
`(c1, r1)`: the same upper bound and leaf size, the same nodes with the same split and max,
and the same aggregate in every node. For an upper bound of at most `2 ^ 31` and clocks below
`2 ^ 30` all four calls return (with 33 or more loop iterations allowed) and the two orders
end in one tree. And any two overflow-free insertion sequences from `New(L, NewTxRef)` whose
lists of pairs are permutations of each other give the same tree. -/
theorem insert_order_irrelevant (L : Nat) (t : tree TxRef) (ops : List (Nat × TxRef))
    (c1 c2 : Nat) (r1 r2 : TxRef) (hL : 1 ≤ L) (hr : Reach L t ops) :
    (∀ f1 f2 f3 f4 u1 u2 v1 v2 e1 e2 e3 e4,
        t.Insert f1 c1 r1 = some (u1, e1) → t.InsertExact f1 c1 r1 = true →
        u1.Insert f2 c2 r2 = some (u2, e2) → u1.InsertExact f2 c2 r2 = true →
        t.Insert f3 c2 r2 = some (v1, e3) → t.InsertExact f3 c2 r2 = true →
        v1.Insert f4 c1 r1 = some (v2, e4) → v1.InsertExact f4 c1 r1 = true →
        u2 = v2) ∧
      (t.maxLC ≤ 2 ^ 31 → c1 < 2 ^ 30 → c2 < 2 ^ 30 →
        ∀ f1 f2 f3 f4, 33 ≤ f1 → 33 ≤ f2 → 33 ≤ f3 → 33 ≤ f4 →
          ∃ u1 v1 w, t.Insert f1 c1 r1 = some (u1, none) ∧
            u1.Insert f2 c2 r2 = some (w, none) ∧ t.Insert f3 c2 r2 = some (v1, none) ∧
            v1.Insert f4 c1 r1 = some (w, none)) ∧
      (∀ u v o o2, BuiltExact L u o → BuiltExact L v o2 → o.Perm o2 → u = v) := by
  obtain ⟨ls, hc⟩ := Reach_canon hL hr
  refine ⟨?_, ?_, ?_⟩
  · intro f1 f2 f3 f4 u1 u2 v1 v2 e1 e2 e3 e4 h1 x1 h2 x2 h3 x3 h4 x4
    exact Insert_swap hc h1 (Or.inr x1) h2 (Or.inr x2) h3 (Or.inr x3) h4 (Or.inr x4)
  · intro hM h1 h2 f1 f2 f3 f4 g1 g2 g3 g4
    exact Insert_swap_total c1 c2 r1 r2 hc hM h1 h2 f1 f2 f3 f4 g1 g2 g3 g4
  · intro u v o o2 hu hv p
    exact BuiltExact_unique hL hu hv p

/-- Witness of C18: on the empty tree of leaf size 4, `Insert(0, fill 1)` then
`Insert(4, fill 2)`, and `Insert(4, fill 2)` then `Insert(0, fill 1)`, both end in the tree
`twoLeafTree`, though the intermediate trees differ. -/
theorem insert_order_irrelevant_witness :
    (1 ≤ 4 ∧ Reach 4 (New 4 NewTxRef) []) ∧
      ((∀ f1 f2 f3 f4 u1 u2 v1 v2 e1 e2 e3 e4,
          (New 4 NewTxRef).Insert f1 0 (TxRef.fill 1) = some (u1, e1) →
          (New 4 NewTxRef).InsertExact f1 0 (TxRef.fill 1) = true →
          u1.Insert f2 4 (TxRef.fill 2) = some (u2, e2) →
          u1.InsertExact f2 4 (TxRef.fill 2) = true →
          (New 4 NewTxRef).Insert f3 4 (TxRef.fill 2) = some (v1, e3) →
          (New 4 NewTxRef).InsertExact f3 4 (TxRef.fill 2) = true →
          v1.Insert f4 0 (TxRef.fill 1) = some (v2, e4) →
          v1.InsertExact f4 0 (TxRef.fill 1) = true →
          u2 = v2) ∧
        ((New 4 NewTxRef).maxLC ≤ 2 ^ 31 → 0 < 2 ^ 30 → 4 < 2 ^ 30 →
          ∀ f1 f2 f3 f4, 33 ≤ f1 → 33 ≤ f2 → 33 ≤ f3 → 33 ≤ f4 →
            ∃ u1 v1 w, (New 4 NewTxRef).Insert f1 0 (TxRef.fill 1) = some (u1, none) ∧
              u1.Insert f2 4 (TxRef.fill 2) = some (w, none) ∧
              (New 4 NewTxRef).Insert f3 4 (TxRef.fill 2) = some (v1, none) ∧
              v1.Insert f4 0 (TxRef.fill 1) = some (w, none)) ∧
        (∀ u v o o2, BuiltExact 4 u o → BuiltExact 4 v o2 → o.Perm o2 → u = v)) ∧
      ((New 4 NewTxRef).Insert 3 0 (TxRef.fill 1) = some (treeAfterInsert0, none) ∧
        (New 4 NewTxRef).InsertExact 3 0 (TxRef.fill 1) = true ∧
        treeAfterInsert0.Insert 3 4 (TxRef.fill 2) = some (twoLeafTree, none) ∧
        treeAfterInsert0.InsertExact 3 4 (TxRef.fill 2) = true ∧
        (New 4 NewTxRef).Insert 3 4 (TxRef.fill 2) = some (treeAfterInsert4, none) ∧
        (New 4 NewTxRef).InsertExact 3 4 (TxRef.fill 2) = true ∧
        treeAfterInsert4.Insert 3 0 (TxRef.fill 1) = some (twoLeafTree, none) ∧
        treeAfterInsert4.InsertExact 3 0 (TxRef.fill 1) = true ∧
        treeAfterInsert0 ≠ treeAfterInsert4) :=
  ⟨⟨by decide, Reach.new (by decide)⟩,
    insert_order_irrelevant 4 (New 4 NewTxRef) [] 0 4 (TxRef.fill 1) (TxRef.fill 2)
      (by decide) (Reach.new (by decide)),
    rfl, rfl, rfl, rfl, rfl, rfl, rfl, rfl, fun h => by
      have := congrArg tree.maxLC h
      exact absurd this (by decide)⟩
end BiTree
